import Mathlib

/-!
Verification of the storage kernel of the my-bustub repository against its
natural-language specification.  The Lean definitions below are shallow
embeddings of the C++ sources:

  src/buffer/arc_replacer.cpp           (ARC replacer)
  src/buffer/buffer_pool_manager.cpp    (buffer pool)
  src/storage/page/page_guard.cpp       (read and write page guards)
  src/storage/page/b_plus_tree_leaf_page.cpp
  src/storage/page/b_plus_tree_internal_page.cpp
  src/storage/index/b_plus_tree.cpp     (B+ tree)

Machine integers page_id_t and frame_id_t are modelled as Int (they are
32-bit signed integers in the source; none of the verified operations come
near overflow).  size_t counters are modelled as Nat; the only subtraction
performed on them by the source happens when the value is provably positive,
so truncated Nat subtraction agrees with the source.  The std::list plus
iterator-map structures of the replacer are modelled as plain lists: the
iterator maps are an O(1)-erase device and carry no separate information.
unordered_map is modelled as an association list with overwrite-on-insert.
Concurrency is out of scope: all operations are modelled atomically, which
matches the source because every operation runs under the relevant latch.
-/

/-- Association-list lookup (models unordered_map find). -/
def alookup {β : Type} : List (Int × β) → Int → Option β
  | [], _ => none
  | (k, v) :: rest, x => if k = x then some v else alookup rest x

/-- Association-list erase of a key (models unordered_map erase). -/
def aerase {β : Type} (m : List (Int × β)) (k : Int) : List (Int × β) :=
  m.filter (fun p => p.1 ≠ k)

/-- Association-list overwrite (models unordered_map operator[] assignment). -/
def aset {β : Type} (m : List (Int × β)) (k : Int) (v : β) : List (Int × β) :=
  (k, v) :: aerase m k

/-! ## ARC replacer state (src/include/buffer/arc_replacer.h) -/

/-- Mirror of enum class ArcStatus. -/
inductive ArcStatus where
  | mru | mfu | mruGhost | mfuGhost
deriving DecidableEq, Repr

/-- Mirror of struct FrameStatus. -/
structure FrameStatus where
  pageId : Int
  frameId : Int
  evictable : Bool
  arcStatus : ArcStatus
deriving DecidableEq, Repr

/-- Mirror of the private state of class ArcReplacer.  The iterator maps
mru_iter_map_ and friends are positional caches and are not represented;
list erasure is expressed directly on the lists. -/
structure ArcState where
  mru : List Int
  mfu : List Int
  mruGhost : List Int
  mfuGhost : List Int
  aliveMap : List (Int × FrameStatus)
  ghostMap : List (Int × FrameStatus)
  currSize : Nat
  mruTargetSize : Nat
  replacerSize : Nat
deriving DecidableEq, Repr

/-- Mirror of the ArcReplacer constructor. -/
def arcInit (numFrames : Nat) : ArcState :=
  { mru := [], mfu := [], mruGhost := [], mfuGhost := [],
    aliveMap := [], ghostMap := [],
    currSize := 0, mruTargetSize := 0, replacerSize := numFrames }

/-- The two exception kinds thrown by the replacer. -/
inductive ArcErr where
  | outOfRange | precond
deriving DecidableEq, Repr

/-- Mirror of ArcReplacer::RemoveFromAliveList. -/
def removeFromAliveList (s : ArcState) (fid : Int) (st : ArcStatus) : ArcState :=
  match st with
  | .mru => { s with mru := s.mru.erase fid }
  | .mfu => { s with mfu := s.mfu.erase fid }
  | _ => s

/-- Mirror of ArcReplacer::RemoveFromGhostList. -/
def removeFromGhostList (s : ArcState) (pid : Int) (st : ArcStatus) : ArcState :=
  let s1 :=
    match st with
    | .mruGhost => { s with mruGhost := s.mruGhost.erase pid }
    | .mfuGhost => { s with mfuGhost := s.mfuGhost.erase pid }
    | _ => s
  { s1 with ghostMap := aerase s1.ghostMap pid }

/-- Mirror of the frame-id validation shared by RecordAccess, SetEvictable
and Remove: frame_id < 0 or static_cast of frame_id greater than
replacer_size_ throws std::invalid_argument. -/
def arcFidInvalid (s : ArcState) (fid : Int) : Bool :=
  decide (fid < 0) || decide (fid > (s.replacerSize : Int))

/-- Case 4 of ArcReplacer::RecordAccess: the access misses all lists. -/
def arcCaseMissAll (s : ArcState) (fid pid : Int) : ArcState :=
  let mruTotal := s.mru.length + s.mruGhost.length
  let totalAll := mruTotal + s.mfu.length + s.mfuGhost.length
  let s1 :=
    if mruTotal = s.replacerSize then
      match s.mruGhost.getLast? with
      | none => s
      | some oldPage =>
          { s with mruGhost := s.mruGhost.dropLast,
                   ghostMap := aerase s.ghostMap oldPage }
    else if 2 * s.replacerSize ≤ totalAll then
      match s.mfuGhost.getLast? with
      | none => s
      | some oldPage =>
          { s with mfuGhost := s.mfuGhost.dropLast,
                   ghostMap := aerase s.ghostMap oldPage }
    else s
  { s1 with mru := fid :: s1.mru,
            aliveMap := aset s1.aliveMap fid ⟨pid, fid, false, .mru⟩ }

/-- Mirror of ArcReplacer::RecordAccess. -/
def recordAccess (s : ArcState) (fid pid : Int) : Except ArcErr ArcState :=
  if arcFidInvalid s fid then .error .outOfRange
  else
    match alookup s.aliveMap fid with
    | some st =>
        -- case 1: hit in an alive list; move to the front of mfu_
        let s1 := removeFromAliveList s fid st.arcStatus
        .ok { s1 with mfu := fid :: s1.mfu,
                      aliveMap := aset s1.aliveMap fid { st with arcStatus := .mfu } }
    | none =>
      match alookup s.ghostMap pid with
      | some gst =>
        if gst.arcStatus = .mruGhost then
          -- case 2: hit in mru_ghost_
          let s1 := removeFromGhostList s pid .mruGhost
          let mg := s1.mruGhost.length
          let fg := s1.mfuGhost.length
          let tgt :=
            if fg ≤ mg then min (s1.mruTargetSize + 1) s1.replacerSize
            else min (s1.mruTargetSize + fg / max mg 1) s1.replacerSize
          .ok { s1 with mruTargetSize := tgt,
                        mfu := fid :: s1.mfu,
                        aliveMap := aset s1.aliveMap fid ⟨pid, fid, false, .mfu⟩ }
        else if gst.arcStatus = .mfuGhost then
          -- case 3: hit in mfu_ghost_
          let s1 := removeFromGhostList s pid .mfuGhost
          let mg := s1.mruGhost.length
          let fg := s1.mfuGhost.length
          let tgt :=
            if mg ≤ fg then s1.mruTargetSize - 1
            else s1.mruTargetSize - mg / max fg 1
          .ok { s1 with mruTargetSize := tgt,
                        mfu := fid :: s1.mfu,
                        aliveMap := aset s1.aliveMap fid ⟨pid, fid, false, .mfu⟩ }
        else
          .ok (arcCaseMissAll s fid pid)
      | none =>
          .ok (arcCaseMissAll s fid pid)

/-- Helper of ArcReplacer::Evict: the reverse scan of an alive list for the
first evictable frame (iteration from the list tail). -/
def scanEvictable (s : ArcState) (lst : List Int) : Option Int :=
  lst.reverse.find? (fun f =>
    match alookup s.aliveMap f with
    | some st => st.evictable
    | none => false)

/-- The victim-selection phase of ArcReplacer::Evict: prefer the mru_ tail
when mru_ has reached the target size, otherwise the mfu_ tail; fall back
to the other side when the preferred one has no evictable frame. -/
def arcEvictPick (s : ArcState) : Option (Int × ArcStatus) :=
  if s.mruTargetSize ≤ s.mru.length then
    match scanEvictable s s.mru with
    | some f => some (f, .mru)
    | none =>
      match scanEvictable s s.mfu with
      | some f => some (f, .mfu)
      | none => none
  else
    match scanEvictable s s.mfu with
    | some f => some (f, .mfu)
    | none =>
      match scanEvictable s s.mru with
      | some f => some (f, .mru)
      | none => none

/-- Mirror of ArcReplacer::Evict. -/
def arcEvict (s : ArcState) : Option Int × ArcState :=
  match arcEvictPick s with
  | none => (none, s)
  | some (victim, vstatus) =>
    let s1 := removeFromAliveList s victim vstatus
    match alookup s1.aliveMap victim with
    | none => (some victim, s1)  -- unreachable: the scan found the frame alive
    | some st =>
      let pid := st.pageId
      let s2 :=
        if vstatus = .mru then
          { s1 with mruGhost := pid :: s1.mruGhost,
                    ghostMap := aset s1.ghostMap pid ⟨pid, victim, false, .mruGhost⟩ }
        else
          { s1 with mfuGhost := pid :: s1.mfuGhost,
                    ghostMap := aset s1.ghostMap pid ⟨pid, victim, false, .mfuGhost⟩ }
      (some victim, { s2 with aliveMap := aerase s2.aliveMap victim,
                              currSize := s2.currSize - 1 })

/-- Mirror of ArcReplacer::SetEvictable. -/
def setEvictable (s : ArcState) (fid : Int) (b : Bool) : Except ArcErr ArcState :=
  if arcFidInvalid s fid then .error .outOfRange
  else
    match alookup s.aliveMap fid with
    | none => .ok s
    | some st =>
      if st.evictable ≠ b then
        .ok { s with aliveMap := aset s.aliveMap fid { st with evictable := b },
                     currSize := if b then s.currSize + 1 else s.currSize - 1 }
      else .ok s

/-- Mirror of ArcReplacer::Remove. -/
def arcRemove (s : ArcState) (fid : Int) : Except ArcErr ArcState :=
  if arcFidInvalid s fid then .error .outOfRange
  else
    match alookup s.aliveMap fid with
    | none => .ok s
    | some st =>
      if st.evictable = false then .error .precond
      else
        let s1 := removeFromAliveList s fid st.arcStatus
        let s2 :=
          if st.arcStatus = .mru then
            { s1 with mruGhost := st.pageId :: s1.mruGhost }
          else
            { s1 with mfuGhost := st.pageId :: s1.mfuGhost }
        .ok { s2 with ghostMap := aset s2.ghostMap st.pageId st,
                      aliveMap := aerase s2.aliveMap fid,
                      currSize := s2.currSize - 1 }

/-! ## Replacer operation sequences -/

/-- One replacer call, for quantifying over operation sequences. -/
inductive ArcOp where
  | access (fid pid : Int)
  | evict
  | setEv (fid : Int) (b : Bool)
  | remove (fid : Int)
deriving DecidableEq, Repr

/-- Apply one operation.  A thrown exception leaves the state unchanged,
which matches the source: all validity checks precede any mutation. -/
def arcStep (s : ArcState) (op : ArcOp) : ArcState :=
  match op with
  | .access fid pid =>
      match recordAccess s fid pid with
      | .ok s2 => s2
      | .error _ => s
  | .evict => (arcEvict s).2
  | .setEv fid b =>
      match setEvictable s fid b with
      | .ok s2 => s2
      | .error _ => s
  | .remove fid =>
      match arcRemove s fid with
      | .ok s2 => s2
      | .error _ => s

/-- Run a sequence of replacer operations from the initial state. -/
def arcRun (n : Nat) (ops : List ArcOp) : ArcState :=
  ops.foldl arcStep (arcInit n)

/-- Frame ids handed to RecordAccess by the buffer pool index its frame
array, so they lie in the interval from 0 inclusive to the capacity
exclusive (spec section 3, Identifiers). -/
def validArcOp (n : Nat) : ArcOp → Bool
  | .access fid _ => decide (0 ≤ fid ∧ fid < (n : Int))
  | _ => true

/-! ## Frame headers and page guards
(src/include/buffer/buffer_pool_manager.h, src/storage/page/page_guard.cpp) -/

/-- A disk request as handed to DiskScheduler::Schedule.  The byte buffer is
abstracted to a Nat-valued content token. -/
structure DiskReq where
  isWrite : Bool
  pageId : Int
  data : Nat
deriving DecidableEq, Repr

/-- Mirror of class FrameHeader: pin count (atomic size_t), dirty flag,
reader/writer latch and the data buffer (abstracted to one Nat). -/
structure FrameH where
  frameId : Int
  pin : Nat
  dirty : Bool
  readers : Nat
  writer : Bool
  data : Nat
deriving DecidableEq, Repr

/-- The pin counter is a 64-bit size_t; fetch_add and fetch_sub wrap. -/
def pinInc (p : Nat) : Nat := (p + 1) % 2 ^ 64

/-- Wrapping decrement of the atomic size_t pin counter. -/
def pinDec (p : Nat) : Nat := (p + (2 ^ 64 - 1)) % 2 ^ 64

/-- Mirror of FrameHeader::Reset. -/
def frameReset (f : FrameH) : FrameH :=
  { f with data := 0, pin := 0, dirty := false }

/-- Mirror of the FrameHeader constructor. -/
def frameInit (fid : Int) : FrameH :=
  frameReset { frameId := fid, pin := 0, dirty := false,
               readers := 0, writer := false, data := 0 }

/-- A page guard (both variants share this shape; the variant decides which
latch mode the operations below use). -/
structure Guard where
  pageId : Int
  frameId : Int
  isValid : Bool
deriving DecidableEq, Repr

/-- Run ArcReplacer::SetEvictable, discarding the impossible out-of-range
exception (all call sites in the pool and the guards pass a frame id of an
existing frame, which the validator accepts). -/
def arcSetEvRun (a : ArcState) (fid : Int) (b : Bool) : ArcState :=
  match setEvictable a fid b with
  | .ok a2 => a2
  | .error _ => a

/-- Run ArcReplacer::RecordAccess, discarding the impossible out-of-range
exception (same remark as for arcSetEvRun). -/
def arcRecordRun (a : ArcState) (fid pid : Int) : ArcState :=
  match recordAccess a fid pid with
  | .ok a2 => a2
  | .error _ => a

/-- Mirror of the ReadPageGuard constructor: pin the frame, take the latch
in shared mode, mark the frame non-evictable. -/
def readGuardMake (pid : Int) (f : FrameH) (a : ArcState) :
    Guard × FrameH × ArcState :=
  (⟨pid, f.frameId, true⟩,
   { f with pin := pinInc f.pin, readers := f.readers + 1 },
   arcSetEvRun a f.frameId false)

/-- Mirror of the WritePageGuard constructor: pin the frame, take the latch
in exclusive mode, mark the frame non-evictable. -/
def writeGuardMake (pid : Int) (f : FrameH) (a : ArcState) :
    Guard × FrameH × ArcState :=
  (⟨pid, f.frameId, true⟩,
   { f with pin := pinInc f.pin, writer := true },
   arcSetEvRun a f.frameId false)

/-- Mirror of ReadPageGuard::Drop acting on the guard, its frame and the
replacer.  The destructor calls Drop, so this is also destruction. -/
def readGuardDrop (g : Guard) (f : FrameH) (a : ArcState) :
    Guard × FrameH × ArcState :=
  if g.isValid = false then (g, f, a)
  else
    let f1 := { f with readers := f.readers - 1, pin := pinDec f.pin }
    let a1 := if f1.pin = 0 then arcSetEvRun a f.frameId true else a
    ({ g with isValid := false }, f1, a1)

/-- Mirror of WritePageGuard::Drop. -/
def writeGuardDrop (g : Guard) (f : FrameH) (a : ArcState) :
    Guard × FrameH × ArcState :=
  if g.isValid = false then (g, f, a)
  else
    let f1 := { f with writer := false, pin := pinDec f.pin }
    let a1 := if f1.pin = 0 then arcSetEvRun a f.frameId true else a
    ({ g with isValid := false }, f1, a1)

/-- Uncurried ReadPageGuard::Drop, for stating idempotence. -/
def readGuardDropP (t : Guard × FrameH × ArcState) : Guard × FrameH × ArcState :=
  readGuardDrop t.1 t.2.1 t.2.2

/-- Uncurried WritePageGuard::Drop, for stating idempotence. -/
def writeGuardDropP (t : Guard × FrameH × ArcState) : Guard × FrameH × ArcState :=
  writeGuardDrop t.1 t.2.1 t.2.2

/-- Mirror of ReadPageGuard::Flush.  The argument ok is the eventual result
of the scheduled disk write; the source never waits on it.  Returns the
frame and the list of scheduled requests.  (On an invalid guard the source
aborts the process; that case is modelled as the identity and excluded by
hypothesis in the theorems.) -/
def readGuardFlush (g : Guard) (f : FrameH) (_ok : Bool) : FrameH × List DiskReq :=
  if g.isValid = false then (f, [])
  else if f.dirty then
    ({ f with dirty := false }, [⟨true, g.pageId, f.data⟩])
  else (f, [])

/-- Mirror of WritePageGuard::Flush.  The source moves the promise into the
DiskRequest and DiskScheduler::Schedule moves the request into the worker
queue; the call requests[0].callback_.get_future() that follows runs on
that moved-from promise, which has no shared state, so it throws a
future_error that the catch swallows after printing a warning.  The line
resetting is_dirty_ is therefore never reached: the write is scheduled but
the dirty bit stays set whatever the write's eventual outcome ok is. -/
def writeGuardFlush (g : Guard) (f : FrameH) (_ok : Bool) : FrameH × List DiskReq :=
  if g.isValid = false then (f, [])
  else if f.dirty then
    (f, [⟨true, g.pageId, f.data⟩])
  else (f, [])

/-! ## Buffer pool manager (src/buffer/buffer_pool_manager.cpp)
Disk requests always complete successfully in this sequential model (the
claims below do not concern I/O failure rollback paths of the pool). -/

/-- Mirror of the private state of class BufferPoolManager plus a log of
all requests handed to the disk scheduler. -/
structure BpmState where
  numFrames : Nat
  nextPageId : Int
  pageTable : List (Int × Int)
  frameTable : List (Int × Int)
  freeFrames : List Int
  arc : ArcState
  frames : List FrameH
  diskLog : List DiskReq
deriving DecidableEq, Repr

/-- Mirror of the BufferPoolManager constructor. -/
def bpmInit (n : Nat) : BpmState :=
  { numFrames := n, nextPageId := 0, pageTable := [], frameTable := [],
    freeFrames := (List.range n).map Int.ofNat,
    arc := arcInit n,
    frames := (List.range n).map (fun i => frameInit (Int.ofNat i)),
    diskLog := [] }

/-- Frame lookup frames_[frame_id]. -/
def getFrame (s : BpmState) (fid : Int) : FrameH :=
  s.frames.getD fid.toNat (frameInit fid)

/-- Frame update through the frames_ vector. -/
def setFrame (s : BpmState) (fid : Int) (f : FrameH) : BpmState :=
  { s with frames := s.frames.set fid.toNat f }

/-- Mirror of BufferPoolManager::FlushPageUnsafe with the disk write
succeeding: schedule the write, then clear the dirty bit. -/
def flushPageUnsafe (s : BpmState) (pid : Int) : Bool × BpmState :=
  match alookup s.pageTable pid with
  | none => (false, s)
  | some fid =>
      let f := getFrame s fid
      let s1 := { s with diskLog := s.diskLog ++ [⟨true, pid, f.data⟩] }
      (true, setFrame s1 fid { f with dirty := false })

/-- The eviction prologue shared by NewPage, CheckedReadPage and
CheckedWritePage: flush the victim frame if dirty, then drop its page-table
and frame-table entries.  frame_table_ is read with operator[], which
default-constructs page id 0 when the entry is missing. -/
def evictCleanup (s : BpmState) (fid : Int) : BpmState :=
  let f := getFrame s fid
  let s1 :=
    if f.dirty then
      let oldPid := (alookup s.frameTable fid).getD 0
      let s2 := (flushPageUnsafe s oldPid).2
      setFrame s2 fid { getFrame s2 fid with dirty := false }
    else s
  let oldPid := (alookup s1.frameTable fid).getD 0
  { s1 with pageTable := aerase s1.pageTable oldPid,
            frameTable := aerase s1.frameTable fid }

/-- Mirror of BufferPoolManager::NewPage (disk write succeeds). -/
def newPage (s : BpmState) : Int × BpmState :=
  let acquire : Option (Int × BpmState) :=
    match s.freeFrames with
    | fid :: rest => some (fid, { s with freeFrames := rest })
    | [] =>
        match arcEvict s.arc with
        | (none, _) => none
        | (some fid, a1) => some (fid, evictCleanup { s with arc := a1 } fid)
  match acquire with
  | none => (-1, s)
  | some (fid, s1) =>
      let pid := s1.nextPageId
      let s2 := { s1 with nextPageId := s1.nextPageId + 1 }
      let s3 := setFrame s2 fid (frameReset (getFrame s2 fid))
      let s4 := { s3 with pageTable := aset s3.pageTable pid fid,
                          frameTable := aset s3.frameTable fid pid }
      let s5 := { s4 with diskLog := s4.diskLog ++ [⟨true, pid, 0⟩] }
      (pid, s5)

/-- Mirror of BufferPoolManager::DeletePage (disk operations succeed).
DeallocatePage is forwarded to the scheduler outside the modelled state. -/
def deletePage (s : BpmState) (pid : Int) : Bool × BpmState :=
  match alookup s.pageTable pid with
  | none => (true, s)
  | some fid =>
      let f := getFrame s fid
      if f.pin ≠ 0 then (false, s)
      else
        let s1 :=
          if f.dirty then
            let s2 := (flushPageUnsafe s pid).2
            setFrame s2 fid { getFrame s2 fid with dirty := false }
          else s
        let s3 := { s1 with pageTable := aerase s1.pageTable pid,
                            frameTable := aerase s1.frameTable fid }
        let s4 := setFrame s3 fid (frameReset (getFrame s3 fid))
        (true, { s4 with freeFrames := s4.freeFrames ++ [fid] })

/-- The shared body of CheckedReadPage and CheckedWritePage up to guard
construction: returns the frame id holding the page, recording the access,
or none when no frame can be obtained. -/
def checkedPageFrame (s : BpmState) (pid : Int) : Option (Int × BpmState) :=
  match alookup s.pageTable pid with
  | some fid =>
      some (fid, { s with arc := arcRecordRun s.arc fid pid })
  | none =>
      let acquire : Option (Int × BpmState) :=
        match s.freeFrames with
        | fid :: rest => some (fid, { s with freeFrames := rest })
        | [] =>
            match arcEvict s.arc with
            | (none, _) => none
            | (some fid, a1) => some (fid, evictCleanup { s with arc := a1 } fid)
      match acquire with
      | none => none
      | some (fid, s1) =>
          -- schedule the read into the frame and wait; it succeeds
          let s2 := { s1 with diskLog := s1.diskLog ++ [⟨false, pid, 0⟩] }
          let s3 := setFrame s2 fid { getFrame s2 fid with data := 0 }
          let s4 := { s3 with pageTable := aset s3.pageTable pid fid,
                              frameTable := aset s3.frameTable fid pid }
          some (fid, { s4 with arc := arcRecordRun s4.arc fid pid })

/-- Mirror of BufferPoolManager::CheckedReadPage (disk read succeeds). -/
def checkedReadPage (s : BpmState) (pid : Int) : Option Guard × BpmState :=
  if pid < 0 then (none, s)
  else
    match checkedPageFrame s pid with
    | none => (none, s)
    | some (fid, s1) =>
        let (g, f1, a1) := readGuardMake pid (getFrame s1 fid) s1.arc
        (some g, setFrame { s1 with arc := a1 } fid f1)

/-- Mirror of BufferPoolManager::CheckedWritePage (disk read succeeds). -/
def checkedWritePage (s : BpmState) (pid : Int) : Option Guard × BpmState :=
  if pid < 0 then (none, s)
  else
    match checkedPageFrame s pid with
    | none => (none, s)
    | some (fid, s1) =>
        let (g, f1, a1) := writeGuardMake pid (getFrame s1 fid) s1.arc
        (some g, setFrame { s1 with arc := a1 } fid f1)

/-- ReadPageGuard::Drop lifted to the pool state. -/
def bpmDropRead (s : BpmState) (g : Guard) : Guard × BpmState :=
  let (g1, f1, a1) := readGuardDrop g (getFrame s g.frameId) s.arc
  (g1, setFrame { s with arc := a1 } g.frameId f1)

/-- WritePageGuard::Drop lifted to the pool state. -/
def bpmDropWrite (s : BpmState) (g : Guard) : Guard × BpmState :=
  let (g1, f1, a1) := writeGuardDrop g (getFrame s g.frameId) s.arc
  (g1, setFrame { s with arc := a1 } g.frameId f1)

/-! ## Concrete operation sequences and spec-side definitions used by the
claim theorems -/

/-- Drive one page through mru into mfu and evict it, leaving its page id
in mfu_ghost_ (capacity 7, frame 0 reused throughout). -/
def mkGhostMfu (p : Int) : List ArcOp :=
  [.access 0 p, .access 0 p, .setEv 0 true, .evict]

/-- Drive one page through mru and evict it, leaving its page id in
mru_ghost_. -/
def mkGhostMru (p : Int) : List ArcOp :=
  [.access 0 p, .setEv 0 true, .evict]

/-- A reachable replacer history (capacity 7) ending with five pages in
mfu_ghost_ and two pages in mru_ghost_, target p = 0. -/
def c1ops : List ArcOp :=
  mkGhostMfu 100 ++ mkGhostMfu 101 ++ mkGhostMfu 102 ++ mkGhostMfu 103 ++
  mkGhostMfu 104 ++ mkGhostMru 200 ++ mkGhostMru 201

/-- Modelled from the claim wording of C1: on an mru_ghost_ hit the target
p grows by the integer ratio max(1, mfu_ghost_ size over mru_ghost_ size)
taken at the moment of the hit, capped at the capacity c. -/
def arcSpecGhostHitTarget (p mruG mfuG c : Nat) : Nat :=
  min (p + max 1 (mfuG / mruG)) c

/-- The C2 scenario: a pool with one frame. -/
def c2s0 : BpmState := bpmInit 1

/-- The guard returned by CheckedReadPage of page 5 on the fresh pool. -/
def c2guard : Guard := { pageId := 5, frameId := 0, isValid := true }

/-- Pool state after loading page 5 into frame 0. -/
def c2s1 : BpmState := (checkedReadPage c2s0 5).2

/-- Pool state after dropping the read guard (pin back to 0, evictable). -/
def c2s2 : BpmState := (bpmDropRead c2s1 c2guard).2

/-- Pool state after DeletePage(5). -/
def c2s3 : BpmState := (deletePage c2s2 5).2

/-! ## B+ tree (src/storage/index/b_plus_tree.cpp and the page classes)

Keys and record ids are modelled as Int (GenericKey with an integer
comparator, and RID).  A tree page is modelled structurally:

  - a leaf page is its key/rid array, a list of pairs;
  - an internal page is its parallel key_array_/page_id_array_ pair list,
    one pair per slot, where the slot-0 key is never read (KeyAt asserts
    index > 0); the model writes 0 in that position where the source
    leaves the slot unwritten.

Page ids, the buffer pool, latching and the write-set deque are resolved
away: child pointers become subtrees, and the bottom-up underflow handling
that the source performs through the write-set deque is performed by the
caller on the rebuilt child.  The source checks a rebuilt internal child
for underflow only when a merge happened below it; the model checks it
always, which agrees on every state whose sizes already satisfy the size
invariants (without a merge the size is unchanged, hence not underflowing).
The optimistic read-latched descents of Insert and Remove fall back to the
write-latched descent exactly when the leaf could overflow or underflow,
and otherwise perform the same leaf update, so the sequential behaviour
modelled here is that of the write-latched descent in all cases. -/

inductive BTree where
  | leaf (kvs : List (Int × Int))
  | node (cs : List (Int × BTree))
deriving Repr

/-- Size of a nested child, for termination arguments. -/
theorem sizeOf_snd_lt_of_mem {cs : List (Int × BTree)} {p : Int × BTree}
    (h : p ∈ cs) : sizeOf p.2 < 1 + sizeOf cs := by
  have h1 : sizeOf p < sizeOf cs := List.sizeOf_lt_of_mem h
  have h2 : sizeOf p = 1 + sizeOf p.1 + sizeOf p.2 := by
    cases p; simp [Prod.mk.sizeOf_spec]
  omega

theorem sizeOf_snd_get_lt (cs : List (Int × BTree)) (i : Nat) (h : i < cs.length) :
    sizeOf (cs[i]).2 < sizeOf (BTree.node cs) := by
  have h1 : cs[i] ∈ cs := List.getElem_mem h
  have h2 := sizeOf_snd_lt_of_mem h1
  simp only [BTree.node.sizeOf_spec]
  omega

/-- Custom structural induction over the nested tree type. -/
theorem BTree.inductionOn (motive : BTree → Prop)
    (hleaf : ∀ kvs, motive (.leaf kvs))
    (hnode : ∀ cs, (∀ p ∈ cs, motive p.2) → motive (.node cs)) :
    ∀ t, motive t
  | .leaf kvs => hleaf kvs
  | .node cs =>
      hnode cs (fun p hp =>
        have : sizeOf p.2 < 1 + sizeOf cs := sizeOf_snd_lt_of_mem hp
        BTree.inductionOn motive hleaf hnode p.2)
termination_by t => sizeOf t
decreasing_by simp only [BTree.node.sizeOf_spec]; omega

/-- Mirror of BPlusTreeLeafPage::FindFirstGreaterOrEqual binary-search
loop.  left, right and res are the loop variables (res starts at the array
size); element access mirrors KeyAt(mid). -/
def ffgeGo (keys : List Int) (k : Int) (left right res : Int) : Int :=
  if left ≤ right then
    let mid := left + (right - left) / 2
    if k ≤ keys.getD mid.toNat 0 then ffgeGo keys k left (mid - 1) mid
    else ffgeGo keys k (mid + 1) right res
  else res
termination_by (right + 1 - left).toNat
decreasing_by all_goals omega

/-- Mirror of BPlusTreeLeafPage::FindFirstGreaterOrEqual. -/
def findFirstGE (kvs : List (Int × Int)) (k : Int) : Int :=
  ffgeGo (kvs.map Prod.fst) k 0 ((kvs.length : Int) - 1) (kvs.length : Int)

/-- Mirror of the binary-search loop of BPlusTreeInternalPage::FindPage;
returns the final value of left (a hit with comparator zero breaks with
left = mid). -/
def fpGo (keys : List Int) (k : Int) (left right : Int) : Int :=
  if left ≤ right then
    let mid := left + (right - left) / 2
    let mk := keys.getD mid.toNat 0
    if mk = k then mid
    else if mk < k then fpGo keys k (mid + 1) right
    else fpGo keys k left (mid - 1)
  else left
termination_by (right + 1 - left).toNat
decreasing_by all_goals omega

/-- Mirror of BPlusTreeInternalPage::FindPage, returning the slot index
whose page_id_array_ entry the source returns. -/
def findPageIdx {α : Type} (cs : List (Int × α)) (k : Int) : Nat :=
  let keys := cs.map Prod.fst
  let size := cs.length
  let t := fpGo keys k 1 ((size : Int) - 1)
  if (size : Int) ≤ t then size - 1
  else if keys.getD t.toNat 0 = k then t.toNat
  else (t - 1).toNat

/-- Mirror of the loop of BPlusTreeInternalPage::FindInsertPos; pos starts
at the size and an exact key hit returns -1. -/
def fipGo (keys : List Int) (k : Int) (left right pos : Int) : Int :=
  if left ≤ right then
    let mid := left + (right - left) / 2
    let mk := keys.getD mid.toNat 0
    if k < mk then fipGo keys k left (mid - 1) mid
    else if mk < k then fipGo keys k (mid + 1) right pos
    else -1
  else pos
termination_by (right + 1 - left).toNat
decreasing_by all_goals omega

/-- Mirror of BPlusTreeInternalPage::FindInsertPos. -/
def findInsertPos {α : Type} (cs : List (Int × α)) (k : Int) : Int :=
  fipGo (cs.map Prod.fst) k 1 ((cs.length : Int) - 1) (cs.length : Int)

/-- Mirror of BPlusTreeLeafPage::Insert: shift right from the position
found by FindFirstGreaterOrEqual and place the pair there. -/
def leafInsert (kvs : List (Int × Int)) (k v : Int) : List (Int × Int) :=
  kvs.insertIdx (findFirstGE kvs k).toNat (k, v)

/-- Mirror of BPlusTree::IsLeafUnderflow: size below (max_size + 1) / 2
in C++ integer division. -/
def isLeafUnderflow (sz cap : Nat) : Bool :=
  decide (sz < (cap + 1) / 2)

/-- Mirror of BPlusTree::IsInternalUnderflow. -/
def isInternalUnderflow (sz cap : Nat) : Bool :=
  decide (sz < (cap + 1) / 2)

/-- Underflow of a page as checked by the remove path (RemoveFromLeaf and
HandleInternalUnderflow): the internal page size is its slot count. -/
def pageUnderflow (L M : Nat) : BTree → Bool
  | .leaf kvs => isLeafUnderflow kvs.length L
  | .node cs => isInternalUnderflow cs.length M

/-- Result of InsertIntoLeaf / InsertIntoInternal seen from the parent:
duplicate key, an updated page, or a split with the separator key that is
propagated (the old page keeps the left half, the fresh page gets the
right half). -/
inductive InsRes where
  | dup
  | one (t : BTree)
  | split (l : BTree) (sk : Int) (r : BTree)

/-- Mirror of BPlusTreeInternalPage::RemoveAt_head. -/
def removeAtHeadI (cs : List (Int × BTree)) : List (Int × BTree) :=
  match cs with
  | (d, _) :: (_, c1) :: rest => (d, c1) :: rest
  | _ => []

/-- Mirror of BPlusTreeInternalPage::InsertAt_head: the new child becomes
slot 0 and the key is written at slot 1. -/
def insertAtHeadI (key : Int) (value : BTree) (cs : List (Int × BTree)) :
    List (Int × BTree) :=
  match cs with
  | (d, c0) :: rest => (d, value) :: (key, c0) :: rest
  | [] => [(0, value)]

/-- Key stored at a slot of an internal page (KeyAt). -/
def keyAtI (cs : List (Int × BTree)) (i : Nat) : Int :=
  (cs.getD i (0, .leaf [])).1

/-- Rebalance the underflowing child at slot i of an internal page,
mirroring HandleLeafUnderflow and HandleInternalUnderflow after the root
checks: prefer borrowing from a left sibling strictly above the minimum,
then from a right one, otherwise merge (into the left sibling when it
exists, else absorb the right one).  Returns the rebuilt slot list and
whether a merge removed a slot.  When no sibling exists (a one-slot
parent, impossible on well-sized trees) the source simply releases its
latches, leaving the child underfull; the model returns the list
unchanged.  A sibling of the other page kind would be reinterpreted bytes
in the source (impossible on real trees); the model returns unchanged. -/
def fixChild (L M : Nat) (cs : List (Int × BTree)) (i : Nat) : List (Int × BTree) × Bool :=
  let hasLeft := decide (0 < i)
  let hasRight := decide (i + 1 < cs.length)
  if ¬ (hasLeft || hasRight) then (cs, false)
  else
    match (cs.getD i (0, .leaf [])).2 with
    | .leaf ckvs =>
      let goLeft :=
        hasLeft &&
          (match (cs.getD (i - 1) (0, .leaf [])).2 with
           | .leaf lkvs => decide ((L + 1) / 2 < lkvs.length)
           | .node _ => false)
      let goRight :=
        hasRight &&
          (match (cs.getD (i + 1) (0, .leaf [])).2 with
           | .leaf rkvs => decide ((L + 1) / 2 < rkvs.length)
           | .node _ => false)
      if goLeft then
        match (cs.getD (i - 1) (0, .leaf [])).2 with
        | .leaf lkvs =>
            let bk := (lkvs.getD (lkvs.length - 1) (0, 0)).1
            let bv := (lkvs.getD (lkvs.length - 1) (0, 0)).2
            let left2 := lkvs.dropLast
            let cur2 := leafInsert ckvs bk bv
            (((cs.set (i - 1) ((keyAtI cs (i - 1)), .leaf left2)).set i
                (bk, .leaf cur2)), false)
        | .node _ => (cs, false)
      else if goRight then
        match (cs.getD (i + 1) (0, .leaf [])).2 with
        | .leaf rkvs =>
            let bk := (rkvs.getD 0 (0, 0)).1
            let bv := (rkvs.getD 0 (0, 0)).2
            let right2 := rkvs.eraseIdx 0
            let cur2 := leafInsert ckvs bk bv
            (((cs.set i ((keyAtI cs i), .leaf cur2)).set (i + 1)
                ((right2.getD 0 (0, 0)).1, .leaf right2)), false)
        | .node _ => (cs, false)
      else if hasLeft then
        match (cs.getD (i - 1) (0, .leaf [])).2 with
        | .leaf lkvs =>
            (((cs.set (i - 1) ((keyAtI cs (i - 1)), .leaf (lkvs ++ ckvs))).eraseIdx i),
             true)
        | .node _ => (cs, false)
      else
        match (cs.getD (i + 1) (0, .leaf [])).2 with
        | .leaf rkvs =>
            (((cs.set i ((keyAtI cs i), .leaf (ckvs ++ rkvs))).eraseIdx (i + 1)), true)
        | .node _ => (cs, false)
    | .node ccs =>
      let goLeft :=
        hasLeft &&
          (match (cs.getD (i - 1) (0, .leaf [])).2 with
           | .node lcs => decide ((M + 1) / 2 < lcs.length)
           | .leaf _ => false)
      let goRight :=
        hasRight &&
          (match (cs.getD (i + 1) (0, .leaf [])).2 with
           | .node rcs => decide ((M + 1) / 2 < rcs.length)
           | .leaf _ => false)
      if goLeft then
        match (cs.getD (i - 1) (0, .leaf [])).2 with
        | .node lcs =>
            let bk := keyAtI lcs (lcs.length - 1)
            let bsub := (lcs.getD (lcs.length - 1) (0, .leaf [])).2
            let left2 := lcs.dropLast
            let parentKey := keyAtI cs i
            let cur2 := insertAtHeadI parentKey bsub ccs
            let newSep := if 1 < left2.length then bk else keyAtI cs i
            (((cs.set (i - 1) ((keyAtI cs (i - 1)), .node left2)).set i
                (newSep, .node cur2)), false)
        | .leaf _ => (cs, false)
      else if goRight then
        match (cs.getD (i + 1) (0, .leaf [])).2 with
        | .node rcs =>
            let bk := keyAtI rcs 1
            let bsub := (rcs.getD 0 (0, .leaf [])).2
            let right2 := removeAtHeadI rcs
            let parentKey := keyAtI cs (i + 1)
            let cur2 := ccs ++ [(parentKey, bsub)]
            let newSep := if 1 < right2.length then bk else keyAtI cs (i + 1)
            (((cs.set i ((keyAtI cs i), .node cur2)).set (i + 1)
                (newSep, .node right2)), false)
        | .leaf _ => (cs, false)
      else if hasLeft then
        match (cs.getD (i - 1) (0, .leaf [])).2 with
        | .node lcs =>
            let splitKey := keyAtI cs i
            let left2 :=
              match ccs with
              | (_, c0) :: rest => lcs ++ (splitKey, c0) :: rest
              | [] => lcs
            (((cs.set (i - 1) ((keyAtI cs (i - 1)), .node left2)).eraseIdx i), true)
        | .leaf _ => (cs, false)
      else
        match (cs.getD (i + 1) (0, .leaf [])).2 with
        | .node rcs =>
            let splitKey := keyAtI cs (i + 1)
            let cur2 :=
              match rcs with
              | (_, c0) :: rest => ccs ++ (splitKey, c0) :: rest
              | [] => ccs
            (((cs.set i ((keyAtI cs i), .node cur2)).eraseIdx (i + 1)), true)
        | .leaf _ => (cs, false)

/-- Mirror of BPlusTree::InsertIntoLeaf and InsertIntoInternal, seen from
the subtree being descended into.  A none result is the failure return of
the source (FindInsertPos reported a duplicate separator, which on a real
tree cannot happen; page allocation failures are out of scope because disk
and pool operations succeed in this model). -/
def insertB (L M : Nat) (t : BTree) (k v : Int) : Option InsRes :=
  match t with
  | .leaf kvs =>
      let pos := (findFirstGE kvs k).toNat
      if pos < kvs.length ∧ (kvs.getD pos (0, 0)).1 = k then some .dup
      else if kvs.length < L then some (.one (.leaf (kvs.insertIdx pos (k, v))))
      else
        let allData := kvs.insertIdx pos (k, v)
        let splitIdx := (allData.length + 1) / 2
        let sk := (allData.getD splitIdx (0, 0)).1
        some (.split (.leaf (allData.take splitIdx)) sk (.leaf (allData.drop splitIdx)))
  | .node cs =>
      let i := findPageIdx cs k
      if h : i < cs.length then
        match insertB L M (cs[i]).2 k v with
        | none => none
        | some .dup => some .dup
        | some (.one c2) => some (.one (.node (cs.set i ((cs[i]).1, c2))))
        | some (.split l sk r) =>
            let cs1 := cs.set i ((cs[i]).1, l)
            let ip := findInsertPos cs1 sk
            if ip = -1 then none
            else if cs1.length < M then
              some (.one (.node (cs1.insertIdx ip.toNat (sk, r))))
            else
              let allData := cs1.insertIdx ip.toNat (sk, r)
              let splitIdx := (allData.length + 1) / 2
              let sk2 := (allData.getD splitIdx (0, .leaf [])).1
              let rightCs :=
                match allData.drop splitIdx with
                | [] => []
                | (_, c) :: rest => (0, c) :: rest
              some (.split (.node (allData.take splitIdx)) sk2 (.node rightCs))
      else none
termination_by sizeOf t
decreasing_by exact sizeOf_snd_get_lt _ _ (by assumption)

/-- Mirror of BPlusTree::Insert on the whole tree (none is the empty
tree, root page id INVALID).  Returns the bool result and the new tree;
the outer none is the failure return of the source. -/
def treeInsert (L M : Nat) (t : Option BTree) (k v : Int) :
    Option (Bool × Option BTree) :=
  match t with
  | none => some (true, some (.leaf [(k, v)]))
  | some t0 =>
      match insertB L M t0 k v with
      | none => none
      | some .dup => some (false, some t0)
      | some (.one t1) => some (true, some t1)
      | some (.split l sk r) => some (true, some (.node [(0, l), (sk, r)]))

/-- Mirror of the remove descent: RemoveFromLeaf at the leaf, and the
sibling rebalancing of an underflowing child performed at its parent.
Returns (key found, rebuilt subtree, a merge removed one of this node's
slots). -/
def removeB (L M : Nat) (t : BTree) (k : Int) : Bool × BTree × Bool :=
  match t with
  | .leaf kvs =>
      let pos := (findFirstGE kvs k).toNat
      if pos < kvs.length ∧ (kvs.getD pos (0, 0)).1 = k then
        (true, .leaf (kvs.eraseIdx pos), false)
      else (false, .leaf kvs, false)
  | .node cs =>
      let i := findPageIdx cs k
      if h : i < cs.length then
        let res := removeB L M (cs[i]).2 k
        if res.1 = false then (false, .node cs, false)
        else
          let cs1 := cs.set i ((cs[i]).1, res.2.1)
          if pageUnderflow L M res.2.1 then
            let fc := fixChild L M cs1 i
            (true, .node fc.1, fc.2)
          else (true, .node cs1, false)
      else (false, .node cs, false)
termination_by sizeOf t
decreasing_by exact sizeOf_snd_get_lt _ _ (by assumption)

/-- Mirror of BPlusTree::Remove on the whole tree.  The root checks of
HandleLeafUnderflow and HandleInternalUnderflow (empty root leaf clears
the header; a root internal page left with one slot by a merge is demoted
to its single child) are performed after the rebuilt root returns. -/
def treeRemove (L M : Nat) (t : Option BTree) (k : Int) : Option BTree :=
  match t with
  | none => none
  | some t0 =>
      let res := removeB L M t0 k
      if res.1 = false then some t0
      else
        match res.2.1 with
        | .leaf kvs =>
            if isLeafUnderflow kvs.length L ∧ kvs.length = 0 then none
            else some (.leaf kvs)
        | .node cs =>
            if res.2.2 = true ∧ cs.length = 1 then
              match cs with
              | (_, c) :: _ => some c
              | [] => some (.node cs)
            else some (.node cs)

/-- Mirror of BPlusTree::GetValue below the root. -/
def lookupB (t : BTree) (k : Int) : Option Int :=
  match t with
  | .leaf kvs =>
      let pos := (findFirstGE kvs k).toNat
      if pos < kvs.length ∧ (kvs.getD pos (0, 0)).1 = k then
        some (kvs.getD pos (0, 0)).2
      else none
  | .node cs =>
      let i := findPageIdx cs k
      if h : i < cs.length then lookupB (cs[i]).2 k else none
termination_by sizeOf t
decreasing_by exact sizeOf_snd_get_lt _ _ (by assumption)

/-- Mirror of BPlusTree::GetValue (an INVALID root page id returns false). -/
def treeGetValue (t : Option BTree) (k : Int) : Option Int :=
  match t with
  | none => none
  | some t0 => lookupB t0 k

mutual

/-- All key/value entries stored in the leaves of a subtree, left to
right. -/
def entriesB : BTree → List (Int × Int)
  | .leaf kvs => kvs
  | .node cs => entriesL cs

/-- Entries of a slot list. -/
def entriesL : List (Int × BTree) → List (Int × Int)
  | [] => []
  | (_, c) :: rest => entriesB c ++ entriesL rest

end

/-- All key/value entries of the whole tree (none is the empty tree). -/
def treeEntries (t : Option BTree) : List (Int × Int) :=
  match t with
  | none => []
  | some t0 => entriesB t0

/-! ### Size and ordering invariants -/

mutual

/-- Height of a subtree: a leaf page has height 0, an internal page one
more than its children (all leaves of a real tree sit at the same depth,
so the maximum below is the common child height). -/
def heightB : BTree → Nat
  | .leaf _ => 0
  | .node cs => 1 + heightL cs

/-- Maximum height of the children of a slot list. -/
def heightL : List (Int × BTree) → Nat
  | [] => 0
  | (_, c) :: rest => max (heightB c) (heightL rest)

end

/-- The size invariant of spec section 4.7 with the threshold the code
actually uses: every page holds at most its capacity, and every page
below the root at least (cap + 1) / 2 entries (C++ integer division);
internal pages have at least 2 slots (FindPage asserts this) and all
their children sit at the same depth. -/
def sizeOkB (L M : Nat) (isRoot : Bool) (t : BTree) : Prop :=
  match t with
  | .leaf kvs => kvs.length ≤ L ∧ (isRoot = false → (L + 1) / 2 ≤ kvs.length)
  | .node cs =>
      cs.length ≤ M ∧ (isRoot = false → (M + 1) / 2 ≤ cs.length) ∧
      2 ≤ cs.length ∧
      (∀ p ∈ cs, heightB p.2 + 1 = heightB (.node cs)) ∧
      ∀ p ∈ cs, sizeOkB L M false p.2
termination_by sizeOf t
decreasing_by
  simp only [BTree.node.sizeOf_spec]
  exact sizeOf_snd_lt_of_mem (by assumption)

/-- Size invariant at the root (none is the empty tree). -/
def sizeOkRoot (L M : Nat) : Option BTree → Prop
  | none => True
  | some t => sizeOkB L M true t

/-- The relaxed size bound a subtree satisfies right after removeB, before
its parent rebalances it: the top page may be one entry short. -/
def sizeOkRel (L M : Nat) (t : BTree) : Prop :=
  match t with
  | .leaf kvs => kvs.length ≤ L ∧ (L + 1) / 2 - 1 ≤ kvs.length
  | .node cs =>
      cs.length ≤ M ∧ (M + 1) / 2 - 1 ≤ cs.length ∧ 1 ≤ cs.length ∧
      (∀ p ∈ cs, heightB p.2 + 1 = heightB (.node cs)) ∧
      ∀ p ∈ cs, sizeOkB L M false p.2

/-- Lower bound check for a key (none is minus infinity). -/
def loOk (lo : Option Int) (k : Int) : Prop :=
  match lo with
  | none => True
  | some a => a ≤ k

/-- Exclusive upper bound check for a key (none is plus infinity). -/
def hiOk (hi : Option Int) (k : Int) : Prop :=
  match hi with
  | none => True
  | some b => k < b

/-- First separator of a slot list, else the inherited upper bound. -/
def sepB {α : Type} (rest : List (Int × α)) (hi : Option Int) : Option Int :=
  match rest with
  | [] => hi
  | (k2, _) :: _ => some k2

/-- A key is below the first separator of a slot list (if any). -/
def sepLt {α : Type} (k : Int) (rest : List (Int × α)) : Prop :=
  match rest with
  | [] => True
  | (k2, _) :: _ => k < k2

mutual

/-- Well-formedness of a subtree within an exclusive key interval, the
invariants of spec sections 3 and 4.7: sorted leaves in range, separators
strictly ascending, slot i covering keys from key i inclusive to key i+1
exclusive, and the size bounds the code maintains. -/
inductive WF (L M : Nat) : Option Int → Option Int → Bool → BTree → Prop where
  | leaf : ∀ (lo hi : Option Int) (isRoot : Bool) (kvs : List (Int × Int)),
      kvs.length ≤ L →
      (isRoot = false → (L + 1) / 2 ≤ kvs.length) →
      kvs.Pairwise (fun a b => a.1 < b.1) →
      (∀ p ∈ kvs, loOk lo p.1 ∧ hiOk hi p.1) →
      WF L M lo hi isRoot (.leaf kvs)
  | node : ∀ (lo hi : Option Int) (isRoot : Bool) (d : Int) (c0 : BTree)
      (rest : List (Int × BTree)),
      rest.length + 1 ≤ M →
      (isRoot = false → (M + 1) / 2 ≤ rest.length + 1) →
      1 ≤ rest.length →
      WF L M lo (sepB rest hi) false c0 →
      WFchain L M lo hi rest →
      WF L M lo hi isRoot (.node ((d, c0) :: rest))

/-- Well-formedness of the slot list from slot 1 on: each separator is in
range, below the following separator, and guards a well-formed child. -/
inductive WFchain (L M : Nat) : Option Int → Option Int → List (Int × BTree) → Prop where
  | nil : ∀ lo hi, WFchain L M lo hi []
  | cons : ∀ (lo hi : Option Int) (k : Int) (c : BTree) (rest : List (Int × BTree)),
      sepLt k rest →
      loOk lo k →
      hiOk hi k →
      WF L M (some k) (sepB rest hi) false c →
      WFchain L M lo hi rest →
      WFchain L M lo hi ((k, c) :: rest)

end

/-- Well-formedness of the whole tree. -/
def wfRoot (L M : Nat) : Option BTree → Prop
  | none => True
  | some t => WF L M none none true t

/-- The child index FindPage resolves to, stated through the slot list
from slot 1 on: the number of separators not exceeding the key. -/
def routeCnt {α : Type} (rest : List (Int × α)) (k : Int) : Nat :=
  rest.countP (fun p => decide (p.1 ≤ k))

/-! ### Leaf page model for the split claim
(src/storage/page/b_plus_tree_leaf_page.cpp, InsertIntoLeaf lines 256-302) -/

/-- A leaf page with its next_page_id_ link. -/
structure LeafPg where
  kvs : List (Int × Int)
  nextPageId : Int
  maxSize : Nat
deriving Repr

/-- Result of InsertIntoLeaf at page level. -/
inductive LeafInsRes where
  | dup
  | fit (pg : LeafPg)
  | split (oldPg : LeafPg) (newPg : LeafPg) (splitKey : Int) (newPid : Int)
deriving Repr

/-- Mirror of BPlusTree::InsertIntoLeaf at page level: duplicate check,
in-place insert when below max, otherwise the split: build all_data (the
sorted merge of the old entries and the new one), split at
(all_data size + 1) / 2, refill the old page by Insert_Set_old (indices
below the split), fill the fresh page by Insert_Set_new (the rest), link
next_page_id_ through the new page, and report all_data[split_idx].first
as the separator for the parent.  newPid is the page id NewPage returns. -/
def insertIntoLeafPg (pg : LeafPg) (k v : Int) (newPid : Int) : LeafInsRes :=
  let pos := (findFirstGE pg.kvs k).toNat
  if pos < pg.kvs.length ∧ (pg.kvs.getD pos (0, 0)).1 = k then .dup
  else if pg.kvs.length < pg.maxSize then
    .fit { pg with kvs := pg.kvs.insertIdx pos (k, v) }
  else
    let allData := pg.kvs.insertIdx pos (k, v)
    let splitIdx := (allData.length + 1) / 2
    let sk := (allData.getD splitIdx (0, 0)).1
    .split { pg with kvs := allData.take splitIdx, nextPageId := newPid }
           { kvs := allData.drop splitIdx, nextPageId := pg.nextPageId,
             maxSize := pg.maxSize }
           sk newPid

/-! ### Concrete B+ tree runs used by the claim theorems -/

/-- One Insert call with leaf capacity 4 and internal capacity 3 (the
literal capacities of spec scenario S3); a failure return keeps the tree. -/
def c3step (t : Option BTree) (k : Int) : Option BTree :=
  match treeInsert 4 3 t k k with
  | some (_, t2) => t2
  | none => t

/-- The tree grown by inserting keys 1 to 5. -/
def c3tree : Option BTree := [1, 2, 3, 4, 5].foldl c3step none

/-- Modelled from the claim wording of C3: the lower bound read as the
ceiling of (cap + 1) / 2, which is (cap + 2) / 2 in integer division. -/
def bPlusSpecMin (cap : Nat) : Nat := (cap + 2) / 2

/-- Projection of a replacer call result onto the exception it threw. -/
def arcResultErr (e : Except ArcErr ArcState) : Option ArcErr :=
  match e with
  | .error err => some err
  | .ok _ => none

/-- The inductive invariant of the replacer state, for the C5 bound
proofs: the alive lists are duplicate-free and disjoint, agree with
alive_map_, frame ids lie in the frame range, ghost-map entries with a
ghost status are present in their ghost list, and the ARC size bounds
hold. -/
structure ArcInv (n : Nat) (s : ArcState) : Prop where
  size_eq : s.replacerSize = n
  mruNodup : s.mru.Nodup
  mfuNodup : s.mfu.Nodup
  disj : ∀ f, f ∈ s.mru → f ∉ s.mfu
  aliveMru : ∀ f, f ∈ s.mru →
    ∃ st, alookup s.aliveMap f = some st ∧ st.arcStatus = .mru
  aliveMfu : ∀ f, f ∈ s.mfu →
    ∃ st, alookup s.aliveMap f = some st ∧ st.arcStatus = .mfu
  aliveInv : ∀ f st, alookup s.aliveMap f = some st →
    (st.arcStatus = .mru → f ∈ s.mru) ∧ (st.arcStatus = .mfu → f ∈ s.mfu) ∧
    st.arcStatus ≠ .mruGhost ∧ st.arcStatus ≠ .mfuGhost
  range : ∀ f, f ∈ s.mru ∨ f ∈ s.mfu → 0 ≤ f ∧ f < (n : Int)
  ghostInv : ∀ p st, alookup s.ghostMap p = some st →
    (st.arcStatus = .mruGhost → p ∈ s.mruGhost) ∧
    (st.arcStatus = .mfuGhost → p ∈ s.mfuGhost)
  bound1 : s.mru.length + s.mruGhost.length ≤ n
  bound2 : s.mru.length + s.mruGhost.length + s.mfu.length + s.mfuGhost.length ≤ 2 * n

/-- A concrete full leaf page (capacity 4, next_page_id_ INVALID). -/
def c7pg : LeafPg := { kvs := [(1, 1), (2, 2), (3, 3), (4, 4)], nextPageId := -1, maxSize := 4 }

/-- A concrete two-leaf tree (the shape c3tree evaluates to), used as the
well-formed tree of the C4 witness. -/
def c4tree : Option BTree :=
  some (.node [(0, .leaf [(1, 1), (2, 2), (3, 3)]), (4, .leaf [(4, 4), (5, 5)])])

/-! # Theorems -/


theorem alookup_aset_self {β : Type} (m : List (Int × β)) (k : Int) (v : β) :
    alookup (aset m k v) k = some v := by
  simp [aset, alookup]

theorem alookup_aerase {β : Type} (m : List (Int × β)) (k x : Int) :
    alookup (aerase m k) x = if k = x then none else alookup m x := by
  induction m with
  | nil => simp [aerase, alookup]
  | cons p rest ih =>
      by_cases hpk : p.1 = k
      · have h1 : aerase (p :: rest) k = aerase rest k := by
          simp [aerase, List.filter_cons, hpk]
        rw [h1, ih]
        by_cases hkx : k = x
        · simp [hkx]
        · have hpx : ¬ p.1 = x := by rw [hpk]; exact hkx
          simp [hkx, alookup, hpx]
      · have h1 : aerase (p :: rest) k = p :: aerase rest k := by
          simp [aerase, List.filter_cons, hpk]
        rw [h1]
        by_cases hpx : p.1 = x
        · have hkx : ¬ k = x := by
            intro h; exact hpk (by rw [hpx, h])
          simp [alookup, hpx, hkx]
        · simp [alookup, hpx, ih]

theorem alookup_aset_ne {β : Type} (m : List (Int × β)) (k x : Int) (v : β)
    (h : k ≠ x) : alookup (aset m k v) x = alookup m x := by
  simp [aset, alookup, h, alookup_aerase]

theorem alookup_aerase_self {β : Type} (m : List (Int × β)) (k : Int) :
    alookup (aerase m k) k = none := by
  simp [alookup_aerase]

theorem alookup_aerase_ne {β : Type} (m : List (Int × β)) (k x : Int)
    (h : k ≠ x) : alookup (aerase m k) x = alookup m x := by
  simp [alookup_aerase, h]

/-! ## C10: negative page ids are rejected up front -/

/-- C10: for every negative page_id, CheckedReadPage and CheckedWritePage
return nullopt immediately and the whole pool state, including the page
table, the free list, the replacer and the disk request log, is untouched. -/
theorem C10_negative_page_id_rejected (s : BpmState) (pid : Int) (h : pid < 0) :
    checkedReadPage s pid = (none, s) ∧ checkedWritePage s pid = (none, s) := by
  constructor
  · simp [checkedReadPage, h]
  · simp [checkedWritePage, h]

/-- Witness for C10 at the one-frame pool and page id -1. -/
theorem C10_negative_page_id_rejected_witness :
    checkedReadPage (bpmInit 1) (-1) = (none, bpmInit 1) ∧
    checkedWritePage (bpmInit 1) (-1) = (none, bpmInit 1) :=
  C10_negative_page_id_rejected (bpmInit 1) (-1) (by decide)

/-! ## C6: the frame-id validator is off by one -/

/-- C6 (code bug): the replacer validators reject exactly frame ids below
0 or above N, so the boundary frame id N, which lies outside the valid
interval, is accepted: with capacity 7, RecordAccess(7, 100) succeeds and
installs frame 7 at the front of mru_, and SetEvictable and Remove accept
frame id 7 as well, while 8 and -1 are rejected. -/
theorem C6_boundary_frame_id_accepted :
    (arcStep (arcInit 7) (.access 7 100)).mru = [7] ∧
    arcResultErr (recordAccess (arcInit 7) 7 100) = none ∧
    arcResultErr (recordAccess (arcInit 7) 8 100) = some .outOfRange ∧
    arcResultErr (recordAccess (arcInit 7) (-1) 100) = some .outOfRange ∧
    arcResultErr (setEvictable (arcInit 7) 7 true) = none ∧
    arcStep (arcInit 7) (.setEv 7 true) = arcInit 7 ∧
    arcResultErr (arcRemove (arcInit 7) 7) = none ∧
    arcStep (arcInit 7) (.remove 7) = arcInit 7 := by
  decide

/-! ## C8: flush and the dirty flag -/

/-- C8 counterexample against the claimed clear-on-success discipline,
both sides.  A dirty frame under a read guard is flushed while the
scheduled disk write eventually fails (ok = false): the source clears the
dirty flag anyway, without waiting for the completion.  The same dirty
frame under a write guard is flushed while the write eventually succeeds
(ok = true): the dirty flag stays set, since the get_future call on the
promise already moved into the scheduler queue throws into the swallowing
catch before the reset line. -/
theorem C8_read_flush_clears_dirty_without_success :
    (readGuardFlush ⟨5, 0, true⟩ ⟨0, 1, true, 1, false, 42⟩ false).1.dirty = false ∧
    (readGuardFlush ⟨5, 0, true⟩ ⟨0, 1, true, 1, false, 42⟩ false).2 =
      [⟨true, 5, 42⟩] ∧
    (writeGuardFlush ⟨5, 0, true⟩ ⟨0, 1, true, 1, false, 42⟩ true).1.dirty = true ∧
    (writeGuardFlush ⟨5, 0, true⟩ ⟨0, 1, true, 1, false, 42⟩ true).2 =
      [⟨true, 5, 42⟩] := by
  decide

/-- C8 amended: on a valid guard over a dirty frame, both flush variants
schedule the write, but neither clears dirty on the write's success: the
read-guard flush clears dirty unconditionally, without consulting the
completion, and the write-guard flush never clears it at all, whatever
the outcome ok of the scheduled write, because its get_future call runs
on the moved-from promise and throws into the swallowing catch; a clean
frame schedules nothing under either variant and dirty stays false. -/
theorem C8_flush_dirty_discipline (g : Guard) (f : FrameH) (ok : Bool)
    (hv : g.isValid = true) :
    (f.dirty = true →
      writeGuardFlush g f ok = (f, [⟨true, g.pageId, f.data⟩]) ∧
      readGuardFlush g f ok = ({ f with dirty := false }, [⟨true, g.pageId, f.data⟩])) ∧
    (f.dirty = false →
      writeGuardFlush g f ok = (f, []) ∧ readGuardFlush g f ok = (f, [])) := by
  constructor
  · intro hd
    constructor
    · simp [writeGuardFlush, hv, hd]
    · simp [readGuardFlush, hv, hd]
  · intro hd
    constructor
    · simp [writeGuardFlush, hv, hd]
    · simp [readGuardFlush, hv, hd]

/-- Witness for the amended C8 at a concrete dirty frame whose scheduled
write succeeds: the write-guard flush keeps dirty set, the read-guard
flush clears it. -/
theorem C8_flush_dirty_discipline_witness :
    (⟨(5 : Int), (0 : Int), true⟩ : Guard).isValid = true ∧
    (⟨0, 1, true, 0, true, 42⟩ : FrameH).dirty = true ∧
    (writeGuardFlush ⟨5, 0, true⟩ ⟨0, 1, true, 0, true, 42⟩ true).1.dirty = true ∧
    (readGuardFlush ⟨5, 0, true⟩ ⟨0, 1, true, 0, true, 42⟩ true).1.dirty = false := by
  have h := (C8_flush_dirty_discipline ⟨5, 0, true⟩ ⟨0, 1, true, 0, true, 42⟩ true rfl).1 rfl
  refine ⟨rfl, rfl, ?_, ?_⟩
  · simp [h.1]
  · simp [h.2]

/-! ## C9: dropping a guard -/

/-- C9: dropping a valid guard invalidates it, releases the latch in the
mode the guard holds, decrements the pin count by one, and runs
SetEvictable(frame, true) on the replacer exactly when the pin count
reaches zero; dropping again (destruction included) changes nothing, so
drop is idempotent on the combined guard, frame and replacer state. -/
theorem C9_guard_drop_semantics (g : Guard) (f : FrameH) (a : ArcState)
    (hv : g.isValid = true) (hp : 1 ≤ f.pin) (hpw : f.pin < 2 ^ 64) :
    (readGuardDrop g f a).1.isValid = false ∧
    (readGuardDrop g f a).2.1.pin = f.pin - 1 ∧
    (readGuardDrop g f a).2.1.readers = f.readers - 1 ∧
    (f.pin - 1 = 0 → (readGuardDrop g f a).2.2 = arcSetEvRun a f.frameId true) ∧
    (f.pin - 1 ≠ 0 → (readGuardDrop g f a).2.2 = a) ∧
    (writeGuardDrop g f a).1.isValid = false ∧
    (writeGuardDrop g f a).2.1.pin = f.pin - 1 ∧
    (writeGuardDrop g f a).2.1.writer = false ∧
    (f.pin - 1 = 0 → (writeGuardDrop g f a).2.2 = arcSetEvRun a f.frameId true) ∧
    (f.pin - 1 ≠ 0 → (writeGuardDrop g f a).2.2 = a) ∧
    (∀ t : Guard × FrameH × ArcState,
      readGuardDropP (readGuardDropP t) = readGuardDropP t) ∧
    (∀ t : Guard × FrameH × ArcState,
      writeGuardDropP (writeGuardDropP t) = writeGuardDropP t) := by
  have hdec : pinDec f.pin = f.pin - 1 := by
    unfold pinDec; omega
  have hreadIdem : ∀ t : Guard × FrameH × ArcState,
      readGuardDropP (readGuardDropP t) = readGuardDropP t := by
    rintro ⟨g0, f0, a0⟩
    by_cases h0 : g0.isValid = false
    · simp [readGuardDropP, readGuardDrop, h0]
    · simp [readGuardDropP, readGuardDrop, h0]
  have hwriteIdem : ∀ t : Guard × FrameH × ArcState,
      writeGuardDropP (writeGuardDropP t) = writeGuardDropP t := by
    rintro ⟨g0, f0, a0⟩
    by_cases h0 : g0.isValid = false
    · simp [writeGuardDropP, writeGuardDrop, h0]
    · simp [writeGuardDropP, writeGuardDrop, h0]
  refine ⟨?_, ?_, ?_, ?_, ?_, ?_, ?_, ?_, ?_, ?_, hreadIdem, hwriteIdem⟩ <;>
    simp [readGuardDrop, writeGuardDrop, hv, hdec]
  · intro hz
    simp [hz]
  · intro hnz
    simp [hnz]
  · intro hz
    simp [hz]
  · intro hnz
    simp [hnz]

/-- Witness for C9: a valid read guard on a frame with one pin; the drop
marks the frame evictable in the replacer. -/
theorem C9_guard_drop_semantics_witness :
    (⟨(5 : Int), (0 : Int), true⟩ : Guard).isValid = true ∧ (1 : Nat) ≤ 1 ∧ (1 : Nat) < 2 ^ 64 ∧
    (readGuardDrop ⟨5, 0, true⟩ ⟨0, 1, false, 1, false, 7⟩
        { arcInit 1 with mru := [0],
                         aliveMap := [(0, ⟨5, 0, false, .mru⟩)] }).2.2 =
      arcSetEvRun { arcInit 1 with mru := [0],
                                   aliveMap := [(0, ⟨5, 0, false, .mru⟩)] } 0 true := by
  refine ⟨rfl, le_refl 1, by decide, ?_⟩
  exact (C9_guard_drop_semantics ⟨5, 0, true⟩ ⟨0, 1, false, 1, false, 7⟩
    { arcInit 1 with mru := [0], aliveMap := [(0, ⟨5, 0, false, .mru⟩)] }
    rfl (le_refl 1) (by decide)).2.2.2.1 rfl

/-! ## C1: the target adjustment on a ghost hit -/

/-- The branch RecordAccess uses to pick the target adjustment equals the
ratio form max 1 (b / max a 1). -/
theorem arc_ratio_branch (a b : Nat) :
    (if b ≤ a then 1 else b / max a 1) = max 1 (b / max a 1) := by
  rcases le_or_lt b a with hba | hab
  · rw [if_pos hba]
    rcases Nat.eq_zero_or_pos a with ha | ha
    · subst ha
      have hb : b = 0 := Nat.le_zero.mp hba
      subst hb
      decide
    · have hm : max a 1 = a := by omega
      rw [hm]
      have h1 : b / a < 2 := by
        rw [Nat.div_lt_iff_lt_mul ha]
        omega
      omega
  · rw [if_neg (by omega)]
    have hb1 : 1 ≤ b := by omega
    have hm : max a 1 ≤ b := by omega
    have h1 : 1 ≤ b / max a 1 := by
      rw [Nat.one_le_div_iff (by omega)]
      exact hm
    omega

/-- C1 amended, increase side: a RecordAccess whose page id the ghost
table records as an mru_ghost_ entry removes the ghost entry first and
then raises the target by max(1, |MFU_GHOST| / max(|MRU_GHOST|, 1))
measured on the ghost lists after that removal, capped at the capacity,
and installs the frame at the front of mfu_. -/
theorem C1_ghost_hit_target (s : ArcState) (fid pid : Int) (gst : FrameStatus)
    (hv : arcFidInvalid s fid = false)
    (hal : alookup s.aliveMap fid = none)
    (hg : alookup s.ghostMap pid = some gst)
    (hst : gst.arcStatus = .mruGhost) :
    recordAccess s fid pid = .ok
      { s with
        mruTargetSize :=
          min (s.mruTargetSize +
               max 1 (s.mfuGhost.length / max (s.mruGhost.erase pid).length 1))
              s.replacerSize,
        mfu := fid :: s.mfu,
        mruGhost := s.mruGhost.erase pid,
        ghostMap := aerase s.ghostMap pid,
        aliveMap := aset s.aliveMap fid ⟨pid, fid, false, .mfu⟩ } := by
  simp only [recordAccess, hv, Bool.false_eq_true, if_false, hal, hg, hst,
    removeFromGhostList, if_true]
  rw [← arc_ratio_branch (s.mruGhost.erase pid).length s.mfuGhost.length]
  split
  · rfl
  · rfl

/-- C1 amended, decrease side: a hit recorded as mfu_ghost_ lowers the
target by max(1, |MRU_GHOST| / max(|MFU_GHOST|, 1)) measured after the
ghost entry was removed, floored at 0 (truncated subtraction). -/
theorem C1_ghost_hit_target_decrease (s : ArcState) (fid pid : Int)
    (gst : FrameStatus)
    (hv : arcFidInvalid s fid = false)
    (hal : alookup s.aliveMap fid = none)
    (hg : alookup s.ghostMap pid = some gst)
    (hst : gst.arcStatus = .mfuGhost) :
    recordAccess s fid pid = .ok
      { s with
        mruTargetSize :=
          s.mruTargetSize -
            max 1 (s.mruGhost.length / max (s.mfuGhost.erase pid).length 1),
        mfu := fid :: s.mfu,
        mfuGhost := s.mfuGhost.erase pid,
        ghostMap := aerase s.ghostMap pid,
        aliveMap := aset s.aliveMap fid ⟨pid, fid, false, .mfu⟩ } := by
  simp only [recordAccess, hv, Bool.false_eq_true, if_false, hal, hg, hst,
    removeFromGhostList]
  rw [if_neg (fun h => ArcStatus.noConfusion h)]
  simp only [if_true]
  rw [← arc_ratio_branch (s.mfuGhost.erase pid).length s.mruGhost.length]
  split
  · rfl
  · rfl

set_option maxRecDepth 8000 in
/-- C1 counterexample: a reachable capacity-7 state with two mru_ghost_
pages and five mfu_ghost_ pages and target 0.  The claim computes the
increase from the ghost lengths at the moment of the hit,
max(1, 5 / 2) = 2; the source removes the ghost entry first and computes
5 / max(1, 1) = 5. -/
theorem C1_ghost_hit_counterexample :
    (arcRun 7 c1ops).mruGhost.length = 2 ∧
    (arcRun 7 c1ops).mfuGhost.length = 5 ∧
    (arcRun 7 c1ops).mruTargetSize = 0 ∧
    alookup (arcRun 7 c1ops).ghostMap 200 = some ⟨200, 0, false, .mruGhost⟩ ∧
    (200 : Int) ∈ (arcRun 7 c1ops).mruGhost ∧
    (arcStep (arcRun 7 c1ops) (.access 3 200)).mruTargetSize = 5 ∧
    arcSpecGhostHitTarget (arcRun 7 c1ops).mruTargetSize
      (arcRun 7 c1ops).mruGhost.length (arcRun 7 c1ops).mfuGhost.length 7 = 2 ∧
    (5 : Nat) ≠ 2 := by
  decide

set_option maxRecDepth 8000 in
/-- Witness for the amended C1 at the counterexample state. -/
theorem C1_ghost_hit_target_witness :
    arcFidInvalid (arcRun 7 c1ops) 3 = false ∧
    alookup (arcRun 7 c1ops).aliveMap 3 = none ∧
    alookup (arcRun 7 c1ops).ghostMap 200 = some ⟨200, 0, false, .mruGhost⟩ ∧
    recordAccess (arcRun 7 c1ops) 3 200 = .ok
      { arcRun 7 c1ops with
        mruTargetSize :=
          min ((arcRun 7 c1ops).mruTargetSize +
               max 1 ((arcRun 7 c1ops).mfuGhost.length /
                      max ((arcRun 7 c1ops).mruGhost.erase 200).length 1))
              (arcRun 7 c1ops).replacerSize,
        mfu := 3 :: (arcRun 7 c1ops).mfu,
        mruGhost := (arcRun 7 c1ops).mruGhost.erase 200,
        ghostMap := aerase (arcRun 7 c1ops).ghostMap 200,
        aliveMap := aset (arcRun 7 c1ops).aliveMap 3 ⟨200, 3, false, .mfu⟩ } :=
  ⟨by decide, by decide, by decide,
   C1_ghost_hit_target (arcRun 7 c1ops) 3 200 ⟨200, 0, false, .mruGhost⟩
     (by decide) (by decide) (by decide) rfl⟩

/-! ## C2: the replacer is not kept in sync with residency -/

/-- C2 (code bug): on a one-frame pool, load page 5 (CheckedReadPage),
drop the guard, then DeletePage(5).  DeletePage removes the page-table and
frame-table entries, resets the frame and returns it to the free list, but
never removes the frame from the replacer: frame 0 stays in mru_ with an
alive entry, so the replacer live set {0} differs from the now empty
resident set, violating the claimed equality (NewPage likewise never
records anything in the replacer). -/
theorem C2_delete_page_leaves_replacer_entry :
    (checkedReadPage c2s0 5).1 = some c2guard ∧
    c2s1.pageTable = [(5, 0)] ∧
    c2s1.arc.mru = [0] ∧
    (getFrame c2s2 0).pin = 0 ∧
    (deletePage c2s2 5).1 = true ∧
    c2s3.pageTable = [] ∧
    c2s3.frameTable = [] ∧
    c2s3.freeFrames = [0] ∧
    c2s3.arc.mru = [0] ∧
    c2s3.arc.mfu = [] ∧
    alookup c2s3.arc.aliveMap 0 = some ⟨5, 0, true, .mru⟩ ∧
    c2s3.arc.mru ++ c2s3.arc.mfu ≠ c2s3.pageTable.map Prod.snd := by
  decide

/-! ## C5: the ARC size bounds -/

theorem int_list_length_le (l : List Int) (n : Nat) (hnd : l.Nodup)
    (hrange : ∀ x ∈ l, 0 ≤ x ∧ x < (n : Int)) : l.length ≤ n := by
  have hsub : l.toFinset ⊆ Finset.Ico (0 : Int) (n : Int) := by
    intro x hx
    rw [List.mem_toFinset] at hx
    rcases hrange x hx with ⟨h1, h2⟩
    rw [Finset.mem_Ico]
    exact ⟨h1, h2⟩
  have hcard := Finset.card_le_card hsub
  rw [List.toFinset_card_of_nodup hnd] at hcard
  have hico : (Finset.Ico (0 : Int) (n : Int)).card = n := by
    rw [Int.card_Ico]
    simp
  omega

theorem int_list_full (l : List Int) (n : Nat) (hnd : l.Nodup)
    (hrange : ∀ x ∈ l, 0 ≤ x ∧ x < (n : Int)) (hlen : l.length = n) :
    ∀ y : Int, 0 ≤ y → y < (n : Int) → y ∈ l := by
  have hsub : l.toFinset ⊆ Finset.Ico (0 : Int) (n : Int) := by
    intro x hx
    rw [List.mem_toFinset] at hx
    rcases hrange x hx with ⟨h1, h2⟩
    rw [Finset.mem_Ico]
    exact ⟨h1, h2⟩
  have hico : (Finset.Ico (0 : Int) (n : Int)).card = n := by
    rw [Int.card_Ico]
    simp
  have hcardle : (Finset.Ico (0 : Int) (n : Int)).card ≤ l.toFinset.card := by
    rw [List.toFinset_card_of_nodup hnd, hlen, hico]
  have heq := Finset.eq_of_subset_of_card_le hsub hcardle
  intro y h1 h2
  have hy : y ∈ Finset.Ico (0 : Int) (n : Int) := Finset.mem_Ico.mpr ⟨h1, h2⟩
  rw [← heq, List.mem_toFinset] at hy
  exact hy

theorem mem_dropLast_of_ne_getLast {l : List Int} (hne : l ≠ [])
    (a : Int) (ha : a ∈ l) (hlast : a ≠ l.getLast hne) : a ∈ l.dropLast := by
  have hsplit := List.dropLast_append_getLast hne
  rw [← hsplit] at ha
  rcases List.mem_append.mp ha with h | h
  · exact h
  · simp at h
    exact absurd h hlast

/-- Looking an association list up is a function. -/
theorem alookup_unique {β : Type} {m : List (Int × β)} {k : Int} {v w : β}
    (h1 : alookup m k = some v) (h2 : alookup m k = some w) : v = w := by
  rw [h1] at h2
  exact Option.some_injective _ h2

theorem setEvictable_arcInv {n : Nat} {s : ArcState} (inv : ArcInv n s)
    (fid : Int) (b : Bool) : ArcInv n (arcStep s (.setEv fid b)) := by
  by_cases hval : arcFidInvalid s fid = true
  · simpa [arcStep, setEvictable, hval] using inv
  · rw [Bool.not_eq_true] at hval
    cases hl : alookup s.aliveMap fid with
    | none => simpa [arcStep, setEvictable, hval, hl] using inv
    | some st =>
      by_cases hev : st.evictable = b
      · simpa [arcStep, setEvictable, hval, hl, hev] using inv
      · have hgoal :
            arcStep s (.setEv fid b) =
              { s with aliveMap := aset s.aliveMap fid { st with evictable := b },
                       currSize := if b then s.currSize + 1 else s.currSize - 1 } := by
          simp [arcStep, setEvictable, hval, hl, hev]
        rw [hgoal]
        refine ⟨inv.size_eq, inv.mruNodup, inv.mfuNodup, inv.disj, ?_, ?_, ?_,
          inv.range, inv.ghostInv, inv.bound1, inv.bound2⟩
        · intro f hf
          rcases inv.aliveMru f hf with ⟨st0, hst0, hstat⟩
          by_cases hfe : fid = f
          · subst hfe
            have : st0 = st := alookup_unique hst0 hl
            subst this
            exact ⟨{ st0 with evictable := b }, by simp [alookup_aset_self], hstat⟩
          · exact ⟨st0, by rw [alookup_aset_ne _ _ _ _ hfe]; exact hst0, hstat⟩
        · intro f hf
          rcases inv.aliveMfu f hf with ⟨st0, hst0, hstat⟩
          by_cases hfe : fid = f
          · subst hfe
            have : st0 = st := alookup_unique hst0 hl
            subst this
            exact ⟨{ st0 with evictable := b }, by simp [alookup_aset_self], hstat⟩
          · exact ⟨st0, by rw [alookup_aset_ne _ _ _ _ hfe]; exact hst0, hstat⟩
        · intro f st2 hst2
          by_cases hfe : fid = f
          · subst hfe
            rw [alookup_aset_self] at hst2
            have hst2e := Option.some_injective _ hst2
            have hold := inv.aliveInv fid st hl
            rw [← hst2e]
            simpa using hold
          · rw [alookup_aset_ne _ _ _ _ hfe] at hst2
            exact inv.aliveInv f st2 hst2

theorem arcRemove_arcInv {n : Nat} {s : ArcState} (inv : ArcInv n s)
    (fid : Int) : ArcInv n (arcStep s (.remove fid)) := by
  by_cases hval : arcFidInvalid s fid = true
  · simpa [arcStep, arcRemove, hval] using inv
  · rw [Bool.not_eq_true] at hval
    cases hl : alookup s.aliveMap fid with
    | none => simpa [arcStep, arcRemove, hval, hl] using inv
    | some st =>
      by_cases hev : st.evictable = false
      · simpa [arcStep, arcRemove, hval, hl, hev] using inv
      · have hinv0 := inv.aliveInv fid st hl
        cases hstat : st.arcStatus with
        | mruGhost => exact absurd hstat hinv0.2.2.1
        | mfuGhost => exact absurd hstat hinv0.2.2.2
        | mru =>
          have hfid_mru : fid ∈ s.mru := hinv0.1 hstat
          have hfid_nmfu : fid ∉ s.mfu := inv.disj fid hfid_mru
          have hgoal : arcStep s (.remove fid) =
              { s with mru := s.mru.erase fid,
                       mruGhost := st.pageId :: s.mruGhost,
                       ghostMap := aset s.ghostMap st.pageId st,
                       aliveMap := aerase s.aliveMap fid,
                       currSize := s.currSize - 1 } := by
            simp [arcStep, arcRemove, hval, hl, hev, removeFromAliveList, hstat]
          rw [hgoal]
          have hlen : (s.mru.erase fid).length = s.mru.length - 1 :=
            List.length_erase_of_mem hfid_mru
          have hpos : 0 < s.mru.length := List.length_pos_of_mem hfid_mru
          refine ⟨inv.size_eq, inv.mruNodup.erase fid, inv.mfuNodup, ?_, ?_, ?_, ?_,
            ?_, ?_, ?_, ?_⟩
          · intro f hf
            exact inv.disj f (List.mem_of_mem_erase hf)
          · intro f hf
            rcases (inv.mruNodup.mem_erase_iff).mp hf with ⟨hne, hmem⟩
            rcases inv.aliveMru f hmem with ⟨st0, hst0, hstat0⟩
            refine ⟨st0, ?_, hstat0⟩
            rw [alookup_aerase_ne _ _ _ (fun h => hne (h.symm))]
            exact hst0
          · intro f hf
            have hne : fid ≠ f := fun h => hfid_nmfu (h ▸ hf)
            rcases inv.aliveMfu f hf with ⟨st0, hst0, hstat0⟩
            refine ⟨st0, ?_, hstat0⟩
            rw [alookup_aerase_ne _ _ _ hne]
            exact hst0
          · intro f st2 hst2
            by_cases hfe : fid = f
            · subst hfe
              rw [alookup_aerase_self] at hst2
              cases hst2
            · rw [alookup_aerase_ne _ _ _ hfe] at hst2
              have hold := inv.aliveInv f st2 hst2
              refine ⟨?_, hold.2.1, hold.2.2.1, hold.2.2.2⟩
              intro hst2m
              exact (inv.mruNodup.mem_erase_iff).mpr ⟨fun h => hfe h.symm, hold.1 hst2m⟩
          · intro f hf
            refine inv.range f ?_
            rcases hf with hf | hf
            · exact Or.inl (List.mem_of_mem_erase hf)
            · exact Or.inr hf
          · intro p st2 hst2
            by_cases hpe : st.pageId = p
            · subst hpe
              rw [alookup_aset_self] at hst2
              have hst2e := Option.some_injective _ hst2
              subst hst2e
              constructor
              · intro habs
                rw [hstat] at habs
                cases habs
              · intro habs
                rw [hstat] at habs
                cases habs
            · rw [alookup_aset_ne _ _ _ _ hpe] at hst2
              have hold := inv.ghostInv p st2 hst2
              exact ⟨fun h => List.mem_cons_of_mem _ (hold.1 h), hold.2⟩
          · dsimp only
            have hc : (st.pageId :: s.mruGhost).length = s.mruGhost.length + 1 := rfl
            have := inv.bound1
            omega
          · dsimp only
            have hc : (st.pageId :: s.mruGhost).length = s.mruGhost.length + 1 := rfl
            have := inv.bound2
            omega
        | mfu =>
          have hfid_mfu : fid ∈ s.mfu := hinv0.2.1 hstat
          have hfid_nmru : fid ∉ s.mru := fun h => (inv.disj fid h) hfid_mfu
          have hgoal : arcStep s (.remove fid) =
              { s with mfu := s.mfu.erase fid,
                       mfuGhost := st.pageId :: s.mfuGhost,
                       ghostMap := aset s.ghostMap st.pageId st,
                       aliveMap := aerase s.aliveMap fid,
                       currSize := s.currSize - 1 } := by
            simp [arcStep, arcRemove, hval, hl, hev, removeFromAliveList, hstat]
          rw [hgoal]
          have hlen : (s.mfu.erase fid).length = s.mfu.length - 1 :=
            List.length_erase_of_mem hfid_mfu
          have hpos : 0 < s.mfu.length := List.length_pos_of_mem hfid_mfu
          refine ⟨inv.size_eq, inv.mruNodup, inv.mfuNodup.erase fid, ?_, ?_, ?_, ?_,
            ?_, ?_, ?_, ?_⟩
          · intro f hf hmem
            exact (inv.disj f hf) (List.mem_of_mem_erase hmem)
          · intro f hf
            have hne : fid ≠ f := fun h => hfid_nmru (h ▸ hf)
            rcases inv.aliveMru f hf with ⟨st0, hst0, hstat0⟩
            refine ⟨st0, ?_, hstat0⟩
            rw [alookup_aerase_ne _ _ _ hne]
            exact hst0
          · intro f hf
            rcases (inv.mfuNodup.mem_erase_iff).mp hf with ⟨hne, hmem⟩
            rcases inv.aliveMfu f hmem with ⟨st0, hst0, hstat0⟩
            refine ⟨st0, ?_, hstat0⟩
            rw [alookup_aerase_ne _ _ _ (fun h => hne (h.symm))]
            exact hst0
          · intro f st2 hst2
            by_cases hfe : fid = f
            · subst hfe
              rw [alookup_aerase_self] at hst2
              cases hst2
            · rw [alookup_aerase_ne _ _ _ hfe] at hst2
              have hold := inv.aliveInv f st2 hst2
              refine ⟨hold.1, ?_, hold.2.2.1, hold.2.2.2⟩
              intro hst2m
              exact (inv.mfuNodup.mem_erase_iff).mpr ⟨fun h => hfe h.symm, hold.2.1 hst2m⟩
          · intro f hf
            refine inv.range f ?_
            rcases hf with hf | hf
            · exact Or.inl hf
            · exact Or.inr (List.mem_of_mem_erase hf)
          · intro p st2 hst2
            by_cases hpe : st.pageId = p
            · subst hpe
              rw [alookup_aset_self] at hst2
              have hst2e := Option.some_injective _ hst2
              subst hst2e
              constructor
              · intro habs
                rw [hstat] at habs
                cases habs
              · intro habs
                rw [hstat] at habs
                cases habs
            · rw [alookup_aset_ne _ _ _ _ hpe] at hst2
              have hold := inv.ghostInv p st2 hst2
              exact ⟨hold.1, fun h => List.mem_cons_of_mem _ (hold.2 h)⟩
          · dsimp only
            exact inv.bound1
          · dsimp only
            have hc : (st.pageId :: s.mfuGhost).length = s.mfuGhost.length + 1 := rfl
            have := inv.bound2
            omega

theorem scanEvictable_mem {s : ArcState} {lst : List Int} {f : Int}
    (h : scanEvictable s lst = some f) :
    f ∈ lst ∧ ∃ st, alookup s.aliveMap f = some st ∧ st.evictable = true := by
  unfold scanEvictable at h
  have hmem := List.mem_of_find?_eq_some h
  have hpred := List.find?_some h
  rw [List.mem_reverse] at hmem
  refine ⟨hmem, ?_⟩
  cases hl : alookup s.aliveMap f with
  | none => rw [hl] at hpred; cases hpred
  | some st =>
      rw [hl] at hpred
      exact ⟨st, rfl, hpred⟩

theorem arcEvictPick_spec {s : ArcState} {v : Int} {vs : ArcStatus}
    (h : arcEvictPick s = some (v, vs)) :
    (vs = .mru ∧ v ∈ s.mru) ∨ (vs = .mfu ∧ v ∈ s.mfu) := by
  unfold arcEvictPick at h
  split at h
  · cases h1 : scanEvictable s s.mru with
    | some f =>
        rw [h1] at h
        cases h
        exact Or.inl ⟨rfl, (scanEvictable_mem h1).1⟩
    | none =>
        rw [h1] at h
        cases h2 : scanEvictable s s.mfu with
        | some f =>
            rw [h2] at h
            cases h
            exact Or.inr ⟨rfl, (scanEvictable_mem h2).1⟩
        | none => rw [h2] at h; cases h
  · cases h1 : scanEvictable s s.mfu with
    | some f =>
        rw [h1] at h
        cases h
        exact Or.inr ⟨rfl, (scanEvictable_mem h1).1⟩
    | none =>
        rw [h1] at h
        cases h2 : scanEvictable s s.mru with
        | some f =>
            rw [h2] at h
            cases h
            exact Or.inl ⟨rfl, (scanEvictable_mem h2).1⟩
        | none => rw [h2] at h; cases h

theorem arcEvict_eq_mru {s : ArcState} {v : Int} {st : FrameStatus}
    (hp : arcEvictPick s = some (v, .mru))
    (hl : alookup s.aliveMap v = some st) :
    (arcEvict s).2 =
      { s with mru := s.mru.erase v,
               mruGhost := st.pageId :: s.mruGhost,
               ghostMap := aset s.ghostMap st.pageId ⟨st.pageId, v, false, .mruGhost⟩,
               aliveMap := aerase s.aliveMap v,
               currSize := s.currSize - 1 } := by
  simp [arcEvict, hp, removeFromAliveList, hl]

theorem arcEvict_eq_mfu {s : ArcState} {v : Int} {st : FrameStatus}
    (hp : arcEvictPick s = some (v, .mfu))
    (hl : alookup s.aliveMap v = some st) :
    (arcEvict s).2 =
      { s with mfu := s.mfu.erase v,
               mfuGhost := st.pageId :: s.mfuGhost,
               ghostMap := aset s.ghostMap st.pageId ⟨st.pageId, v, false, .mfuGhost⟩,
               aliveMap := aerase s.aliveMap v,
               currSize := s.currSize - 1 } := by
  simp [arcEvict, hp, removeFromAliveList, hl]

/-- Detaching an mru_ frame into mru_ghost_ preserves the invariant, for
any ghost-map payload that is not an mfu_ghost_ record. -/
theorem arcInv_moveToMruGhost {n : Nat} {s : ArcState} (inv : ArcInv n s)
    (v pid : Int) (w : FrameStatus) (hmem : v ∈ s.mru)
    (hw : w.arcStatus ≠ .mfuGhost) :
    ArcInv n { s with mru := s.mru.erase v,
                      mruGhost := pid :: s.mruGhost,
                      ghostMap := aset s.ghostMap pid w,
                      aliveMap := aerase s.aliveMap v,
                      currSize := s.currSize - 1 } := by
  have hnmfu : v ∉ s.mfu := inv.disj v hmem
  have hlen : (s.mru.erase v).length = s.mru.length - 1 :=
    List.length_erase_of_mem hmem
  have hpos : 0 < s.mru.length := List.length_pos_of_mem hmem
  refine ⟨inv.size_eq, inv.mruNodup.erase v, inv.mfuNodup, ?_, ?_, ?_, ?_, ?_, ?_,
    ?_, ?_⟩
  · intro f hf
    exact inv.disj f (List.mem_of_mem_erase hf)
  · intro f hf
    rcases (inv.mruNodup.mem_erase_iff).mp hf with ⟨hne, hmem2⟩
    rcases inv.aliveMru f hmem2 with ⟨st0, hst0, hstat0⟩
    refine ⟨st0, ?_, hstat0⟩
    rw [alookup_aerase_ne _ _ _ (fun h => hne (h.symm))]
    exact hst0
  · intro f hf
    have hne : v ≠ f := fun h => hnmfu (h ▸ hf)
    rcases inv.aliveMfu f hf with ⟨st0, hst0, hstat0⟩
    refine ⟨st0, ?_, hstat0⟩
    rw [alookup_aerase_ne _ _ _ hne]
    exact hst0
  · intro f st2 hst2
    by_cases hfe : v = f
    · subst hfe
      rw [alookup_aerase_self] at hst2
      cases hst2
    · rw [alookup_aerase_ne _ _ _ hfe] at hst2
      have hold := inv.aliveInv f st2 hst2
      refine ⟨?_, hold.2.1, hold.2.2.1, hold.2.2.2⟩
      intro hst2m
      exact (inv.mruNodup.mem_erase_iff).mpr ⟨fun h => hfe h.symm, hold.1 hst2m⟩
  · intro f hf
    refine inv.range f ?_
    rcases hf with hf | hf
    · exact Or.inl (List.mem_of_mem_erase hf)
    · exact Or.inr hf
  · intro p st2 hst2
    by_cases hpe : pid = p
    · subst hpe
      rw [alookup_aset_self] at hst2
      have hst2e := Option.some_injective _ hst2
      subst hst2e
      exact ⟨fun _ => List.mem_cons_self _ _, fun h => absurd h hw⟩
    · rw [alookup_aset_ne _ _ _ _ hpe] at hst2
      have hold := inv.ghostInv p st2 hst2
      exact ⟨fun h => List.mem_cons_of_mem _ (hold.1 h), hold.2⟩
  · dsimp only
    have hc : (pid :: s.mruGhost).length = s.mruGhost.length + 1 := rfl
    have := inv.bound1
    omega
  · dsimp only
    have hc : (pid :: s.mruGhost).length = s.mruGhost.length + 1 := rfl
    have := inv.bound2
    omega

/-- Detaching an mfu_ frame into mfu_ghost_ preserves the invariant. -/
theorem arcInv_moveToMfuGhost {n : Nat} {s : ArcState} (inv : ArcInv n s)
    (v pid : Int) (w : FrameStatus) (hmem : v ∈ s.mfu)
    (hw : w.arcStatus ≠ .mruGhost) :
    ArcInv n { s with mfu := s.mfu.erase v,
                      mfuGhost := pid :: s.mfuGhost,
                      ghostMap := aset s.ghostMap pid w,
                      aliveMap := aerase s.aliveMap v,
                      currSize := s.currSize - 1 } := by
  have hnmru : v ∉ s.mru := fun h => (inv.disj v h) hmem
  have hlen : (s.mfu.erase v).length = s.mfu.length - 1 :=
    List.length_erase_of_mem hmem
  have hpos : 0 < s.mfu.length := List.length_pos_of_mem hmem
  refine ⟨inv.size_eq, inv.mruNodup, inv.mfuNodup.erase v, ?_, ?_, ?_, ?_, ?_, ?_,
    ?_, ?_⟩
  · intro f hf hmem2
    exact (inv.disj f hf) (List.mem_of_mem_erase hmem2)
  · intro f hf
    have hne : v ≠ f := fun h => hnmru (h ▸ hf)
    rcases inv.aliveMru f hf with ⟨st0, hst0, hstat0⟩
    refine ⟨st0, ?_, hstat0⟩
    rw [alookup_aerase_ne _ _ _ hne]
    exact hst0
  · intro f hf
    rcases (inv.mfuNodup.mem_erase_iff).mp hf with ⟨hne, hmem2⟩
    rcases inv.aliveMfu f hmem2 with ⟨st0, hst0, hstat0⟩
    refine ⟨st0, ?_, hstat0⟩
    rw [alookup_aerase_ne _ _ _ (fun h => hne (h.symm))]
    exact hst0
  · intro f st2 hst2
    by_cases hfe : v = f
    · subst hfe
      rw [alookup_aerase_self] at hst2
      cases hst2
    · rw [alookup_aerase_ne _ _ _ hfe] at hst2
      have hold := inv.aliveInv f st2 hst2
      refine ⟨hold.1, ?_, hold.2.2.1, hold.2.2.2⟩
      intro hst2m
      exact (inv.mfuNodup.mem_erase_iff).mpr ⟨fun h => hfe h.symm, hold.2.1 hst2m⟩
  · intro f hf
    refine inv.range f ?_
    rcases hf with hf | hf
    · exact Or.inl hf
    · exact Or.inr (List.mem_of_mem_erase hf)
  · intro p st2 hst2
    by_cases hpe : pid = p
    · subst hpe
      rw [alookup_aset_self] at hst2
      have hst2e := Option.some_injective _ hst2
      subst hst2e
      exact ⟨fun h => absurd h hw, fun _ => List.mem_cons_self _ _⟩
    · rw [alookup_aset_ne _ _ _ _ hpe] at hst2
      have hold := inv.ghostInv p st2 hst2
      exact ⟨hold.1, fun h => List.mem_cons_of_mem _ (hold.2 h)⟩
  · dsimp only
    exact inv.bound1
  · dsimp only
    have hc : (pid :: s.mfuGhost).length = s.mfuGhost.length + 1 := rfl
    have := inv.bound2
    omega

theorem arcEvict_arcInv {n : Nat} {s : ArcState} (inv : ArcInv n s) :
    ArcInv n (arcStep s .evict) := by
  have harc : arcStep s .evict = (arcEvict s).2 := rfl
  rw [harc]
  cases hp : arcEvictPick s with
  | none =>
      have : arcEvict s = (none, s) := by simp [arcEvict, hp]
      rw [this]
      exact inv
  | some pair =>
      rcases pair with ⟨v, vs⟩
      rcases arcEvictPick_spec hp with ⟨hvs, hmem⟩ | ⟨hvs, hmem⟩
      · subst hvs
        rcases inv.aliveMru v hmem with ⟨st, hl, _⟩
        rw [arcEvict_eq_mru hp hl]
        exact arcInv_moveToMruGhost inv v st.pageId ⟨st.pageId, v, false, .mruGhost⟩
          hmem (fun h => ArcStatus.noConfusion h)
      · subst hvs
        rcases inv.aliveMfu v hmem with ⟨st, hl, _⟩
        rw [arcEvict_eq_mfu hp hl]
        exact arcInv_moveToMfuGhost inv v st.pageId ⟨st.pageId, v, false, .mfuGhost⟩
          hmem (fun h => ArcStatus.noConfusion h)

/-- Dropping the oldest mru_ghost_ page (and its ghost-map record)
preserves the invariant. -/
theorem arcInv_dropOldestMruGhost {n : Nat} {s : ArcState} (inv : ArcInv n s)
    {op : Int} (hop : s.mruGhost.getLast? = some op) :
    ArcInv n { s with mruGhost := s.mruGhost.dropLast,
                      ghostMap := aerase s.ghostMap op } := by
  have hgne : s.mruGhost ≠ [] := by
    intro hemp
    rw [hemp] at hop
    cases hop
  have hlast : s.mruGhost.getLast hgne = op := by
    have := List.getLast?_eq_getLast s.mruGhost hgne
    rw [this] at hop
    exact Option.some_injective _ hop
  refine ⟨inv.size_eq, inv.mruNodup, inv.mfuNodup, inv.disj, inv.aliveMru,
    inv.aliveMfu, inv.aliveInv, inv.range, ?_, ?_, ?_⟩
  · intro p st2 hst2
    by_cases hpe : op = p
    · subst hpe
      rw [alookup_aerase_self] at hst2
      cases hst2
    · rw [alookup_aerase_ne _ _ _ hpe] at hst2
      have hold := inv.ghostInv p st2 hst2
      refine ⟨?_, hold.2⟩
      intro hstat
      exact mem_dropLast_of_ne_getLast hgne p (hold.1 hstat)
        (by rw [hlast]; exact fun h => hpe h.symm)
  · dsimp only
    have hlen := s.mruGhost.length_dropLast
    have := inv.bound1
    omega
  · dsimp only
    have hlen := s.mruGhost.length_dropLast
    have := inv.bound2
    omega

/-- Dropping the oldest mfu_ghost_ page preserves the invariant. -/
theorem arcInv_dropOldestMfuGhost {n : Nat} {s : ArcState} (inv : ArcInv n s)
    {op : Int} (hop : s.mfuGhost.getLast? = some op) :
    ArcInv n { s with mfuGhost := s.mfuGhost.dropLast,
                      ghostMap := aerase s.ghostMap op } := by
  have hgne : s.mfuGhost ≠ [] := by
    intro hemp
    rw [hemp] at hop
    cases hop
  have hlast : s.mfuGhost.getLast hgne = op := by
    have := List.getLast?_eq_getLast s.mfuGhost hgne
    rw [this] at hop
    exact Option.some_injective _ hop
  refine ⟨inv.size_eq, inv.mruNodup, inv.mfuNodup, inv.disj, inv.aliveMru,
    inv.aliveMfu, inv.aliveInv, inv.range, ?_, ?_, ?_⟩
  · intro p st2 hst2
    by_cases hpe : op = p
    · subst hpe
      rw [alookup_aerase_self] at hst2
      cases hst2
    · rw [alookup_aerase_ne _ _ _ hpe] at hst2
      have hold := inv.ghostInv p st2 hst2
      refine ⟨hold.1, ?_⟩
      intro hstat
      exact mem_dropLast_of_ne_getLast hgne p (hold.2 hstat)
        (by rw [hlast]; exact fun h => hpe h.symm)
  · exact inv.bound1
  · dsimp only
    have hlen := s.mfuGhost.length_dropLast
    have := inv.bound2
    omega

/-- Installing an unseen frame at the front of mru_ preserves the
invariant once the bounds have room for it. -/
theorem arcInv_missInstall {n : Nat} {s1 : ArcState} (inv1 : ArcInv n s1)
    (fid pid : Int) (hge : 0 ≤ fid) (hlt : fid < (n : Int))
    (hal : alookup s1.aliveMap fid = none)
    (hb1 : s1.mru.length + 1 + s1.mruGhost.length ≤ n)
    (hb2 : s1.mru.length + 1 + s1.mruGhost.length + s1.mfu.length +
             s1.mfuGhost.length ≤ 2 * n) :
    ArcInv n { s1 with mru := fid :: s1.mru,
                       aliveMap := aset s1.aliveMap fid ⟨pid, fid, false, .mru⟩ } := by
  have hnmru : fid ∉ s1.mru := by
    intro h
    rcases inv1.aliveMru fid h with ⟨st, hst, _⟩
    rw [hal] at hst
    cases hst
  have hnmfu : fid ∉ s1.mfu := by
    intro h
    rcases inv1.aliveMfu fid h with ⟨st, hst, _⟩
    rw [hal] at hst
    cases hst
  refine ⟨inv1.size_eq, ?_, inv1.mfuNodup, ?_, ?_, ?_, ?_, ?_, inv1.ghostInv,
    ?_, ?_⟩
  · exact List.Nodup.cons hnmru inv1.mruNodup
  · intro f hf
    rcases List.mem_cons.mp hf with hf | hf
    · subst hf
      exact hnmfu
    · exact inv1.disj f hf
  · intro f hf
    rcases List.mem_cons.mp hf with hf | hf
    · subst hf
      exact ⟨⟨pid, f, false, .mru⟩, by rw [alookup_aset_self], rfl⟩
    · have hne : fid ≠ f := fun h => hnmru (h ▸ hf)
      rcases inv1.aliveMru f hf with ⟨st0, hst0, hstat0⟩
      exact ⟨st0, by rw [alookup_aset_ne _ _ _ _ hne]; exact hst0, hstat0⟩
  · intro f hf
    have hne : fid ≠ f := fun h => hnmfu (h ▸ hf)
    rcases inv1.aliveMfu f hf with ⟨st0, hst0, hstat0⟩
    exact ⟨st0, by rw [alookup_aset_ne _ _ _ _ hne]; exact hst0, hstat0⟩
  · intro f st2 hst2
    by_cases hfe : fid = f
    · subst hfe
      rw [alookup_aset_self] at hst2
      have hst2e := Option.some_injective _ hst2
      subst hst2e
      exact ⟨fun _ => List.mem_cons_self _ _, fun h => ArcStatus.noConfusion h,
        fun h => ArcStatus.noConfusion h, fun h => ArcStatus.noConfusion h⟩
    · rw [alookup_aset_ne _ _ _ _ hfe] at hst2
      have hold := inv1.aliveInv f st2 hst2
      exact ⟨fun h => List.mem_cons_of_mem _ (hold.1 h), hold.2.1, hold.2.2.1,
        hold.2.2.2⟩
  · intro f hf
    rcases hf with hf | hf
    · rcases List.mem_cons.mp hf with hf | hf
      · subst hf
        exact ⟨hge, hlt⟩
      · exact inv1.range f (Or.inl hf)
    · exact inv1.range f (Or.inr hf)
  · dsimp only
    have hc : (fid :: s1.mru).length = s1.mru.length + 1 := rfl
    omega
  · dsimp only
    have hc : (fid :: s1.mru).length = s1.mru.length + 1 := rfl
    omega

theorem arcCaseMissAll_arcInv {n : Nat} {s : ArcState} (inv : ArcInv n s)
    (fid pid : Int) (hge : 0 ≤ fid) (hlt : fid < (n : Int))
    (hal : alookup s.aliveMap fid = none) :
    ArcInv n (arcCaseMissAll s fid pid) := by
  have hsz : s.replacerSize = n := inv.size_eq
  have hnmru : fid ∉ s.mru := by
    intro h
    rcases inv.aliveMru fid h with ⟨st, hst, _⟩
    rw [hal] at hst
    cases hst
  by_cases hA : s.mru.length + s.mruGhost.length = s.replacerSize
  · have hgne : s.mruGhost ≠ [] := by
      intro hemp
      have hml : s.mru.length = n := by
        rw [hemp] at hA
        simpa [hsz] using hA
      have hfull := int_list_full s.mru n inv.mruNodup
        (fun x hx => inv.range x (Or.inl hx)) hml
      exact hnmru (hfull fid hge hlt)
    obtain ⟨op, hop⟩ : ∃ op, s.mruGhost.getLast? = some op := by
      cases hgl : s.mruGhost.getLast? with
      | none => exact absurd (List.getLast?_eq_none_iff.mp hgl) hgne
      | some op => exact ⟨op, rfl⟩
    have heq : arcCaseMissAll s fid pid =
        { s with mru := fid :: s.mru,
                 mruGhost := s.mruGhost.dropLast,
                 ghostMap := aerase s.ghostMap op,
                 aliveMap := aset s.aliveMap fid ⟨pid, fid, false, .mru⟩ } := by
      simp [arcCaseMissAll, hA, hop]
    rw [heq]
    have inv1 := arcInv_dropOldestMruGhost inv hop
    have hglen : 0 < s.mruGhost.length := List.length_pos_of_ne_nil hgne
    have hdl := s.mruGhost.length_dropLast
    exact arcInv_missInstall inv1 fid pid hge hlt hal
      (by dsimp only; omega) (by dsimp only; have := inv.bound2; omega)
  · by_cases hB : 2 * s.replacerSize ≤
        s.mru.length + s.mruGhost.length + s.mfu.length + s.mfuGhost.length
    · have hsum : s.mru.length + s.mfu.length ≤ n := by
        have hnd : (s.mru ++ s.mfu).Nodup :=
          List.Nodup.append inv.mruNodup inv.mfuNodup inv.disj
        have hrange : ∀ x ∈ s.mru ++ s.mfu, 0 ≤ x ∧ x < (n : Int) := by
          intro x hx
          rcases List.mem_append.mp hx with hx | hx
          · exact inv.range x (Or.inl hx)
          · exact inv.range x (Or.inr hx)
        have := int_list_length_le (s.mru ++ s.mfu) n hnd hrange
        rw [List.length_append] at this
        exact this
      have hgne : s.mfuGhost ≠ [] := by
        intro hemp
        have hz : s.mfuGhost.length = 0 := by rw [hemp]; rfl
        have hb1 := inv.bound1
        rw [hsz] at hA hB
        omega
      obtain ⟨op, hop⟩ : ∃ op, s.mfuGhost.getLast? = some op := by
        cases hgl : s.mfuGhost.getLast? with
        | none => exact absurd (List.getLast?_eq_none_iff.mp hgl) hgne
        | some op => exact ⟨op, rfl⟩
      have heq : arcCaseMissAll s fid pid =
          { s with mru := fid :: s.mru,
                   mfuGhost := s.mfuGhost.dropLast,
                   ghostMap := aerase s.ghostMap op,
                   aliveMap := aset s.aliveMap fid ⟨pid, fid, false, .mru⟩ } := by
        simp [arcCaseMissAll, hA, hB, hop]
      rw [heq]
      have inv1 := arcInv_dropOldestMfuGhost inv hop
      have hglen : 0 < s.mfuGhost.length := List.length_pos_of_ne_nil hgne
      have hdl := s.mfuGhost.length_dropLast
      have hb1 := inv.bound1
      have hb2 := inv.bound2
      rw [hsz] at hA hB
      exact arcInv_missInstall inv1 fid pid hge hlt hal
        (by dsimp only; omega) (by dsimp only; omega)
    · have heq : arcCaseMissAll s fid pid =
          { s with mru := fid :: s.mru,
                   aliveMap := aset s.aliveMap fid ⟨pid, fid, false, .mru⟩ } := by
        simp [arcCaseMissAll, hA, hB]
      rw [heq]
      have hb1 := inv.bound1
      have hb2 := inv.bound2
      rw [hsz] at hA hB
      exact arcInv_missInstall inv fid pid hge hlt hal (by omega) (by omega)

/-- An access hitting mru_ or mfu_ (case 1 of RecordAccess) preserves the
invariant. -/
theorem arcInv_aliveHit {n : Nat} {s : ArcState} (inv : ArcInv n s)
    (fid : Int) {st : FrameStatus} (hl : alookup s.aliveMap fid = some st) :
    ArcInv n
      (let s1 := removeFromAliveList s fid st.arcStatus
       { s1 with mfu := fid :: s1.mfu,
                 aliveMap := aset s1.aliveMap fid { st with arcStatus := .mfu } }) := by
  have hinv0 := inv.aliveInv fid st hl
  cases hstat : st.arcStatus with
  | mruGhost => exact absurd hstat hinv0.2.2.1
  | mfuGhost => exact absurd hstat hinv0.2.2.2
  | mru =>
    have hmem : fid ∈ s.mru := hinv0.1 hstat
    have hnmfu : fid ∉ s.mfu := inv.disj fid hmem
    have hlen : (s.mru.erase fid).length = s.mru.length - 1 :=
      List.length_erase_of_mem hmem
    have hpos : 0 < s.mru.length := List.length_pos_of_mem hmem
    simp only [removeFromAliveList]
    refine ⟨inv.size_eq, inv.mruNodup.erase fid, List.Nodup.cons ?_ inv.mfuNodup,
      ?_, ?_, ?_, ?_, ?_, inv.ghostInv, ?_, ?_⟩
    · intro h
      exact hnmfu h
    · intro f hf
      rcases (inv.mruNodup.mem_erase_iff).mp hf with ⟨hne, hmem2⟩
      intro hcons
      rcases List.mem_cons.mp hcons with h | h
      · exact hne h
      · exact (inv.disj f hmem2) h
    · intro f hf
      rcases (inv.mruNodup.mem_erase_iff).mp hf with ⟨hne, hmem2⟩
      rcases inv.aliveMru f hmem2 with ⟨st0, hst0, hstat0⟩
      refine ⟨st0, ?_, hstat0⟩
      rw [alookup_aset_ne _ _ _ _ (fun h => hne h.symm)]
      exact hst0
    · intro f hf
      rcases List.mem_cons.mp hf with h | h
      · subst h
        exact ⟨{ st with arcStatus := .mfu }, by rw [alookup_aset_self], rfl⟩
      · have hne : fid ≠ f := fun he => hnmfu (he ▸ h)
        rcases inv.aliveMfu f h with ⟨st0, hst0, hstat0⟩
        exact ⟨st0, by rw [alookup_aset_ne _ _ _ _ hne]; exact hst0, hstat0⟩
    · intro f st2 hst2
      by_cases hfe : fid = f
      · subst hfe
        rw [alookup_aset_self] at hst2
        have hst2e := Option.some_injective _ hst2
        subst hst2e
        exact ⟨fun h => ArcStatus.noConfusion h, fun _ => List.mem_cons_self _ _,
          fun h => ArcStatus.noConfusion h, fun h => ArcStatus.noConfusion h⟩
      · rw [alookup_aset_ne _ _ _ _ hfe] at hst2
        have hold := inv.aliveInv f st2 hst2
        refine ⟨?_, fun h => List.mem_cons_of_mem _ (hold.2.1 h), hold.2.2.1,
          hold.2.2.2⟩
        intro h
        exact (inv.mruNodup.mem_erase_iff).mpr ⟨fun he => hfe he.symm, hold.1 h⟩
    · intro f hf
      rcases hf with hf | hf
      · exact inv.range f (Or.inl (List.mem_of_mem_erase hf))
      · rcases List.mem_cons.mp hf with h | h
        · subst h
          exact inv.range f (Or.inl hmem)
        · exact inv.range f (Or.inr h)
    · dsimp only
      have hc : (fid :: s.mfu).length = s.mfu.length + 1 := rfl
      have := inv.bound1
      omega
    · dsimp only
      have hc : (fid :: s.mfu).length = s.mfu.length + 1 := rfl
      have := inv.bound2
      omega
  | mfu =>
    have hmem : fid ∈ s.mfu := hinv0.2.1 hstat
    have hnmru : fid ∉ s.mru := fun h => (inv.disj fid h) hmem
    have hlen : (s.mfu.erase fid).length = s.mfu.length - 1 :=
      List.length_erase_of_mem hmem
    have hpos : 0 < s.mfu.length := List.length_pos_of_mem hmem
    simp only [removeFromAliveList]
    refine ⟨inv.size_eq, inv.mruNodup,
      List.Nodup.cons (fun h => ((inv.mfuNodup.mem_erase_iff).mp h).1 rfl)
        (inv.mfuNodup.erase fid),
      ?_, ?_, ?_, ?_, ?_, inv.ghostInv, ?_, ?_⟩
    · intro f hf hcons
      rcases List.mem_cons.mp hcons with h | h
      · subst h
        exact hnmru hf
      · exact (inv.disj f hf) (List.mem_of_mem_erase h)
    · intro f hf
      have hne : fid ≠ f := fun he => hnmru (he ▸ hf)
      rcases inv.aliveMru f hf with ⟨st0, hst0, hstat0⟩
      exact ⟨st0, by rw [alookup_aset_ne _ _ _ _ hne]; exact hst0, hstat0⟩
    · intro f hf
      rcases List.mem_cons.mp hf with h | h
      · subst h
        exact ⟨{ st with arcStatus := .mfu }, by rw [alookup_aset_self], rfl⟩
      · rcases (inv.mfuNodup.mem_erase_iff).mp h with ⟨hne, hmem2⟩
        rcases inv.aliveMfu f hmem2 with ⟨st0, hst0, hstat0⟩
        refine ⟨st0, ?_, hstat0⟩
        rw [alookup_aset_ne _ _ _ _ (fun he => hne he.symm)]
        exact hst0
    · intro f st2 hst2
      by_cases hfe : fid = f
      · subst hfe
        rw [alookup_aset_self] at hst2
        have hst2e := Option.some_injective _ hst2
        subst hst2e
        exact ⟨fun h => ArcStatus.noConfusion h, fun _ => List.mem_cons_self _ _,
          fun h => ArcStatus.noConfusion h, fun h => ArcStatus.noConfusion h⟩
      · rw [alookup_aset_ne _ _ _ _ hfe] at hst2
        have hold := inv.aliveInv f st2 hst2
        refine ⟨hold.1, ?_, hold.2.2.1, hold.2.2.2⟩
        intro h
        exact List.mem_cons_of_mem _
          ((inv.mfuNodup.mem_erase_iff).mpr ⟨fun he => hfe he.symm, hold.2.1 h⟩)
    · intro f hf
      rcases hf with hf | hf
      · exact inv.range f (Or.inl hf)
      · rcases List.mem_cons.mp hf with h | h
        · subst h
          exact inv.range f (Or.inr hmem)
        · exact inv.range f (Or.inr (List.mem_of_mem_erase h))
    · dsimp only
      exact inv.bound1
    · dsimp only
      have hc : (fid :: s.mfu.erase fid).length = (s.mfu.erase fid).length + 1 := rfl
      have := inv.bound2
      omega

/-- A ghost hit on mru_ghost_ (case 2) preserves the invariant, for any
new target value. -/
theorem arcInv_ghostHitMru {n : Nat} {s : ArcState} (inv : ArcInv n s)
    (fid pid : Int) (tgt : Nat) (hge : 0 ≤ fid) (hlt : fid < (n : Int))
    (hal : alookup s.aliveMap fid = none) (hpmem : pid ∈ s.mruGhost) :
    ArcInv n { s with mruTargetSize := tgt,
                      mfu := fid :: s.mfu,
                      mruGhost := s.mruGhost.erase pid,
                      ghostMap := aerase s.ghostMap pid,
                      aliveMap := aset s.aliveMap fid ⟨pid, fid, false, .mfu⟩ } := by
  have hnmru : fid ∉ s.mru := by
    intro h
    rcases inv.aliveMru fid h with ⟨st, hst, _⟩
    rw [hal] at hst
    cases hst
  have hnmfu : fid ∉ s.mfu := by
    intro h
    rcases inv.aliveMfu fid h with ⟨st, hst, _⟩
    rw [hal] at hst
    cases hst
  have hlen : (s.mruGhost.erase pid).length = s.mruGhost.length - 1 :=
    List.length_erase_of_mem hpmem
  have hpos : 0 < s.mruGhost.length := List.length_pos_of_mem hpmem
  refine ⟨inv.size_eq, inv.mruNodup, List.Nodup.cons hnmfu inv.mfuNodup, ?_, ?_,
    ?_, ?_, ?_, ?_, ?_, ?_⟩
  · intro f hf hcons
    rcases List.mem_cons.mp hcons with h | h
    · subst h
      exact hnmru hf
    · exact (inv.disj f hf) h
  · intro f hf
    have hne : fid ≠ f := fun he => hnmru (he ▸ hf)
    rcases inv.aliveMru f hf with ⟨st0, hst0, hstat0⟩
    exact ⟨st0, by rw [alookup_aset_ne _ _ _ _ hne]; exact hst0, hstat0⟩
  · intro f hf
    rcases List.mem_cons.mp hf with h | h
    · subst h
      exact ⟨⟨pid, f, false, .mfu⟩, by rw [alookup_aset_self], rfl⟩
    · have hne : fid ≠ f := fun he => hnmfu (he ▸ h)
      rcases inv.aliveMfu f h with ⟨st0, hst0, hstat0⟩
      exact ⟨st0, by rw [alookup_aset_ne _ _ _ _ hne]; exact hst0, hstat0⟩
  · intro f st2 hst2
    by_cases hfe : fid = f
    · subst hfe
      rw [alookup_aset_self] at hst2
      have hst2e := Option.some_injective _ hst2
      subst hst2e
      exact ⟨fun h => ArcStatus.noConfusion h, fun _ => List.mem_cons_self _ _,
        fun h => ArcStatus.noConfusion h, fun h => ArcStatus.noConfusion h⟩
    · rw [alookup_aset_ne _ _ _ _ hfe] at hst2
      have hold := inv.aliveInv f st2 hst2
      exact ⟨hold.1, fun h => List.mem_cons_of_mem _ (hold.2.1 h), hold.2.2.1,
        hold.2.2.2⟩
  · intro f hf
    rcases hf with hf | hf
    · exact inv.range f (Or.inl hf)
    · rcases List.mem_cons.mp hf with h | h
      · subst h
        exact ⟨hge, hlt⟩
      · exact inv.range f (Or.inr h)
  · intro p st2 hst2
    by_cases hpe : pid = p
    · subst hpe
      rw [alookup_aerase_self] at hst2
      cases hst2
    · rw [alookup_aerase_ne _ _ _ hpe] at hst2
      have hold := inv.ghostInv p st2 hst2
      refine ⟨?_, hold.2⟩
      intro h
      exact (List.mem_erase_of_ne (fun he => hpe he.symm)).mpr (hold.1 h)
  · dsimp only
    have := inv.bound1
    omega
  · dsimp only
    have hc : (fid :: s.mfu).length = s.mfu.length + 1 := rfl
    have := inv.bound2
    omega

/-- A ghost hit on mfu_ghost_ (case 3) preserves the invariant, for any
new target value. -/
theorem arcInv_ghostHitMfu {n : Nat} {s : ArcState} (inv : ArcInv n s)
    (fid pid : Int) (tgt : Nat) (hge : 0 ≤ fid) (hlt : fid < (n : Int))
    (hal : alookup s.aliveMap fid = none) (hpmem : pid ∈ s.mfuGhost) :
    ArcInv n { s with mruTargetSize := tgt,
                      mfu := fid :: s.mfu,
                      mfuGhost := s.mfuGhost.erase pid,
                      ghostMap := aerase s.ghostMap pid,
                      aliveMap := aset s.aliveMap fid ⟨pid, fid, false, .mfu⟩ } := by
  have hnmru : fid ∉ s.mru := by
    intro h
    rcases inv.aliveMru fid h with ⟨st, hst, _⟩
    rw [hal] at hst
    cases hst
  have hnmfu : fid ∉ s.mfu := by
    intro h
    rcases inv.aliveMfu fid h with ⟨st, hst, _⟩
    rw [hal] at hst
    cases hst
  have hlen : (s.mfuGhost.erase pid).length = s.mfuGhost.length - 1 :=
    List.length_erase_of_mem hpmem
  have hpos : 0 < s.mfuGhost.length := List.length_pos_of_mem hpmem
  refine ⟨inv.size_eq, inv.mruNodup, List.Nodup.cons hnmfu inv.mfuNodup, ?_, ?_,
    ?_, ?_, ?_, ?_, ?_, ?_⟩
  · intro f hf hcons
    rcases List.mem_cons.mp hcons with h | h
    · subst h
      exact hnmru hf
    · exact (inv.disj f hf) h
  · intro f hf
    have hne : fid ≠ f := fun he => hnmru (he ▸ hf)
    rcases inv.aliveMru f hf with ⟨st0, hst0, hstat0⟩
    exact ⟨st0, by rw [alookup_aset_ne _ _ _ _ hne]; exact hst0, hstat0⟩
  · intro f hf
    rcases List.mem_cons.mp hf with h | h
    · subst h
      exact ⟨⟨pid, f, false, .mfu⟩, by rw [alookup_aset_self], rfl⟩
    · have hne : fid ≠ f := fun he => hnmfu (he ▸ h)
      rcases inv.aliveMfu f h with ⟨st0, hst0, hstat0⟩
      exact ⟨st0, by rw [alookup_aset_ne _ _ _ _ hne]; exact hst0, hstat0⟩
  · intro f st2 hst2
    by_cases hfe : fid = f
    · subst hfe
      rw [alookup_aset_self] at hst2
      have hst2e := Option.some_injective _ hst2
      subst hst2e
      exact ⟨fun h => ArcStatus.noConfusion h, fun _ => List.mem_cons_self _ _,
        fun h => ArcStatus.noConfusion h, fun h => ArcStatus.noConfusion h⟩
    · rw [alookup_aset_ne _ _ _ _ hfe] at hst2
      have hold := inv.aliveInv f st2 hst2
      exact ⟨hold.1, fun h => List.mem_cons_of_mem _ (hold.2.1 h), hold.2.2.1,
        hold.2.2.2⟩
  · intro f hf
    rcases hf with hf | hf
    · exact inv.range f (Or.inl hf)
    · rcases List.mem_cons.mp hf with h | h
      · subst h
        exact ⟨hge, hlt⟩
      · exact inv.range f (Or.inr h)
  · intro p st2 hst2
    by_cases hpe : pid = p
    · subst hpe
      rw [alookup_aerase_self] at hst2
      cases hst2
    · rw [alookup_aerase_ne _ _ _ hpe] at hst2
      have hold := inv.ghostInv p st2 hst2
      refine ⟨hold.1, ?_⟩
      intro h
      exact (List.mem_erase_of_ne (fun he => hpe he.symm)).mpr (hold.2 h)
  · exact inv.bound1
  · dsimp only
    have hc : (fid :: s.mfu).length = s.mfu.length + 1 := rfl
    have := inv.bound2
    omega

theorem recordAccess_arcInv {n : Nat} {s : ArcState} (inv : ArcInv n s)
    (fid pid : Int) (hge : 0 ≤ fid) (hlt : fid < (n : Int)) :
    ArcInv n (arcStep s (.access fid pid)) := by
  have hval : arcFidInvalid s fid = false := by
    simp only [arcFidInvalid, inv.size_eq, Bool.or_eq_false_iff,
      decide_eq_false_iff_not, not_lt]
    omega
  cases hl : alookup s.aliveMap fid with
  | some st =>
      have heq : arcStep s (.access fid pid) =
          (let s1 := removeFromAliveList s fid st.arcStatus
           { s1 with mfu := fid :: s1.mfu,
                     aliveMap := aset s1.aliveMap fid { st with arcStatus := .mfu } }) := by
        simp [arcStep, recordAccess, hval, hl]
      rw [heq]
      exact arcInv_aliveHit inv fid hl
  | none =>
      cases hg : alookup s.ghostMap pid with
      | none =>
          have heq : arcStep s (.access fid pid) = arcCaseMissAll s fid pid := by
            simp [arcStep, recordAccess, hval, hl, hg]
          rw [heq]
          exact arcCaseMissAll_arcInv inv fid pid hge hlt hl
      | some gst =>
          cases hstat : gst.arcStatus with
          | mruGhost =>
              have hpmem : pid ∈ s.mruGhost := (inv.ghostInv pid gst hg).1 hstat
              have heq : arcStep s (.access fid pid) =
                  { s with
                    mruTargetSize :=
                      if s.mfuGhost.length ≤ (s.mruGhost.erase pid).length then
                        min (s.mruTargetSize + 1) s.replacerSize
                      else
                        min (s.mruTargetSize +
                             s.mfuGhost.length / max (s.mruGhost.erase pid).length 1)
                            s.replacerSize,
                    mfu := fid :: s.mfu,
                    mruGhost := s.mruGhost.erase pid,
                    ghostMap := aerase s.ghostMap pid,
                    aliveMap := aset s.aliveMap fid ⟨pid, fid, false, .mfu⟩ } := by
                simp only [arcStep, recordAccess, hval, Bool.false_eq_true, if_false,
                  hl, hg, hstat, removeFromGhostList, if_true]
              rw [heq]
              exact arcInv_ghostHitMru inv fid pid _ hge hlt hl hpmem
          | mfuGhost =>
              have hpmem : pid ∈ s.mfuGhost := (inv.ghostInv pid gst hg).2 hstat
              have heq : arcStep s (.access fid pid) =
                  { s with
                    mruTargetSize :=
                      if s.mruGhost.length ≤ (s.mfuGhost.erase pid).length then
                        s.mruTargetSize - 1
                      else
                        s.mruTargetSize -
                          s.mruGhost.length / max (s.mfuGhost.erase pid).length 1,
                    mfu := fid :: s.mfu,
                    mfuGhost := s.mfuGhost.erase pid,
                    ghostMap := aerase s.ghostMap pid,
                    aliveMap := aset s.aliveMap fid ⟨pid, fid, false, .mfu⟩ } := by
                simp only [arcStep, recordAccess, hval, Bool.false_eq_true, if_false,
                  hl, hg, hstat, removeFromGhostList]
                rw [if_neg (fun h => ArcStatus.noConfusion h)]
                simp only [if_true]
              rw [heq]
              exact arcInv_ghostHitMfu inv fid pid _ hge hlt hl hpmem
          | mru =>
              have heq : arcStep s (.access fid pid) = arcCaseMissAll s fid pid := by
                simp only [arcStep, recordAccess, hval, Bool.false_eq_true, if_false,
                  hl, hg, hstat]
                rw [if_neg (fun h => ArcStatus.noConfusion h),
                  if_neg (fun h => ArcStatus.noConfusion h)]
              rw [heq]
              exact arcCaseMissAll_arcInv inv fid pid hge hlt hl
          | mfu =>
              have heq : arcStep s (.access fid pid) = arcCaseMissAll s fid pid := by
                simp only [arcStep, recordAccess, hval, Bool.false_eq_true, if_false,
                  hl, hg, hstat]
                rw [if_neg (fun h => ArcStatus.noConfusion h),
                  if_neg (fun h => ArcStatus.noConfusion h)]
              rw [heq]
              exact arcCaseMissAll_arcInv inv fid pid hge hlt hl

theorem arcStep_arcInv {n : Nat} {s : ArcState} (inv : ArcInv n s)
    (op : ArcOp) (hop : validArcOp n op = true) : ArcInv n (arcStep s op) := by
  cases op with
  | access fid pid =>
      have hb : 0 ≤ fid ∧ fid < (n : Int) := by
        simpa [validArcOp] using hop
      exact recordAccess_arcInv inv fid pid hb.1 hb.2
  | evict => exact arcEvict_arcInv inv
  | setEv fid b => exact setEvictable_arcInv inv fid b
  | remove fid => exact arcRemove_arcInv inv fid

theorem arcInit_arcInv (n : Nat) : ArcInv n (arcInit n) := by
  refine ⟨rfl, List.nodup_nil, List.nodup_nil, ?_, ?_, ?_, ?_, ?_, ?_, ?_, ?_⟩ <;>
    simp [arcInit, alookup]

theorem arcRun_arcInv (n : Nat) (ops : List ArcOp)
    (hops : ∀ op ∈ ops, validArcOp n op = true) : ArcInv n (arcRun n ops) := by
  have hgen : ∀ (s : ArcState), ArcInv n s → ArcInv n (ops.foldl arcStep s) := by
    induction ops with
    | nil => intro s inv; exact inv
    | cons op rest ih =>
        intro s inv
        have hop := hops op (List.mem_cons_self _ _)
        have hrest : ∀ op2 ∈ rest, validArcOp n op2 = true :=
          fun op2 h2 => hops op2 (List.mem_cons_of_mem _ h2)
        exact ih hrest (arcStep s op) (arcStep_arcInv inv op hop)
  exact hgen (arcInit n) (arcInit_arcInv n)

/-- C5: after every sequence of replacer operations on pool frame ids,
the ARC lists satisfy the two size bounds; and an access missing all four
lists drops the oldest mru_ghost_ page when mru_ plus mru_ghost_ has
reached the capacity, else drops the oldest mfu_ghost_ page when the four
lists have reached twice the capacity, before installing the frame at the
front of mru_. -/
theorem C5_arc_size_bounds (n : Nat) :
    (∀ ops : List ArcOp, (∀ op ∈ ops, validArcOp n op = true) →
       (arcRun n ops).mru.length + (arcRun n ops).mruGhost.length ≤ n ∧
       (arcRun n ops).mru.length + (arcRun n ops).mruGhost.length +
         (arcRun n ops).mfu.length + (arcRun n ops).mfuGhost.length ≤ 2 * n) ∧
    (∀ (s : ArcState) (fid pid op : Int),
       arcFidInvalid s fid = false →
       alookup s.aliveMap fid = none →
       alookup s.ghostMap pid = none →
       (s.mru.length + s.mruGhost.length = s.replacerSize →
          s.mruGhost.getLast? = some op →
          recordAccess s fid pid = .ok
            { s with mru := fid :: s.mru,
                     mruGhost := s.mruGhost.dropLast,
                     ghostMap := aerase s.ghostMap op,
                     aliveMap := aset s.aliveMap fid ⟨pid, fid, false, .mru⟩ }) ∧
       (s.mru.length + s.mruGhost.length ≠ s.replacerSize →
          2 * s.replacerSize ≤ s.mru.length + s.mruGhost.length +
            s.mfu.length + s.mfuGhost.length →
          s.mfuGhost.getLast? = some op →
          recordAccess s fid pid = .ok
            { s with mru := fid :: s.mru,
                     mfuGhost := s.mfuGhost.dropLast,
                     ghostMap := aerase s.ghostMap op,
                     aliveMap := aset s.aliveMap fid ⟨pid, fid, false, .mru⟩ }) ∧
       (s.mru.length + s.mruGhost.length ≠ s.replacerSize →
          s.mru.length + s.mruGhost.length + s.mfu.length + s.mfuGhost.length <
            2 * s.replacerSize →
          recordAccess s fid pid = .ok
            { s with mru := fid :: s.mru,
                     aliveMap := aset s.aliveMap fid ⟨pid, fid, false, .mru⟩ })) := by
  constructor
  · intro ops hops
    have inv := arcRun_arcInv n ops hops
    exact ⟨inv.bound1, inv.bound2⟩
  · intro s fid pid op hval hal hg
    have heq0 : recordAccess s fid pid = .ok (arcCaseMissAll s fid pid) := by
      simp [recordAccess, hval, hal, hg]
    refine ⟨?_, ?_, ?_⟩
    · intro hA hop
      rw [heq0]
      simp [arcCaseMissAll, hA, hop]
    · intro hA hB hop
      rw [heq0]
      simp [arcCaseMissAll, hA, hB, hop]
    · intro hA hB
      rw [heq0]
      simp [arcCaseMissAll, hA, Nat.not_le.mpr hB]

set_option maxRecDepth 8000 in
/-- Witness for C5: the bounds hold after the concrete history c1ops, and
a fresh access on the empty capacity-7 replacer installs frame 0 in front
of mru_ without any ghost dropping. -/
theorem C5_arc_size_bounds_witness :
    ((arcRun 7 c1ops).mru.length + (arcRun 7 c1ops).mruGhost.length ≤ 7 ∧
     (arcRun 7 c1ops).mru.length + (arcRun 7 c1ops).mruGhost.length +
       (arcRun 7 c1ops).mfu.length + (arcRun 7 c1ops).mfuGhost.length ≤ 14) ∧
    recordAccess (arcInit 7) 0 100 = .ok
      { arcInit 7 with mru := 0 :: (arcInit 7).mru,
                       aliveMap := aset (arcInit 7).aliveMap 0 ⟨100, 0, false, .mru⟩ } := by
  constructor
  · exact (C5_arc_size_bounds 7).1 c1ops (by decide)
  · exact ((C5_arc_size_bounds 7).2 (arcInit 7) 0 100 0 (by decide) (by decide)
      (by decide)).2.2 (by decide) (by decide)

theorem sorted_getD_lt (keys : List Int) (hs : keys.Pairwise (· < ·))
    (i j : Nat) (hij : i < j) (hj : j < keys.length) :
    keys.getD i 0 < keys.getD j 0 := by
  rw [List.getD_eq_getElem keys 0 (by omega), List.getD_eq_getElem keys 0 hj]
  exact (List.pairwise_iff_getElem.mp hs) i j (by omega) hj hij

theorem ffgeGo_spec (keys : List Int) (k : Int) (hs : keys.Pairwise (· < ·)) :
    ∀ (m : Nat) (left right res : Int), (right + 1 - left).toNat = m →
      0 ≤ left → left ≤ right + 1 → res = right + 1 → res ≤ (keys.length : Int) →
      (∀ j : Nat, (j : Int) < left → keys.getD j 0 < k) →
      (res = (keys.length : Int) ∨ k ≤ keys.getD res.toNat 0) →
      0 ≤ ffgeGo keys k left right res ∧
      ffgeGo keys k left right res ≤ (keys.length : Int) ∧
      (∀ j : Nat, (j : Int) < ffgeGo keys k left right res → keys.getD j 0 < k) ∧
      (ffgeGo keys k left right res = (keys.length : Int) ∨
        k ≤ keys.getD (ffgeGo keys k left right res).toNat 0) := by
  intro m
  induction m using Nat.strong_induction_on with
  | _ m IH =>
    intro left right res hm hl hlr1 hres hresle hlow hcand
    rw [ffgeGo]
    by_cases hlr : left ≤ right
    · rw [if_pos hlr]
      by_cases hcmp : k ≤ keys.getD (left + (right - left) / 2).toNat 0
      · rw [if_pos hcmp]
        exact IH ((left + (right - left) / 2 - 1) + 1 - left).toNat (by omega)
          left (left + (right - left) / 2 - 1) (left + (right - left) / 2)
          rfl hl (by omega) (by omega) (by omega) hlow (Or.inr hcmp)
      · rw [if_neg hcmp]
        refine IH ((right + 1) - (left + (right - left) / 2 + 1)).toNat (by omega)
          (left + (right - left) / 2 + 1) right res rfl (by omega) (by omega) hres hresle ?_ hcand
        intro j hj
        by_cases hjl : (j : Int) < left
        · exact hlow j hjl
        · push_neg at hcmp
          rcases lt_or_eq_of_le (show (j : Int) ≤ left + (right - left) / 2 by omega)
            with hlt | heq
          · calc keys.getD j 0 < keys.getD (left + (right - left) / 2).toNat 0 := by
                  refine sorted_getD_lt keys hs j (left + (right - left) / 2).toNat
                    (by omega) (by omega)
              _ < k := hcmp
          · rw [show j = (left + (right - left) / 2).toNat by omega]
            exact hcmp
    · rw [if_neg hlr]
      refine ⟨by omega, by omega, ?_, hcand⟩
      intro j hj
      exact hlow j (by omega)

theorem findFirstGE_spec (kvs : List (Int × Int)) (k : Int)
    (hs : (kvs.map Prod.fst).Pairwise (· < ·)) :
    0 ≤ findFirstGE kvs k ∧ findFirstGE kvs k ≤ (kvs.length : Int) ∧
    (∀ j : Nat, (j : Int) < findFirstGE kvs k → (kvs.map Prod.fst).getD j 0 < k) ∧
    (findFirstGE kvs k = (kvs.length : Int) ∨
      k ≤ (kvs.map Prod.fst).getD (findFirstGE kvs k).toNat 0) := by
  have h := ffgeGo_spec (kvs.map Prod.fst) k hs
    (((kvs.length : Int) - 1) + 1 - 0).toNat 0 ((kvs.length : Int) - 1)
    (kvs.length : Int) (by omega) (by omega) (by omega) (by omega)
    (by simp) (by intro j hj; omega) (Or.inl (by simp))
  simpa [findFirstGE, List.length_map] using h

theorem insertIdx_eq_take_cons_drop {α : Type} (l : List α) (a : α) (n : Nat)
    (h : n ≤ l.length) :
    l.insertIdx n a = l.take n ++ a :: l.drop n := by
  induction l generalizing n with
  | nil =>
      simp only [List.length_nil, Nat.le_zero] at h
      subst h
      rfl
  | cons hd tl IH =>
      cases n with
      | zero => rfl
      | succ n =>
          simp only [List.insertIdx_succ_cons, List.take_succ_cons, List.drop_succ_cons,
            List.cons_append, List.cons.injEq, true_and]
          exact IH n (by simpa using h)

theorem perm_insertIdx_cons {α : Type} (l : List α) (a : α) (n : Nat)
    (h : n ≤ l.length) :
    (l.insertIdx n a).Perm (a :: l) := by
  rw [insertIdx_eq_take_cons_drop l a n h]
  exact List.perm_middle.trans (by rw [List.take_append_drop])

theorem getElem_insertIdx_succ {α : Type} (l : List α) (x : α) (n k : Nat)
    (hn : n ≤ k) (hk : k < l.length)
    (hk2 : k + 1 < (l.insertIdx n x).length) :
    (l.insertIdx n x)[k + 1] = l[k] := by
  induction l generalizing n k with
  | nil => simp at hk
  | cons hd tl IH =>
      cases n with
      | zero => simp [List.insertIdx_zero]
      | succ n =>
          cases k with
          | zero => omega
          | succ k =>
              simp only [List.insertIdx_succ_cons, List.getElem_cons_succ]
              exact IH n k (by omega) (by simpa using hk) (by simpa using hk2)

theorem pairwise_insertIdx_lt (l : List Int) (a : Int) (n : Nat) (h : n ≤ l.length)
    (hs : l.Pairwise (· < ·))
    (hlo : ∀ j : Nat, j < n → l.getD j 0 < a)
    (hhi : ∀ j : Nat, n ≤ j → j < l.length → a < l.getD j 0) :
    (l.insertIdx n a).Pairwise (· < ·) := by
  rw [List.pairwise_iff_getElem] at hs ⊢
  intro i j hi hj hij
  rw [List.length_insertIdx n l h] at hi hj
  by_cases hjn : j < n
  · rw [List.getElem_insertIdx_of_lt l a n i (by omega) (by omega),
      List.getElem_insertIdx_of_lt l a n j (by omega) (by omega)]
    exact hs i j (by omega) (by omega) hij
  · by_cases hjeq : j = n
    · subst hjeq
      rw [List.getElem_insertIdx_of_lt l a j i (by omega) (by omega),
        List.getElem_insertIdx_self l a j (by omega)]
      have := hlo i (by omega)
      rwa [List.getD_eq_getElem l 0 (by omega)] at this
    · obtain ⟨j1, rfl⟩ : ∃ j1, j = j1 + 1 := ⟨j - 1, by omega⟩
      rw [getElem_insertIdx_succ l a n j1 (by omega) (by omega)]
      by_cases hin : i < n
      · rw [List.getElem_insertIdx_of_lt l a n i (by omega) (by omega)]
        exact hs i j1 (by omega) (by omega) (by omega)
      · by_cases hieq : i = n
        · subst hieq
          rw [List.getElem_insertIdx_self l a i (by omega)]
          have := hhi j1 (by omega) (by omega)
          rwa [List.getD_eq_getElem l 0 (by omega)] at this
        · obtain ⟨i1, rfl⟩ : ∃ i1, i = i1 + 1 := ⟨i - 1, by omega⟩
          rw [getElem_insertIdx_succ l a n i1 (by omega) (by omega)]
          exact hs i1 j1 (by omega) (by omega) (by omega)

theorem map_fst_insertIdx (l : List (Int × Int)) (p : Int × Int) (n : Nat)
    (h : n ≤ l.length) :
    (l.insertIdx n p).map Prod.fst = (l.map Prod.fst).insertIdx n p.1 := by
  rw [insertIdx_eq_take_cons_drop l p n h,
    insertIdx_eq_take_cons_drop (l.map Prod.fst) p.1 n (by simpa using h),
    List.map_append, List.map_cons, List.map_take, List.map_drop]

theorem headD_drop (l : List (Int × Int)) (n : Nat) (d : Int × Int) :
    (l.drop n).headD d = l.getD n d := by
  rw [List.headD_eq_head?_getD, List.head?_drop, List.getD_eq_getElem?_getD]

/-- C7: inserting key k with value v into a full sorted leaf of n entries
(k absent) builds the sorted merge allData of the n entries plus the new
pair (a permutation of them, n + 1 entries), splits at index
(n + 2) / 2 = ceil((n + 1) / 2), refills the old page with the entries
below the split and a fresh page with the rest, links next_page_id_ (old
page points at the new page, the new page keeps the old page's former
next), and reports the first key of the right page as the separator
propagated to the parent. -/
theorem C7_full_leaf_split (pg : LeafPg) (k v newPid : Int)
    (hs : (pg.kvs.map Prod.fst).Pairwise (· < ·))
    (hfull : pg.kvs.length = pg.maxSize)
    (hnew : k ∉ pg.kvs.map Prod.fst)
    (hn : 1 ≤ pg.kvs.length) :
    ∃ allData : List (Int × Int),
      allData.Perm ((k, v) :: pg.kvs) ∧
      (allData.map Prod.fst).Pairwise (· < ·) ∧
      allData.length = pg.kvs.length + 1 ∧
      insertIntoLeafPg pg k v newPid =
        .split ⟨allData.take ((pg.kvs.length + 2) / 2), newPid, pg.maxSize⟩
               ⟨allData.drop ((pg.kvs.length + 2) / 2), pg.nextPageId, pg.maxSize⟩
               (((allData.drop ((pg.kvs.length + 2) / 2)).headD (0, 0)).1) newPid := by
  obtain ⟨hge0, hgele, hlow, hcand⟩ := findFirstGE_spec pg.kvs k hs
  set f := findFirstGE pg.kvs k with hf
  have hpos_le : f.toNat ≤ pg.kvs.length := by omega
  have hkeylen : (pg.kvs.map Prod.fst).length = pg.kvs.length := by simp
  have hnotdup : ¬(f.toNat < pg.kvs.length ∧ (pg.kvs.getD f.toNat (0, 0)).1 = k) := by
    rintro ⟨hlt, heqk⟩
    apply hnew
    have : (pg.kvs.getD f.toNat (0, 0)).1 = (pg.kvs.map Prod.fst).getD f.toNat 0 := by
      rw [List.getD_eq_getElem _ (0, 0) hlt, List.getD_eq_getElem _ 0 (by omega)]
      simp
    rw [this] at heqk
    rw [← heqk, List.getD_eq_getElem _ 0 (by omega)]
    exact List.getElem_mem _
  have hkeylt : ∀ j : Nat, j < pg.kvs.length → f.toNat ≤ j →
      k < (pg.kvs.map Prod.fst).getD j 0 := by
    intro j hj hfj
    have hflt : f.toNat < pg.kvs.length := by omega
    have hle : k ≤ (pg.kvs.map Prod.fst).getD f.toNat 0 := by
      rcases hcand with h1 | hle
      · omega
      · exact hle
    have hne : k ≠ (pg.kvs.map Prod.fst).getD f.toNat 0 := by
      intro heq
      apply hnew
      rw [heq, List.getD_eq_getElem _ 0 (by omega)]
      exact List.getElem_mem _
    rcases Nat.eq_or_lt_of_le hfj with rfl | hjlt
    · omega
    · have := sorted_getD_lt (pg.kvs.map Prod.fst) hs f.toNat j hjlt (by omega)
      omega
  refine ⟨pg.kvs.insertIdx f.toNat (k, v), perm_insertIdx_cons _ _ _ hpos_le, ?_, ?_, ?_⟩
  · rw [map_fst_insertIdx _ _ _ hpos_le]
    refine pairwise_insertIdx_lt _ _ _ (by omega) hs ?_ ?_
    · intro j hj
      exact hlow j (by omega)
    · intro j hj1 hj2
      exact hkeylt j (by omega) hj1
  · exact List.length_insertIdx _ _ hpos_le
  · have hlen : (pg.kvs.insertIdx f.toNat (k, v)).length = pg.kvs.length + 1 :=
      List.length_insertIdx _ _ hpos_le
    simp only [insertIntoLeafPg, ← hf]
    rw [if_neg hnotdup, if_neg (by omega)]
    rw [hlen]
    rw [headD_drop]

theorem C7_full_leaf_split_witness :
    ∃ allData : List (Int × Int),
      allData.Perm ((5, 55) :: c7pg.kvs) ∧
      (allData.map Prod.fst).Pairwise (· < ·) ∧
      allData.length = c7pg.kvs.length + 1 ∧
      insertIntoLeafPg c7pg 5 55 9 =
        .split ⟨allData.take ((c7pg.kvs.length + 2) / 2), 9, c7pg.maxSize⟩
               ⟨allData.drop ((c7pg.kvs.length + 2) / 2), c7pg.nextPageId, c7pg.maxSize⟩
               (((allData.drop ((c7pg.kvs.length + 2) / 2)).headD (0, 0)).1) 9 :=
  C7_full_leaf_split c7pg 5 55 9 (by decide) rfl (by decide) (by decide)

theorem mem_entriesL (cs : List (Int × BTree)) (p : Int × BTree) (hp : p ∈ cs)
    (q : Int × Int) (hq : q ∈ entriesB p.2) : q ∈ entriesL cs := by
  induction cs with
  | nil => cases hp
  | cons hd tl IH =>
      obtain ⟨a, c⟩ := hd
      simp only [entriesL, List.mem_append]
      rcases List.mem_cons.mp hp with heq | hp2
      · left
        rw [heq] at hq
        exact hq
      · right
        exact IH hp2

theorem fpGo_spec (keys : List Int) (k : Int)
    (hs : ∀ i j : Nat, 1 ≤ i → i < j → j < keys.length →
      keys.getD i 0 < keys.getD j 0) :
    ∀ (m : Nat) (left right : Int), (right + 1 - left).toNat = m →
      1 ≤ left → left ≤ right + 1 → right ≤ (keys.length : Int) - 1 →
      (∀ j : Nat, 1 ≤ (j : Int) → (j : Int) < left → keys.getD j 0 < k) →
      (∀ j : Nat, right < (j : Int) → (j : Int) ≤ (keys.length : Int) - 1 →
        k < keys.getD j 0) →
      1 ≤ fpGo keys k left right ∧ fpGo keys k left right ≤ (keys.length : Int) ∧
      (∀ j : Nat, 1 ≤ (j : Int) → (j : Int) < fpGo keys k left right →
        keys.getD j 0 < k) ∧
      (∀ j : Nat, fpGo keys k left right < (j : Int) →
        (j : Int) ≤ (keys.length : Int) - 1 → k < keys.getD j 0) ∧
      (fpGo keys k left right ≤ (keys.length : Int) - 1 →
        keys.getD (fpGo keys k left right).toNat 0 = k ∨
        k < keys.getD (fpGo keys k left right).toNat 0) := by
  intro m
  induction m using Nat.strong_induction_on with
  | _ m IH =>
    intro left right hm hl hlr1 hrle hlow hhigh
    rw [fpGo]
    by_cases hlr : left ≤ right
    · rw [if_pos hlr]
      by_cases heq : keys.getD (left + (right - left) / 2).toNat 0 = k
      · rw [if_pos heq]
        refine ⟨by omega, by omega, ?_, ?_, ?_⟩
        · intro j hj1 hj2
          by_cases hjl : (j : Int) < left
          · exact hlow j hj1 hjl
          · have := hs j (left + (right - left) / 2).toNat (by omega) (by omega)
              (by omega)
            omega
        · intro j hj1 hj2
          have := hs (left + (right - left) / 2).toNat j (by omega) (by omega)
            (by omega)
          omega
        · intro h1
          exact Or.inl heq
      · rw [if_neg heq]
        by_cases hltk : keys.getD (left + (right - left) / 2).toNat 0 < k
        · rw [if_pos hltk]
          refine IH ((right + 1) - (left + (right - left) / 2 + 1)).toNat (by omega)
            (left + (right - left) / 2 + 1) right rfl (by omega) (by omega) hrle
            ?_ hhigh
          intro j hj1 hj2
          by_cases hjl : (j : Int) < left
          · exact hlow j hj1 hjl
          · rcases lt_or_eq_of_le (show (j : Int) ≤ left + (right - left) / 2 by omega)
              with hlt | hj3
            · have := hs j (left + (right - left) / 2).toNat (by omega) (by omega)
                (by omega)
              omega
            · rw [show j = (left + (right - left) / 2).toNat by omega]
              exact hltk
        · rw [if_neg hltk]
          refine IH ((left + (right - left) / 2 - 1) + 1 - left).toNat (by omega)
            left (left + (right - left) / 2 - 1) rfl hl (by omega) (by omega)
            hlow ?_
          intro j hj1 hj2
          rcases lt_or_eq_of_le (show left + (right - left) / 2 ≤ (j : Int) by omega)
            with hlt | hj3
          · have := hs (left + (right - left) / 2).toNat j (by omega) (by omega)
              (by omega)
            omega
          · rw [show j = (left + (right - left) / 2).toNat by omega]
            omega
    · rw [if_neg hlr]
      refine ⟨by omega, by omega, ?_, ?_, ?_⟩
      · intro j hj1 hj2
        exact hlow j hj1 hj2
      · intro j hj1 hj2
        exact hhigh j (by omega) hj2
      · intro h1
        exact Or.inr (hhigh left.toNat (by omega) (by omega))

theorem findPageIdx_eq {α : Type} (cs : List (Int × α)) (k : Int) (j : Nat)
    (hs : ∀ i i2 : Nat, 1 ≤ i → i < i2 → i2 < cs.length →
      (cs.map Prod.fst).getD i 0 < (cs.map Prod.fst).getD i2 0)
    (hj : j < cs.length)
    (hlo : 1 ≤ j → (cs.map Prod.fst).getD j 0 ≤ k)
    (hhi : j + 1 < cs.length → k < (cs.map Prod.fst).getD (j + 1) 0) :
    findPageIdx cs k = j := by
  have hklen : (cs.map Prod.fst).length = cs.length := List.length_map _ _
  obtain ⟨ht1, ht2, hlt, hgt, hat⟩ :=
    fpGo_spec (cs.map Prod.fst) k (by rw [hklen]; exact hs)
    ((((cs.length : Int) - 1) + 1 - 1).toNat) 1 ((cs.length : Int) - 1) rfl
    (by omega) (by omega) (by omega)
    (by intro j2 h1 h2; omega)
    (by intro j2 h1 h2; omega)
  rw [hklen] at ht2 hgt hat
  simp only [findPageIdx]
  by_cases hc1 : (cs.length : Int) ≤ fpGo (cs.map Prod.fst) k 1 ((cs.length : Int) - 1)
  · rw [if_pos hc1]
    by_contra hne
    have hj1 : j + 1 < cs.length := by omega
    have h2 := hhi hj1
    have h3 := hlt (j + 1) (by omega) (by omega)
    omega
  · rw [if_neg hc1]
    by_cases hc2 : (cs.map Prod.fst).getD
        (fpGo (cs.map Prod.fst) k 1 ((cs.length : Int) - 1)).toNat 0 = k
    · rw [if_pos hc2]
      by_contra hne
      rcases Nat.lt_or_ge j (fpGo (cs.map Prod.fst) k 1 ((cs.length : Int) - 1)).toNat
        with hcase | hcase
      · have h2 := hhi (by omega)
        by_cases h3 : j + 1 = (fpGo (cs.map Prod.fst) k 1 ((cs.length : Int) - 1)).toNat
        · rw [h3] at h2
          omega
        · have h4 := hs (j + 1)
            (fpGo (cs.map Prod.fst) k 1 ((cs.length : Int) - 1)).toNat
            (by omega) (by omega) (by omega)
          omega
      · have h2 := hlo (by omega)
        by_cases h3 : j = (fpGo (cs.map Prod.fst) k 1 ((cs.length : Int) - 1)).toNat
        · omega
        · have h4 := hgt j (by omega) (by omega)
          omega
    · rw [if_neg hc2]
      have h5 := hat (by omega)
      have h6 : k < (cs.map Prod.fst).getD
          (fpGo (cs.map Prod.fst) k 1 ((cs.length : Int) - 1)).toNat 0 := by
        rcases h5 with h5 | h5
        · exact absurd h5 hc2
        · exact h5
      by_contra hne
      rcases Nat.lt_or_ge j ((fpGo (cs.map Prod.fst) k 1 ((cs.length : Int) - 1)) - 1).toNat
        with hcase | hcase
      · have h2 := hhi (by omega)
        have h3 := hlt (j + 1) (by omega) (by omega)
        omega
      · have h2 := hlo (by omega)
        by_cases h3 : (j : Int) = fpGo (cs.map Prod.fst) k 1 ((cs.length : Int) - 1)
        · rw [show j = (fpGo (cs.map Prod.fst) k 1 ((cs.length : Int) - 1)).toNat
            by omega] at h2
          omega
        · have h4 := hgt j (by omega) (by omega)
          omega

theorem hiOk_of_le (hi : Option Int) (a b : Int) (hab : a ≤ b) (hb : hiOk hi b) :
    hiOk hi a := by
  cases hi with
  | none => trivial
  | some c =>
      simp only [hiOk] at hb ⊢
      omega

theorem loOk_of_le (lo : Option Int) (a b : Int) (hab : a ≤ b) (ha : loOk lo a) :
    loOk lo b := by
  cases lo with
  | none => trivial
  | some c =>
      simp only [loOk] at ha ⊢
      omega

theorem wfchain_keys (L M : Nat) (lo hi : Option Int) (rest : List (Int × BTree))
    (h : WFchain L M lo hi rest) :
    rest.Pairwise (fun a b => a.1 < b.1) ∧ ∀ p ∈ rest, loOk lo p.1 ∧ hiOk hi p.1 := by
  induction rest with
  | nil => exact ⟨List.Pairwise.nil, by intro p hp; cases hp⟩
  | cons hd tl IH =>
      obtain ⟨k1, c1⟩ := hd
      cases h with
      | cons _ _ _ _ _ hsep hlook hhiok hwf1 htl =>
          obtain ⟨pw, hall⟩ := IH htl
          refine ⟨List.Pairwise.cons ?_ pw, ?_⟩
          · intro b hb
            cases tl with
            | nil => cases hb
            | cons hd2 tl2 =>
                obtain ⟨k2, c2⟩ := hd2
                simp only [sepLt] at hsep
                rcases List.mem_cons.mp hb with heq | hb2
                · rw [heq]
                  exact hsep
                · have := List.rel_of_pairwise_cons pw hb2
                  omega
          · intro p hp
            rcases List.mem_cons.mp hp with heq | hp2
            · rw [heq]
              exact ⟨hlook, hhiok⟩
            · exact hall p hp2

theorem node_keys_sorted (d : Int) (c0 : BTree) (rest : List (Int × BTree))
    (pw : rest.Pairwise (fun a b => a.1 < b.1)) :
    ∀ i i2 : Nat, 1 ≤ i → i < i2 → i2 < ((d, c0) :: rest).length →
      (((d, c0) :: rest).map Prod.fst).getD i 0 <
        (((d, c0) :: rest).map Prod.fst).getD i2 0 := by
  intro i i2 h1 h2 h3
  simp only [List.length_cons] at h3
  obtain ⟨i1, rfl⟩ : ∃ i1, i = i1 + 1 := ⟨i - 1, by omega⟩
  obtain ⟨i21, rfl⟩ : ∃ i21, i2 = i21 + 1 := ⟨i2 - 1, by omega⟩
  rw [List.getD_eq_getElem _ 0 (by simp only [List.length_map, List.length_cons]; omega),
    List.getD_eq_getElem _ 0 (by simp only [List.length_map, List.length_cons]; omega)]
  simp only [List.getElem_map, List.getElem_cons_succ]
  exact (List.pairwise_iff_getElem.mp pw) i1 i21 (by omega) (by omega) (by omega)

theorem node_keys_getD (d : Int) (c0 : BTree) (rest : List (Int × BTree))
    (jj : Nat) (h : jj < rest.length) :
    (((d, c0) :: rest).map Prod.fst).getD (jj + 1) 0 = (rest.getD jj (0, .leaf [])).1 := by
  rw [List.getD_eq_getElem _ 0 (by simp only [List.length_map, List.length_cons]; omega),
    List.getD_eq_getElem _ (0, BTree.leaf []) h]
  simp only [List.getElem_map, List.getElem_cons_succ]

theorem entriesL_range_aux (L M : Nat) (lo hi : Option Int) :
    ∀ (rest : List (Int × BTree)),
      (∀ p ∈ rest, ∀ (lo2 hi2 : Option Int) (r2 : Bool), WF L M lo2 hi2 r2 p.2 →
        ∀ q ∈ entriesB p.2, loOk lo2 q.1 ∧ hiOk hi2 q.1) →
      WFchain L M lo hi rest →
      ∀ q ∈ entriesL rest, loOk lo q.1 ∧ hiOk hi q.1 := by
  intro rest
  induction rest with
  | nil =>
      intro _ _ q hq
      cases hq
  | cons hd tl IHc =>
      intro hIH hch q hq
      obtain ⟨k1, c1⟩ := hd
      cases hch with
      | cons _ _ _ _ _ hsep hlook hhiok hwf1 htl =>
          have hq2 : q ∈ entriesB c1 ++ entriesL tl := by
            simpa [entriesL] using hq
          rcases List.mem_append.mp hq2 with hqa | hqb
          · have h0 := hIH (k1, c1) (by simp) (some k1) (sepB tl hi) false hwf1 q hqa
            have hk1q : k1 ≤ q.1 := h0.1
            refine ⟨loOk_of_le lo k1 q.1 hk1q hlook, ?_⟩
            cases tl with
            | nil => exact h0.2
            | cons hd2 tl2 =>
                obtain ⟨k2, c2⟩ := hd2
                obtain ⟨pw2, hall2⟩ := wfchain_keys L M lo hi _ htl
                have hk2 : hiOk hi k2 := (hall2 (k2, c2) (by simp)).2
                have hlt : q.1 < k2 := h0.2
                exact hiOk_of_le hi q.1 k2 (le_of_lt hlt) hk2
          · exact IHc (fun p hp => hIH p (List.mem_cons_of_mem _ hp)) htl q hqb

theorem entriesB_range (L M : Nat) :
    ∀ (t : BTree) (lo hi : Option Int) (r : Bool),
      WF L M lo hi r t → ∀ q ∈ entriesB t, loOk lo q.1 ∧ hiOk hi q.1 := by
  intro t
  induction t using BTree.inductionOn with
  | hleaf kvs =>
      intro lo hi r hwf q hq
      cases hwf with
      | leaf _ _ _ _ hlen hmin hpw hrange => exact hrange q hq
  | hnode cs IH =>
      intro lo hi r hwf q hq
      cases hwf with
      | node _ _ _ d c0 rest hlen hmin hrest1 hwc0 hwch =>
          have hq2 : q ∈ entriesB c0 ++ entriesL rest := by
            simpa [entriesB, entriesL] using hq
          rcases List.mem_append.mp hq2 with hqa | hqb
          · have h0 := IH (d, c0) (by simp) lo (sepB rest hi) false hwc0 q hqa
            refine ⟨h0.1, ?_⟩
            cases rest with
            | nil => exact h0.2
            | cons hd2 tl2 =>
                obtain ⟨k2, c2⟩ := hd2
                obtain ⟨pw2, hall2⟩ := wfchain_keys L M lo hi _ hwch
                have hk2 : hiOk hi k2 := (hall2 (k2, c2) (by simp)).2
                have hlt : q.1 < k2 := h0.2
                exact hiOk_of_le hi q.1 k2 (le_of_lt hlt) hk2
          · exact entriesL_range_aux L M lo hi rest
              (fun p hp => IH p (List.mem_cons_of_mem _ hp)) hwch q hqb

theorem chain_locate (L M : Nat) (lo hi : Option Int) :
    ∀ (rest : List (Int × BTree)),
      WFchain L M lo hi rest →
      ∀ (k v : Int), (k, v) ∈ entriesL rest →
      ∃ jj : Nat, jj < rest.length ∧
        (k, v) ∈ entriesB (rest.getD jj (0, .leaf [])).2 ∧
        (∃ lo2 hi2, WF L M lo2 hi2 false (rest.getD jj (0, .leaf [])).2) ∧
        (rest.getD jj (0, .leaf [])).1 ≤ k ∧
        (jj + 1 < rest.length → k < (rest.getD (jj + 1) (0, .leaf [])).1) := by
  intro rest
  induction rest with
  | nil =>
      intro _ k v hq
      cases hq
  | cons hd tl IHc =>
      intro hch k v hq
      obtain ⟨k1, c1⟩ := hd
      cases hch with
      | cons _ _ _ _ _ hsep hlook hhiok hwf1 htl =>
          have hq2 : (k, v) ∈ entriesB c1 ++ entriesL tl := by
            simpa [entriesL] using hq
          rcases List.mem_append.mp hq2 with hqa | hqb
          · have hrange := entriesB_range L M c1 (some k1) (sepB tl hi) false hwf1
              (k, v) hqa
            refine ⟨0, by simp, by simpa using hqa,
              ⟨some k1, sepB tl hi, hwf1⟩, ?_, ?_⟩
            · have h1 : loOk (some k1) k := hrange.1
              simpa [loOk] using h1
            · intro h2
              cases tl with
              | nil => simp at h2
              | cons hd2 tl2 =>
                  obtain ⟨k2, c2⟩ := hd2
                  have h1 : hiOk (sepB ((k2, c2) :: tl2) hi) k := hrange.2
                  simpa [sepB, hiOk] using h1
          · obtain ⟨jj, hjj, hmem, hwf2, hle, hnext⟩ := IHc htl k v hqb
            refine ⟨jj + 1, by simpa using Nat.succ_lt_succ hjj,
              by simpa using hmem, by simpa using hwf2, by simpa using hle, ?_⟩
            intro h2
            have h3 := hnext (by simpa using Nat.lt_of_succ_lt_succ h2)
            simpa using h3

theorem findFirstGE_mem (kvs : List (Int × Int)) (k v : Int)
    (hs : (kvs.map Prod.fst).Pairwise (· < ·))
    (hmem : (k, v) ∈ kvs) :
    (findFirstGE kvs k).toNat < kvs.length ∧
    kvs.getD (findFirstGE kvs k).toNat (0, 0) = (k, v) := by
  obtain ⟨hge0, hgele, hlow, hcand⟩ := findFirstGE_spec kvs k hs
  obtain ⟨i, hi, hival⟩ := List.getElem_of_mem hmem
  have hmaplen : (kvs.map Prod.fst).length = kvs.length := List.length_map _ _
  have hki : (kvs.map Prod.fst).getD i 0 = k := by
    rw [List.getD_eq_getElem _ 0 (by omega)]
    simp only [List.getElem_map, hival]
  have hpos_le_i : (findFirstGE kvs k).toNat ≤ i := by
    by_contra hlt
    push_neg at hlt
    have h2 := hlow i (by omega)
    omega
  have hposlt : (findFirstGE kvs k).toNat < kvs.length := by omega
  have hke : k ≤ (kvs.map Prod.fst).getD (findFirstGE kvs k).toNat 0 := by
    rcases hcand with h1 | h1
    · omega
    · exact h1
  have heqi : (findFirstGE kvs k).toNat = i := by
    by_contra hne
    have hlt2 : (findFirstGE kvs k).toNat < i := by omega
    have h3 : (kvs.map Prod.fst).getD (findFirstGE kvs k).toNat 0 <
        (kvs.map Prod.fst).getD i 0 := by
      rw [List.getD_eq_getElem _ 0 (by omega), List.getD_eq_getElem _ 0 (by omega)]
      exact (List.pairwise_iff_getElem.mp hs) _ _ (by omega) (by omega) hlt2
    omega
  refine ⟨hposlt, ?_⟩
  rw [heqi, List.getD_eq_getElem _ (0, 0) hi, hival]

theorem node_route (L M : Nat) (lo hi : Option Int) (r : Bool)
    (cs : List (Int × BTree)) (hwf : WF L M lo hi r (.node cs)) (k v : Int)
    (hmem : (k, v) ∈ entriesB (.node cs)) :
    ∃ i : Nat, i < cs.length ∧ findPageIdx cs k = i ∧
      (k, v) ∈ entriesB (cs.getD i (0, .leaf [])).2 ∧
      ∃ lo2 hi2 r2, WF L M lo2 hi2 r2 (cs.getD i (0, .leaf [])).2 := by
  cases hwf with
  | node _ _ _ d c0 rest hlen hmin hrest1 hwc0 hwch =>
      obtain ⟨pw, hall⟩ := wfchain_keys L M lo hi rest hwch
      have hsorted := node_keys_sorted d c0 rest pw
      have hq2 : (k, v) ∈ entriesB c0 ++ entriesL rest := by
        simpa [entriesB, entriesL] using hmem
      rcases List.mem_append.mp hq2 with hqa | hqb
      · have hr := entriesB_range L M c0 lo (sepB rest hi) false hwc0 (k, v) hqa
        refine ⟨0, by simp, ?_, by simpa using hqa,
          lo, sepB rest hi, false, by simpa using hwc0⟩
        refine findPageIdx_eq _ k 0 hsorted (by simp) (by omega) ?_
        intro h2
        cases rest with
        | nil => simp at hrest1
        | cons hd2 tl2 =>
            obtain ⟨k2, c2⟩ := hd2
            have h1 : hiOk (sepB ((k2, c2) :: tl2) hi) k := hr.2
            have h3 : k < k2 := by simpa [sepB, hiOk] using h1
            rw [node_keys_getD d c0 _ 0 (by simp)]
            simpa using h3
      · obtain ⟨jj, hjj, hmem2, ⟨lo2, hi2, hwf2⟩, hle, hnext⟩ :=
          chain_locate L M lo hi rest hwch k v hqb
        refine ⟨jj + 1, by simpa using Nat.succ_lt_succ hjj, ?_,
          by simpa using hmem2, lo2, hi2, false, by simpa using hwf2⟩
        refine findPageIdx_eq _ k (jj + 1) hsorted
          (by simp only [List.length_cons]; omega) ?_ ?_
        · intro h1
          rw [node_keys_getD d c0 rest jj hjj]
          exact hle
        · intro h2
          simp only [List.length_cons] at h2
          rw [node_keys_getD d c0 rest (jj + 1) (by omega)]
          exact hnext (by omega)

theorem lookupB_complete (L M : Nat) :
    ∀ (t : BTree) (lo hi : Option Int) (r : Bool), WF L M lo hi r t →
      ∀ k v : Int, (k, v) ∈ entriesB t → lookupB t k = some v := by
  intro t
  induction t using BTree.inductionOn with
  | hleaf kvs =>
      intro lo hi r hwf k v hmem
      cases hwf with
      | leaf _ _ _ _ hlen hmin hpw hrange =>
          have hpw2 : (kvs.map Prod.fst).Pairwise (· < ·) := by
            rw [List.pairwise_map]
            exact hpw
          obtain ⟨h1, h2⟩ := findFirstGE_mem kvs k v hpw2 hmem
          simp only [lookupB]
          rw [if_pos ⟨h1, by rw [h2]⟩, h2]
  | hnode cs IH =>
      intro lo hi r hwf k v hmem
      obtain ⟨i, hilen, hroute, hmem2, lo2, hi2, r2, hwf2⟩ :=
        node_route L M lo hi r cs hwf k v hmem
      have hgetD : cs.getD i (0, .leaf []) = cs[i] := List.getD_eq_getElem cs _ hilen
      rw [hgetD] at hmem2 hwf2
      simp only [lookupB]
      rw [hroute, dif_pos hilen]
      exact IH cs[i] (List.getElem_mem hilen) lo2 hi2 r2 hwf2 k v hmem2

theorem lookupB_sound :
    ∀ (t : BTree) (k v : Int), lookupB t k = some v → (k, v) ∈ entriesB t := by
  intro t
  induction t using BTree.inductionOn with
  | hleaf kvs =>
      intro k v hlk
      simp only [lookupB] at hlk
      by_cases hc : (findFirstGE kvs k).toNat < kvs.length ∧
          (kvs.getD (findFirstGE kvs k).toNat (0, 0)).1 = k
      · rw [if_pos hc] at hlk
        have hv : (kvs.getD (findFirstGE kvs k).toNat (0, 0)).2 = v :=
          Option.some.inj hlk
        have hmem : kvs.getD (findFirstGE kvs k).toNat (0, 0) ∈ kvs := by
          rw [List.getD_eq_getElem kvs _ hc.1]
          exact List.getElem_mem hc.1
        have hpair : (k, v) = kvs.getD (findFirstGE kvs k).toNat (0, 0) := by
          rw [Prod.ext_iff]
          exact ⟨hc.2.symm, hv.symm⟩
        rw [hpair]
        exact hmem
      · rw [if_neg hc] at hlk
        cases hlk
  | hnode cs IH =>
      intro k v hlk
      simp only [lookupB] at hlk
      by_cases hc : findPageIdx cs k < cs.length
      · rw [dif_pos hc] at hlk
        have hmem := IH cs[findPageIdx cs k] (List.getElem_mem hc) k v hlk
        exact mem_entriesL cs _ (List.getElem_mem hc) _ hmem
      · rw [dif_neg hc] at hlk
        cases hlk

theorem insertB_dup (L M : Nat) :
    ∀ (t : BTree) (lo hi : Option Int) (r : Bool), WF L M lo hi r t →
      ∀ k v v0 : Int, (k, v0) ∈ entriesB t → insertB L M t k v = some .dup := by
  intro t
  induction t using BTree.inductionOn with
  | hleaf kvs =>
      intro lo hi r hwf k v v0 hmem
      cases hwf with
      | leaf _ _ _ _ hlen hmin hpw hrange =>
          have hpw2 : (kvs.map Prod.fst).Pairwise (· < ·) := by
            rw [List.pairwise_map]
            exact hpw
          obtain ⟨h1, h2⟩ := findFirstGE_mem kvs k v0 hpw2 hmem
          simp only [insertB]
          rw [if_pos ⟨h1, by rw [h2]⟩]
  | hnode cs IH =>
      intro lo hi r hwf k v v0 hmem
      obtain ⟨i, hilen, hroute, hmem2, lo2, hi2, r2, hwf2⟩ :=
        node_route L M lo hi r cs hwf k v0 hmem
      have hgetD : cs.getD i (0, .leaf []) = cs[i] := List.getD_eq_getElem cs _ hilen
      rw [hgetD] at hmem2 hwf2
      simp only [insertB]
      rw [hroute, dif_pos hilen]
      rw [IH cs[i] (List.getElem_mem hilen) lo2 hi2 r2 hwf2 k v v0 hmem2]

theorem removeB_absent (L M : Nat) :
    ∀ (t : BTree) (k : Int), (∀ v0 : Int, (k, v0) ∉ entriesB t) →
      removeB L M t k = (false, t, false) := by
  intro t
  induction t using BTree.inductionOn with
  | hleaf kvs =>
      intro k habs
      simp only [removeB]
      rw [if_neg ?_]
      rintro ⟨h1, h2⟩
      refine habs (kvs.getD (findFirstGE kvs k).toNat (0, 0)).2 ?_
      have hmem : kvs.getD (findFirstGE kvs k).toNat (0, 0) ∈ kvs := by
        rw [List.getD_eq_getElem kvs _ h1]
        exact List.getElem_mem h1
      have hpair : (k, (kvs.getD (findFirstGE kvs k).toNat (0, 0)).2) =
          kvs.getD (findFirstGE kvs k).toNat (0, 0) := by
        rw [Prod.ext_iff]
        exact ⟨h2.symm, rfl⟩
      rw [hpair]
      exact hmem
  | hnode cs IH =>
      intro k habs
      simp only [removeB]
      by_cases hc : findPageIdx cs k < cs.length
      · rw [dif_pos hc]
        have habs2 : ∀ v0 : Int, (k, v0) ∉ entriesB (cs[findPageIdx cs k]).2 := by
          intro v0 hm
          exact habs v0 (mem_entriesL cs _ (List.getElem_mem hc) _ hm)
        rw [IH cs[findPageIdx cs k] (List.getElem_mem hc) k habs2]
        simp
      · rw [dif_neg hc]

/-- C4: on a well-formed tree, inserting an already-present key returns
false and leaves the tree unchanged, removing an absent key is a no-op
returning the tree unchanged, and get_value returns exactly the value
paired with the key (absent keys return nothing). -/
theorem C4_duplicate_absent_lookup (L M : Nat) (t : Option BTree) (k v : Int)
    (hwf : wfRoot L M t) :
    ((∃ v0, (k, v0) ∈ treeEntries t) → treeInsert L M t k v = some (false, t)) ∧
    ((∀ v0, (k, v0) ∉ treeEntries t) → treeRemove L M t k = t) ∧
    (treeGetValue t k = some v ↔ (k, v) ∈ treeEntries t) := by
  cases t with
  | none =>
      refine ⟨?_, ?_, ?_⟩
      · rintro ⟨v0, hv0⟩
        cases hv0
      · intro _
        rfl
      · constructor
        · intro h
          cases h
        · intro h
          cases h
  | some t0 =>
      have hwf0 : WF L M none none true t0 := hwf
      refine ⟨?_, ?_, ?_⟩
      · rintro ⟨v0, hv0⟩
        have hdup := insertB_dup L M t0 none none true hwf0 k v v0 hv0
        simp only [treeInsert, hdup]
      · intro habs
        have hrem := removeB_absent L M t0 k (fun v0 => habs v0)
        simp [treeRemove, hrem]
      · constructor
        · intro h
          exact lookupB_sound t0 k v h
        · intro h
          exact lookupB_complete L M t0 none none true hwf0 k v h


/-- Witness for C4 at a concrete two-leaf tree: inserting present key 3
fails without change, removing absent key 99 is a no-op, and get_value
finds key 2. -/
theorem C4_duplicate_absent_lookup_witness :
    treeInsert 4 3 c4tree 3 9 = some (false, c4tree) ∧
    treeRemove 4 3 c4tree 99 = c4tree ∧
    (treeGetValue c4tree 2 = some 2 ↔ ((2 : Int), (2 : Int)) ∈ treeEntries c4tree) := by
  have hwf : wfRoot 4 3 c4tree := by
    exact WF.node none none true 0 (.leaf [(1, 1), (2, 2), (3, 3)])
      [(4, .leaf [(4, 4), (5, 5)])]
      (by decide) (by decide) (by decide)
      (WF.leaf none (sepB [(4, BTree.leaf [(4, 4), (5, 5)])] none) false
        [(1, 1), (2, 2), (3, 3)]
        (by decide) (by decide) (by decide)
        (by intro p hp; fin_cases hp <;> exact ⟨trivial, by simp [hiOk, sepB]⟩))
      (WFchain.cons none none 4 (.leaf [(4, 4), (5, 5)]) []
        trivial trivial trivial
        (WF.leaf (some 4) (sepB ([] : List (Int × BTree)) none) false
          [(4, 4), (5, 5)]
          (by decide) (by decide) (by decide)
          (by intro p hp; fin_cases hp <;> exact ⟨by simp [loOk], trivial⟩))
        (WFchain.nil none none))
  have habs : ∀ v0 : Int, ((99 : Int), v0) ∉ treeEntries c4tree := by
    intro v0 hv
    have hev : treeEntries c4tree = [(1, 1), (2, 2), (3, 3), (4, 4), (5, 5)] := rfl
    rw [hev] at hv
    simp at hv
  exact ⟨(C4_duplicate_absent_lookup 4 3 c4tree 3 9 hwf).1 ⟨3, by decide⟩,
    (C4_duplicate_absent_lookup 4 3 c4tree 99 0 hwf).2.1 habs,
    (C4_duplicate_absent_lookup 4 3 c4tree 2 2 hwf).2.2⟩

theorem findFirstGE_eval (kvs : List (Int × Int)) (k : Int)
    (hs : (kvs.map Prod.fst).Pairwise (· < ·)) (n : Nat)
    (hn : n ≤ kvs.length)
    (hlow2 : ∀ j : Nat, j < n → (kvs.map Prod.fst).getD j 0 < k)
    (hhit : n < kvs.length → k ≤ (kvs.map Prod.fst).getD n 0) :
    findFirstGE kvs k = (n : Int) := by
  obtain ⟨hge0, hgele, hlow, hcand⟩ := findFirstGE_spec kvs k hs
  by_contra hne
  rcases Int.lt_or_lt_of_ne hne with hlt | hlt
  · have hflen : findFirstGE kvs k < (kvs.length : Int) := by omega
    have h2 : k ≤ (kvs.map Prod.fst).getD (findFirstGE kvs k).toNat 0 := by
      rcases hcand with h3 | h3
      · omega
      · exact h3
    have h3 := hlow2 (findFirstGE kvs k).toNat (by omega)
    omega
  · have h2 := hhit (by omega)
    have h3 := hlow n (by omega)
    omega

/-- C3 counterexample: growing the tree by inserting keys 1..5 with leaf
capacity 4 splits the root leaf; the resulting non-root right leaf holds 2
entries, below the ceil((cap+1)/2) = 3 lower bound the claim states, while
the code's underflow test (size < (cap+1)/2 in C++ integer division)
accepts it. -/
theorem C3_underflow_counterexample :
    c3tree = some (.node [(0, .leaf [(1, 1), (2, 2), (3, 3)]),
      (4, .leaf [(4, 4), (5, 5)])]) ∧
    ([(4, 4), (5, 5)] : List (Int × Int)).length < bPlusSpecMin 4 ∧
    isLeafUnderflow ([(4, 4), (5, 5)] : List (Int × Int)).length 4 = false ∧
    (4 + 1) / 2 ≤ ([(4, 4), (5, 5)] : List (Int × Int)).length := by
  refine ⟨?_, by decide, by decide, by decide⟩
  have h1 : treeInsert 4 3 none 1 1 = some (true, some (.leaf [(1, 1)])) := by
    simp only [treeInsert]
  have h2 : treeInsert 4 3 (some (.leaf [(1, 1)])) 2 2 =
      some (true, some (.leaf [(1, 1), (2, 2)])) := by
    have hf : findFirstGE [(1, 1)] 2 = (1 : Int) :=
      findFirstGE_eval _ _ (by decide) 1 (by decide) (by decide) (by decide)
    simp only [treeInsert, insertB, hf]
    norm_num
  have h3 : treeInsert 4 3 (some (.leaf [(1, 1), (2, 2)])) 3 3 =
      some (true, some (.leaf [(1, 1), (2, 2), (3, 3)])) := by
    have hf : findFirstGE [(1, 1), (2, 2)] 3 = (2 : Int) :=
      findFirstGE_eval _ _ (by decide) 2 (by decide) (by decide) (by decide)
    simp only [treeInsert, insertB, hf]
    norm_num
    all_goals decide
  have h4 : treeInsert 4 3 (some (.leaf [(1, 1), (2, 2), (3, 3)])) 4 4 =
      some (true, some (.leaf [(1, 1), (2, 2), (3, 3), (4, 4)])) := by
    have hf : findFirstGE [(1, 1), (2, 2), (3, 3)] 4 = (3 : Int) :=
      findFirstGE_eval _ _ (by decide) 3 (by decide) (by decide) (by decide)
    simp only [treeInsert, insertB, hf]
    norm_num
    all_goals decide
  have h5 : treeInsert 4 3 (some (.leaf [(1, 1), (2, 2), (3, 3), (4, 4)])) 5 5 =
      some (true, some (.node [(0, .leaf [(1, 1), (2, 2), (3, 3)]),
        (4, .leaf [(4, 4), (5, 5)])])) := by
    have hf : findFirstGE [(1, 1), (2, 2), (3, 3), (4, 4)] 5 = (4 : Int) :=
      findFirstGE_eval _ _ (by decide) 4 (by decide) (by decide) (by decide)
    simp only [treeInsert, insertB, hf]
    norm_num
    all_goals decide
  show c3tree = _
  simp only [c3tree, List.foldl, c3step, h1, h2, h3, h4, h5]

theorem heightL_uniform (h1 : Nat) :
    ∀ (cs : List (Int × BTree)), (∀ p ∈ cs, heightB p.2 = h1) → cs ≠ [] →
      heightL cs = h1 := by
  intro cs
  induction cs with
  | nil => intro _ hne; exact absurd rfl hne
  | cons hd tl IH =>
      intro huni _
      obtain ⟨a, c⟩ := hd
      simp only [heightL]
      have hc : heightB c = h1 := huni (a, c) (by simp)
      cases tl with
      | nil => simp [heightL, hc]
      | cons hd2 tl2 =>
          rw [IH (fun p hp => huni p (List.mem_cons_of_mem _ hp)) (by simp), hc]
          simp

theorem heightB_node_uniform (h1 : Nat) (cs : List (Int × BTree))
    (huni : ∀ p ∈ cs, heightB p.2 = h1) (hne : cs ≠ []) :
    heightB (.node cs) = h1 + 1 := by
  show 1 + heightL cs = h1 + 1
  rw [heightL_uniform h1 cs huni hne]
  omega

theorem heightB_zero_leaf (t : BTree) (h : heightB t = 0) :
    ∃ kvs, t = .leaf kvs := by
  cases t with
  | leaf kvs => exact ⟨kvs, rfl⟩
  | node cs =>
      exfalso
      have : heightB (.node cs) = 1 + heightL cs := rfl
      omega

theorem heightB_succ_node (t : BTree) (n : Nat) (h : heightB t = n + 1) :
    ∃ cs, t = .node cs ∧ heightL cs = n := by
  cases t with
  | leaf kvs =>
      exfalso
      have : heightB (.leaf kvs) = 0 := rfl
      omega
  | node cs =>
      refine ⟨cs, rfl, ?_⟩
      have : heightB (.node cs) = 1 + heightL cs := rfl
      omega

theorem ffgeGo_bounds (keys : List Int) (k : Int) :
    ∀ (m : Nat) (left right res : Int), (right + 1 - left).toNat = m →
      0 ≤ res → res ≤ (keys.length : Int) → right < (keys.length : Int) → 0 ≤ left →
      0 ≤ ffgeGo keys k left right res ∧
      ffgeGo keys k left right res ≤ (keys.length : Int) := by
  intro m
  induction m using Nat.strong_induction_on with
  | _ m IH =>
    intro left right res hm h1 h2 h3 h4
    rw [ffgeGo]
    by_cases hlr : left ≤ right
    · rw [if_pos hlr]
      by_cases hcmp : k ≤ keys.getD (left + (right - left) / 2).toNat 0
      · rw [if_pos hcmp]
        exact IH ((left + (right - left) / 2 - 1) + 1 - left).toNat (by omega)
          left (left + (right - left) / 2 - 1) (left + (right - left) / 2)
          rfl (by omega) (by omega) (by omega) h4
      · rw [if_neg hcmp]
        exact IH ((right + 1) - (left + (right - left) / 2 + 1)).toNat (by omega)
          (left + (right - left) / 2 + 1) right res rfl h1 h2 h3 (by omega)
    · rw [if_neg hlr]
      exact ⟨h1, h2⟩

theorem findFirstGE_bounds (kvs : List (Int × Int)) (k : Int) :
    0 ≤ findFirstGE kvs k ∧ findFirstGE kvs k ≤ (kvs.length : Int) := by
  have h := ffgeGo_bounds (kvs.map Prod.fst) k
    (((kvs.length : Int) - 1) + 1 - 0).toNat 0 ((kvs.length : Int) - 1)
    (kvs.length : Int) rfl (by omega) (by simp) (by rw [List.length_map]; omega)
    (by omega)
  simpa [findFirstGE] using h

theorem fipGo_bounds (keys : List Int) (k : Int) :
    ∀ (m : Nat) (left right pos : Int), (right + 1 - left).toNat = m →
      1 ≤ left → 1 ≤ pos → pos ≤ (keys.length : Int) → right < (keys.length : Int) →
      fipGo keys k left right pos = -1 ∨
      (1 ≤ fipGo keys k left right pos ∧
        fipGo keys k left right pos ≤ (keys.length : Int)) := by
  intro m
  induction m using Nat.strong_induction_on with
  | _ m IH =>
    intro left right pos hm h1 h2 h3 h4
    rw [fipGo]
    by_cases hlr : left ≤ right
    · rw [if_pos hlr]
      by_cases hklt : k < keys.getD (left + (right - left) / 2).toNat 0
      · rw [if_pos hklt]
        exact IH ((left + (right - left) / 2 - 1) + 1 - left).toNat (by omega)
          left (left + (right - left) / 2 - 1) (left + (right - left) / 2)
          rfl h1 (by omega) (by omega) (by omega)
      · rw [if_neg hklt]
        by_cases hkgt : keys.getD (left + (right - left) / 2).toNat 0 < k
        · rw [if_pos hkgt]
          exact IH ((right + 1) - (left + (right - left) / 2 + 1)).toNat (by omega)
            (left + (right - left) / 2 + 1) right pos rfl (by omega) h2 h3 h4
        · rw [if_neg hkgt]
          exact Or.inl rfl
    · rw [if_neg hlr]
      exact Or.inr ⟨h2, h3⟩

theorem findInsertPos_bounds {α : Type} (cs : List (Int × α)) (k : Int)
    (hne : 1 ≤ cs.length) :
    findInsertPos cs k = -1 ∨
    (1 ≤ findInsertPos cs k ∧ findInsertPos cs k ≤ (cs.length : Int)) := by
  have h := fipGo_bounds (cs.map Prod.fst) k
    (((cs.length : Int) - 1) + 1 - 1).toNat 1 ((cs.length : Int) - 1)
    (cs.length : Int) rfl (by omega) (by omega) (by simp)
    (by rw [List.length_map]; omega)
  simpa [findInsertPos] using h

theorem insertB_sizeOk (L M : Nat) (hL : 1 ≤ L) (hM : 3 ≤ M) (k v : Int) :
    ∀ (t : BTree) (isRoot : Bool), sizeOkB L M isRoot t →
      (∀ t2, insertB L M t k v = some (.one t2) →
        sizeOkB L M isRoot t2 ∧ heightB t2 = heightB t) ∧
      (∀ l sk r, insertB L M t k v = some (.split l sk r) →
        sizeOkB L M false l ∧ sizeOkB L M false r ∧
        heightB l = heightB t ∧ heightB r = heightB t) := by
  intro t
  induction t using BTree.inductionOn with
  | hleaf kvs =>
      intro isRoot hsz
      simp only [sizeOkB] at hsz
      have hpos : (findFirstGE kvs k).toNat ≤ kvs.length := by
        have := findFirstGE_bounds kvs k
        omega
      constructor
      · intro t2 heq
        simp only [insertB] at heq
        by_cases hdup : (findFirstGE kvs k).toNat < kvs.length ∧
            (kvs.getD (findFirstGE kvs k).toNat (0, 0)).1 = k
        · rw [if_pos hdup] at heq
          simp at heq
        · rw [if_neg hdup] at heq
          by_cases hfit : kvs.length < L
          · rw [if_pos hfit] at heq
            simp only [Option.some.injEq, InsRes.one.injEq] at heq
            subst heq
            refine ⟨?_, rfl⟩
            simp only [sizeOkB]
            refine ⟨?_, ?_⟩
            · rw [List.length_insertIdx _ _ hpos]
              omega
            · intro hroot
              rw [List.length_insertIdx _ _ hpos]
              have := hsz.2 hroot
              omega
          · rw [if_neg hfit] at heq
            simp at heq
      · intro l sk r heq
        simp only [insertB] at heq
        by_cases hdup : (findFirstGE kvs k).toNat < kvs.length ∧
            (kvs.getD (findFirstGE kvs k).toNat (0, 0)).1 = k
        · rw [if_pos hdup] at heq
          simp at heq
        · rw [if_neg hdup] at heq
          by_cases hfit : kvs.length < L
          · rw [if_pos hfit] at heq
            simp at heq
          · rw [if_neg hfit] at heq
            simp only [Option.some.injEq, InsRes.split.injEq] at heq
            obtain ⟨hl, hsk, hr⟩ := heq
            subst hl
            subst hr
            have hlen : (kvs.insertIdx (findFirstGE kvs k).toNat (k, v)).length =
                kvs.length + 1 := List.length_insertIdx _ _ hpos
            have hkL : kvs.length = L := by omega
            refine ⟨?_, ?_, rfl, rfl⟩
            · simp only [sizeOkB]
              refine ⟨?_, ?_⟩
              · rw [List.length_take, hlen]
                omega
              · intro _
                rw [List.length_take, hlen]
                omega
            · simp only [sizeOkB]
              refine ⟨?_, ?_⟩
              · rw [List.length_drop, hlen]
                omega
              · intro _
                rw [List.length_drop, hlen]
                omega
  | hnode cs IH =>
      intro isRoot hsz
      have hszn := hsz
      simp only [sizeOkB] at hszn
      obtain ⟨hMle, hmin, h2le, huni, hch⟩ := hszn
      have hnodecs : heightB (.node cs) = 1 + heightL cs := rfl
      have huni2 : ∀ p ∈ cs, heightB p.2 = heightL cs := by
        intro p hp
        have := huni p hp
        omega
      have hmain : ∀ res, insertB L M (.node cs) k v = res →
          (∀ t2, res = some (.one t2) →
            sizeOkB L M isRoot t2 ∧ heightB t2 = heightB (.node cs)) ∧
          (∀ l sk r, res = some (.split l sk r) →
            sizeOkB L M false l ∧ sizeOkB L M false r ∧
            heightB l = heightB (.node cs) ∧ heightB r = heightB (.node cs)) := by
        intro res heq
        simp only [insertB] at heq
        by_cases hi : findPageIdx cs k < cs.length
        · rw [dif_pos hi] at heq
          have hIH := IH cs[findPageIdx cs k] (List.getElem_mem hi) false
            (hch _ (List.getElem_mem hi))
          cases hrec : insertB L M (cs[findPageIdx cs k]).2 k v with
          | none =>
              rw [hrec] at heq
              subst heq
              exact ⟨by intro t2 h; simp at h, by intro l sk r h; simp at h⟩
          | some ir =>
              rw [hrec] at heq
              cases ir with
              | dup =>
                  simp only [] at heq
                  subst heq
                  exact ⟨by intro t2 h; simp at h, by intro l sk r h; simp at h⟩
              | one c2 =>
                  simp only [] at heq
                  subst heq
                  obtain ⟨hc2sz, hc2h⟩ := hIH.1 c2 hrec
                  constructor
                  · intro t2 h
                    simp only [Option.some.injEq, InsRes.one.injEq] at h
                    subst h
                    have hsetlen : (cs.set (findPageIdx cs k)
                        (cs[findPageIdx cs k].1, c2)).length = cs.length :=
                      List.length_set cs _ _
                    have hsetuni : ∀ p ∈ cs.set (findPageIdx cs k)
                        (cs[findPageIdx cs k].1, c2), heightB p.2 = heightL cs := by
                      intro p hp
                      rcases List.mem_or_eq_of_mem_set hp with hp2 | hp2
                      · exact huni2 p hp2
                      · rw [hp2]
                        rw [hc2h] at *
                        exact huni2 _ (List.getElem_mem hi)
                    have hsetne : cs.set (findPageIdx cs k)
                        (cs[findPageIdx cs k].1, c2) ≠ [] := by
                      intro hnil
                      have := congrArg List.length hnil
                      rw [hsetlen] at this
                      simp only [List.length_nil] at this
                      omega
                    have hnodeh := heightB_node_uniform (heightL cs) _ hsetuni hsetne
                    refine ⟨?_, ?_⟩
                    · simp only [sizeOkB]
                      refine ⟨by rw [hsetlen]; omega, by intro hr; rw [hsetlen]; exact hmin hr,
                        by rw [hsetlen]; omega, ?_, ?_⟩
                      · intro p hp
                        rw [hnodeh, hsetuni p hp]
                      · intro p hp
                        rcases List.mem_or_eq_of_mem_set hp with hp2 | hp2
                        · exact hch p hp2
                        · rw [hp2]
                          exact hc2sz
                    · rw [hnodeh, hnodecs]
                      omega
                  · intro l sk r h
                    simp at h
              | split l1 sk1 r1 =>
                  obtain ⟨hl1sz, hr1sz, hl1h, hr1h⟩ := hIH.2 l1 sk1 r1 hrec
                  set cs1 := cs.set (findPageIdx cs k) (cs[findPageIdx cs k].1, l1)
                    with hcs1
                  have hcs1len : cs1.length = cs.length := List.length_set cs _ _
                  have hcs1uni : ∀ p ∈ cs1, heightB p.2 = heightL cs := by
                    intro p hp
                    rcases List.mem_or_eq_of_mem_set hp with hp2 | hp2
                    · exact huni2 p hp2
                    · rw [hp2]
                      rw [hl1h] at *
                      exact huni2 _ (List.getElem_mem hi)
                  have hcs1sz : ∀ p ∈ cs1, sizeOkB L M false p.2 := by
                    intro p hp
                    rcases List.mem_or_eq_of_mem_set hp with hp2 | hp2
                    · exact hch p hp2
                    · rw [hp2]
                      exact hl1sz
                  simp only [] at heq
                  by_cases hipm : findInsertPos cs1 sk1 = -1
                  · rw [if_pos hipm] at heq
                    subst heq
                    exact ⟨by intro t2 h; simp at h, by intro l sk r h; simp at h⟩
                  · rw [if_neg hipm] at heq
                    have hipb : 1 ≤ findInsertPos cs1 sk1 ∧
                        findInsertPos cs1 sk1 ≤ (cs1.length : Int) := by
                      rcases findInsertPos_bounds cs1 sk1 (by omega) with h | h
                      · exact absurd h hipm
                      · exact h
                    have hiple : (findInsertPos cs1 sk1).toNat ≤ cs1.length := by
                      omega
                    have halen : (cs1.insertIdx (findInsertPos cs1 sk1).toNat
                        (sk1, r1)).length = cs1.length + 1 :=
                      List.length_insertIdx _ _ hiple
                    have hauni : ∀ p ∈ cs1.insertIdx (findInsertPos cs1 sk1).toNat
                        (sk1, r1), heightB p.2 = heightL cs := by
                      intro p hp
                      rcases (List.mem_insertIdx hiple).mp hp with hp2 | hp2
                      · rw [hp2]
                        rw [hr1h] at *
                        exact huni2 _ (List.getElem_mem hi)
                      · exact hcs1uni p hp2
                    have hasz : ∀ p ∈ cs1.insertIdx (findInsertPos cs1 sk1).toNat
                        (sk1, r1), sizeOkB L M false p.2 := by
                      intro p hp
                      rcases (List.mem_insertIdx hiple).mp hp with hp2 | hp2
                      · rw [hp2]
                        exact hr1sz
                      · exact hcs1sz p hp2
                    by_cases hfit : cs1.length < M
                    · rw [if_pos hfit] at heq
                      subst heq
                      constructor
                      · intro t2 h
                        simp only [Option.some.injEq, InsRes.one.injEq] at h
                        subst h
                        have hne : cs1.insertIdx (findInsertPos cs1 sk1).toNat
                            (sk1, r1) ≠ [] := by
                          intro hnil
                          have := congrArg List.length hnil
                          rw [halen] at this
                          simp only [List.length_nil] at this
                          omega
                        have hnodeh := heightB_node_uniform (heightL cs) _ hauni hne
                        refine ⟨?_, ?_⟩
                        · simp only [sizeOkB]
                          refine ⟨by rw [halen]; omega,
                            by intro hr; rw [halen, hcs1len]; have := hmin hr; omega,
                            by rw [halen]; omega, ?_, hasz⟩
                          intro p hp
                          rw [hnodeh, hauni p hp]
                        · rw [hnodeh, hnodecs]
                          omega
                      · intro l sk r h
                        simp at h
                    · rw [if_neg hfit] at heq
                      have hMeq : cs1.length = M := by omega
                      have hdlen : ((cs1.insertIdx (findInsertPos cs1 sk1).toNat
                          (sk1, r1)).drop (((cs1.insertIdx (findInsertPos cs1 sk1).toNat
                          (sk1, r1)).length + 1) / 2)).length = M + 1 - (M + 2) / 2 := by
                        rw [List.length_drop, halen, hMeq]
                      cases hdd : (cs1.insertIdx (findInsertPos cs1 sk1).toNat
                          (sk1, r1)).drop (((cs1.insertIdx (findInsertPos cs1 sk1).toNat
                          (sk1, r1)).length + 1) / 2) with
                      | nil =>
                          exfalso
                          have := congrArg List.length hdd
                          rw [hdlen] at this
                          simp only [List.length_nil] at this
                          omega
                      | cons hd tl =>
                          simp only [hdd] at heq
                          subst heq
                          constructor
                          · intro t2 h
                            simp at h
                          · intro l sk r h
                            simp only [Option.some.injEq, InsRes.split.injEq] at h
                            obtain ⟨hleq, hskeq, hreq⟩ := h
                            subst hleq
                            subst hreq
                            have htlen : ((cs1.insertIdx (findInsertPos cs1 sk1).toNat
                                (sk1, r1)).take (((cs1.insertIdx
                                (findInsertPos cs1 sk1).toNat (sk1, r1)).length + 1) / 2)).length
                                = (M + 2) / 2 := by
                              rw [List.length_take, halen, hMeq]
                              omega
                            have hdmem : ∀ p ∈ hd :: tl,
                                p ∈ cs1.insertIdx (findInsertPos cs1 sk1).toNat (sk1, r1) := by
                              intro p hp
                              rw [← hdd] at hp
                              exact List.mem_of_mem_drop hp
                            have htmem : ∀ p ∈ (cs1.insertIdx (findInsertPos cs1 sk1).toNat
                                (sk1, r1)).take (((cs1.insertIdx
                                (findInsertPos cs1 sk1).toNat (sk1, r1)).length + 1) / 2),
                                p ∈ cs1.insertIdx (findInsertPos cs1 sk1).toNat (sk1, r1) :=
                              fun p hp => List.mem_of_mem_take hp
                            have hrclen : ((0, hd.2) :: tl).length = M + 1 - (M + 2) / 2 := by
                              have := congrArg List.length hdd
                              rw [hdlen] at this
                              simp only [List.length_cons] at this ⊢
                              omega
                            have hrcuni : ∀ p ∈ (0, hd.2) :: tl,
                                heightB p.2 = heightL cs := by
                              intro p hp
                              rcases List.mem_cons.mp hp with hp2 | hp2
                              · rw [hp2]
                                exact hauni hd (hdmem hd (by simp))
                              · exact hauni p (hdmem p (List.mem_cons_of_mem _ hp2))
                            have hrcsz : ∀ p ∈ (0, hd.2) :: tl,
                                sizeOkB L M false p.2 := by
                              intro p hp
                              rcases List.mem_cons.mp hp with hp2 | hp2
                              · rw [hp2]
                                exact hasz hd (hdmem hd (by simp))
                              · exact hasz p (hdmem p (List.mem_cons_of_mem _ hp2))
                            have htuni : ∀ p ∈ (cs1.insertIdx (findInsertPos cs1 sk1).toNat
                                (sk1, r1)).take (((cs1.insertIdx
                                (findInsertPos cs1 sk1).toNat (sk1, r1)).length + 1) / 2),
                                heightB p.2 = heightL cs :=
                              fun p hp => hauni p (htmem p hp)
                            have htne : (cs1.insertIdx (findInsertPos cs1 sk1).toNat
                                (sk1, r1)).take (((cs1.insertIdx
                                (findInsertPos cs1 sk1).toNat (sk1, r1)).length + 1) / 2) ≠ [] := by
                              intro hnil
                              have := congrArg List.length hnil
                              rw [htlen] at this
                              simp only [List.length_nil] at this
                              omega
                            have hlh := heightB_node_uniform (heightL cs) _ htuni htne
                            have hrh := heightB_node_uniform (heightL cs) _ hrcuni
                              (by intro hnil; cases hnil)
                            refine ⟨?_, ?_, ?_, ?_⟩
                            · simp only [sizeOkB]
                              refine ⟨by rw [htlen]; omega, by intro _; rw [htlen]; omega,
                                by rw [htlen]; omega, ?_,
                                fun p hp => hasz p (htmem p hp)⟩
                              intro p hp
                              rw [hlh, htuni p hp]
                            · simp only [sizeOkB]
                              refine ⟨by rw [hrclen]; omega, by intro _; rw [hrclen]; omega,
                                by rw [hrclen]; omega, ?_, hrcsz⟩
                              intro p hp
                              rw [hrh, hrcuni p hp]
                            · rw [hlh, hnodecs]
                              omega
                            · rw [hrh, hnodecs]
                              omega
        · rw [dif_neg hi] at heq
          subst heq
          exact ⟨by intro t2 h; simp at h, by intro l sk r h; simp at h⟩
      exact ⟨fun t2 h => (hmain _ rfl).1 t2 h, fun l sk r h => (hmain _ rfl).2 l sk r h⟩

theorem treeInsert_sizeOk (L M : Nat) (hL : 1 ≤ L) (hM : 3 ≤ M) (t : Option BTree)
    (hsz : sizeOkRoot L M t) (k v : Int) :
    ∀ (b : Bool) (t2 : Option BTree), treeInsert L M t k v = some (b, t2) →
      sizeOkRoot L M t2 := by
  intro b t2 heq
  cases t with
  | none =>
      simp only [treeInsert, Option.some.injEq, Prod.mk.injEq] at heq
      obtain ⟨_, h2⟩ := heq
      subst h2
      show sizeOkB L M true (.leaf [(k, v)])
      simp only [sizeOkB]
      exact ⟨by simpa using hL, by intro h; cases h⟩
  | some t0 =>
      have hs0 : sizeOkB L M true t0 := hsz
      have hins := insertB_sizeOk L M hL hM k v t0 true hs0
      simp only [treeInsert] at heq
      cases hrec : insertB L M t0 k v with
      | none =>
          rw [hrec] at heq
          simp at heq
      | some ir =>
          rw [hrec] at heq
          cases ir with
          | dup =>
              simp only [Option.some.injEq, Prod.mk.injEq] at heq
              obtain ⟨_, h2⟩ := heq
              subst h2
              exact hsz
          | one t1 =>
              simp only [Option.some.injEq, Prod.mk.injEq] at heq
              obtain ⟨_, h2⟩ := heq
              subst h2
              exact (hins.1 t1 hrec).1
          | split l sk r =>
              simp only [Option.some.injEq, Prod.mk.injEq] at heq
              obtain ⟨_, h2⟩ := heq
              subst h2
              obtain ⟨hlsz, hrsz, hlh, hrh⟩ := hins.2 l sk r hrec
              show sizeOkB L M true (.node [(0, l), (sk, r)])
              have hun : ∀ p ∈ [((0 : Int), l), (sk, r)], heightB p.2 = heightB t0 := by
                intro p hp
                rcases List.mem_cons.mp hp with h1 | hp2
                · rw [h1]
                  exact hlh
                · rcases List.mem_cons.mp hp2 with h1 | hp3
                  · rw [h1]
                    exact hrh
                  · cases hp3
              have hnodeh := heightB_node_uniform (heightB t0) _ hun (by simp)
              simp only [sizeOkB]
              refine ⟨?_, ?_, ?_, ?_, ?_⟩
              · simp only [List.length_cons, List.length_nil]
                omega
              · intro h
                cases h
              · simp
              · intro p hp
                rw [hnodeh, hun p hp]
              · intro p hp
                rcases List.mem_cons.mp hp with h1 | hp2
                · rw [h1]
                  exact hlsz
                · rcases List.mem_cons.mp hp2 with h1 | hp3
                  · rw [h1]
                    exact hrsz
                  · cases hp3

theorem goodIdx_set2 {α : Type} (P : α → Prop) (cs : List α) (i1 i2 : Nat) (A B : α)
    (hgood : ∀ j : Nat, (hj : j < cs.length) → j ≠ i1 → j ≠ i2 → P cs[j])
    (hA : P A) (hB : P B) :
    ∀ j : Nat, (hj : j < ((cs.set i1 A).set i2 B).length) →
      P (((cs.set i1 A).set i2 B)[j]) := by
  intro j hj
  have hj2 : j < cs.length := by simpa using hj
  rw [List.getElem_set]
  by_cases h2 : i2 = j
  · rw [if_pos h2]
    exact hB
  · rw [if_neg h2]
    rw [List.getElem_set]
    by_cases h1 : i1 = j
    · rw [if_pos h1]
      exact hA
    · rw [if_neg h1]
      exact hgood j hj2 (fun h => h1 h.symm) (fun h => h2 h.symm)

theorem goodIdx_set_erase {α : Type} (P : α → Prop) (cs : List α) (i1 i2 : Nat) (A : α)
    (hgood : ∀ j : Nat, (hj : j < cs.length) → j ≠ i1 → j ≠ i2 → P cs[j])
    (hA : P A) (hi2 : i2 < cs.length) :
    ∀ j : Nat, (hj : j < ((cs.set i1 A).eraseIdx i2).length) →
      P (((cs.set i1 A).eraseIdx i2)[j]) := by
  intro j hj
  have hlen : ((cs.set i1 A).eraseIdx i2).length = cs.length - 1 := by
    rw [List.length_eraseIdx_of_lt (by simpa using hi2), List.length_set]
  rcases Nat.lt_or_ge j i2 with hcase | hcase
  · rw [List.getElem_eraseIdx_of_lt _ _ _ hj hcase]
    rw [List.getElem_set]
    by_cases h1 : i1 = j
    · rw [if_pos h1]
      exact hA
    · rw [if_neg h1]
      exact hgood j (by omega) (fun h => h1 h.symm) (by omega)
  · rw [List.getElem_eraseIdx_of_ge _ _ _ hj hcase]
    rw [List.getElem_set]
    by_cases h1 : i1 = j + 1
    · rw [if_pos h1]
      exact hA
    · rw [if_neg h1]
      exact hgood (j + 1) (by omega) (fun h => h1 h.symm) (by omega)

theorem fixChild_ok_leaf (L M : Nat) (hL : 1 ≤ L) (cs : List (Int × BTree)) (i : Nat)
    (ckvs : List (Int × Int))
    (hi : i < cs.length) (h2 : 2 ≤ cs.length)
    (hck : (cs[i]).2 = .leaf ckvs)
    (hgood : ∀ j : Nat, (hj : j < cs.length) → j ≠ i →
      sizeOkB L M false (cs[j]).2 ∧ heightB (cs[j]).2 = 0)
    (hclen : ckvs.length = (L + 1) / 2 - 1) :
    (∀ j : Nat, (hj : j < (fixChild L M cs i).1.length) →
      sizeOkB L M false ((fixChild L M cs i).1[j]).2 ∧
      heightB ((fixChild L M cs i).1[j]).2 = 0) ∧
    ((fixChild L M cs i).2 = true → (fixChild L M cs i).1.length = cs.length - 1) ∧
    ((fixChild L M cs i).2 = false → (fixChild L M cs i).1.length = cs.length) := by
  have hgetDi : cs.getD i (0, .leaf []) = cs[i] := List.getD_eq_getElem cs _ hi
  have hlip : ∀ kvs2 : List (Int × Int), ∀ a b : Int,
      (leafInsert kvs2 a b).length = kvs2.length + 1 := by
    intro kvs2 a b
    have hb := findFirstGE_bounds kvs2 a
    exact List.length_insertIdx _ _ (by omega)
  by_cases hiz : 0 < i
  · have hil : i - 1 < cs.length := by omega
    obtain ⟨hlsz, hlh⟩ := hgood (i - 1) hil (by omega)
    obtain ⟨lkvs, hckl⟩ := heightB_zero_leaf _ hlh
    rw [hckl] at hlsz
    simp only [sizeOkB] at hlsz
    have hlmin : (L + 1) / 2 ≤ lkvs.length := hlsz.2 trivial
    have hgetDl : cs.getD (i - 1) (0, .leaf []) = cs[i - 1] :=
      List.getD_eq_getElem cs _ hil
    by_cases hlthr : (L + 1) / 2 < lkvs.length
    · have heq : fixChild L M cs i =
          (((cs.set (i - 1) ((keyAtI cs (i - 1)), .leaf lkvs.dropLast)).set i
            ((lkvs.getD (lkvs.length - 1) (0, 0)).1,
              .leaf (leafInsert ckvs (lkvs.getD (lkvs.length - 1) (0, 0)).1
                (lkvs.getD (lkvs.length - 1) (0, 0)).2))), false) := by
        simp only [fixChild, hgetDi, hck, hgetDl, hckl]
        simp [hiz, hlthr, hi]
      rw [heq]
      dsimp only
      refine ⟨?_, ?_, ?_⟩
      · refine goodIdx_set2
          (fun p => sizeOkB L M false p.2 ∧ heightB p.2 = 0) cs (i - 1) i _ _
          (fun j hj h1 h3 => hgood j hj h3) ⟨?_, rfl⟩ ⟨?_, rfl⟩
        · simp only [sizeOkB, List.length_dropLast]
          exact ⟨by omega, by intro _; omega⟩
        · simp only [sizeOkB, hlip]
          exact ⟨by omega, by intro _; omega⟩
      · intro h
        cases h
      · intro _
        simp [List.length_set]
    · by_cases hirt : i + 1 < cs.length
      · obtain ⟨hrsz, hrh⟩ := hgood (i + 1) hirt (by omega)
        obtain ⟨rkvs, hckr⟩ := heightB_zero_leaf _ hrh
        rw [hckr] at hrsz
        simp only [sizeOkB] at hrsz
        have hrmin : (L + 1) / 2 ≤ rkvs.length := hrsz.2 trivial
        have hgetDr : cs.getD (i + 1) (0, .leaf []) = cs[i + 1] :=
          List.getD_eq_getElem cs _ hirt
        by_cases hrthr : (L + 1) / 2 < rkvs.length
        · have heq : fixChild L M cs i =
              (((cs.set i ((keyAtI cs i),
                .leaf (leafInsert ckvs (rkvs.getD 0 (0, 0)).1
                  (rkvs.getD 0 (0, 0)).2))).set (i + 1)
                (((rkvs.eraseIdx 0).getD 0 (0, 0)).1, .leaf (rkvs.eraseIdx 0))),
               false) := by
            simp only [fixChild, hgetDi, hck, hgetDl, hckl, hgetDr, hckr]
            simp [hiz, hlthr, hrthr, hi, hirt]
          rw [heq]
          dsimp only
          refine ⟨?_, ?_, ?_⟩
          · refine goodIdx_set2
              (fun p => sizeOkB L M false p.2 ∧ heightB p.2 = 0) cs i (i + 1) _ _
              (fun j hj h1 h3 => hgood j hj h1) ⟨?_, rfl⟩ ⟨?_, rfl⟩
            · simp only [sizeOkB, hlip]
              exact ⟨by omega, by intro _; omega⟩
            · simp only [sizeOkB,
                List.length_eraseIdx_of_lt (show 0 < rkvs.length by omega)]
              exact ⟨by omega, by intro _; omega⟩
          · intro h
            cases h
          · intro _
            simp [List.length_set]
        · have heq : fixChild L M cs i =
              (((cs.set (i - 1) ((keyAtI cs (i - 1)),
                .leaf (lkvs ++ ckvs))).eraseIdx i), true) := by
            simp only [fixChild, hgetDi, hck, hgetDl, hckl, hgetDr, hckr]
            simp [hiz, hlthr, hrthr, hi, hirt]
          rw [heq]
          dsimp only
          refine ⟨?_, ?_, ?_⟩
          · refine goodIdx_set_erase
              (fun p => sizeOkB L M false p.2 ∧ heightB p.2 = 0) cs (i - 1) i _
              (fun j hj h1 h3 => hgood j hj h3) ⟨?_, rfl⟩ hi
            simp only [sizeOkB, List.length_append]
            exact ⟨by omega, by intro _; omega⟩
          · intro _
            rw [List.length_eraseIdx_of_lt (by simpa using hi), List.length_set]
          · intro h
            cases h
      · have heq : fixChild L M cs i =
            (((cs.set (i - 1) ((keyAtI cs (i - 1)),
              .leaf (lkvs ++ ckvs))).eraseIdx i), true) := by
          simp only [fixChild, hgetDi, hck, hgetDl, hckl]
          simp [hiz, hlthr, hi, hirt]
        rw [heq]
        dsimp only
        refine ⟨?_, ?_, ?_⟩
        · refine goodIdx_set_erase
            (fun p => sizeOkB L M false p.2 ∧ heightB p.2 = 0) cs (i - 1) i _
            (fun j hj h1 h3 => hgood j hj h3) ⟨?_, rfl⟩ hi
          simp only [sizeOkB, List.length_append]
          exact ⟨by omega, by intro _; omega⟩
        · intro _
          rw [List.length_eraseIdx_of_lt (by simpa using hi), List.length_set]
        · intro h
          cases h
  · have hirt : i + 1 < cs.length := by omega
    obtain ⟨hrsz, hrh⟩ := hgood (i + 1) hirt (by omega)
    obtain ⟨rkvs, hckr⟩ := heightB_zero_leaf _ hrh
    rw [hckr] at hrsz
    simp only [sizeOkB] at hrsz
    have hrmin : (L + 1) / 2 ≤ rkvs.length := hrsz.2 trivial
    have hgetDr : cs.getD (i + 1) (0, .leaf []) = cs[i + 1] :=
      List.getD_eq_getElem cs _ hirt
    by_cases hrthr : (L + 1) / 2 < rkvs.length
    · have heq : fixChild L M cs i =
          (((cs.set i ((keyAtI cs i),
            .leaf (leafInsert ckvs (rkvs.getD 0 (0, 0)).1
              (rkvs.getD 0 (0, 0)).2))).set (i + 1)
            (((rkvs.eraseIdx 0).getD 0 (0, 0)).1, .leaf (rkvs.eraseIdx 0))),
           false) := by
        simp only [fixChild, hgetDi, hck, hgetDr, hckr]
        simp [hiz, hrthr, hi, hirt]
      rw [heq]
      dsimp only
      refine ⟨?_, ?_, ?_⟩
      · refine goodIdx_set2
          (fun p => sizeOkB L M false p.2 ∧ heightB p.2 = 0) cs i (i + 1) _ _
          (fun j hj h1 h3 => hgood j hj h1) ⟨?_, rfl⟩ ⟨?_, rfl⟩
        · simp only [sizeOkB, hlip]
          exact ⟨by omega, by intro _; omega⟩
        · simp only [sizeOkB,
            List.length_eraseIdx_of_lt (show 0 < rkvs.length by omega)]
          exact ⟨by omega, by intro _; omega⟩
      · intro h
        cases h
      · intro _
        simp [List.length_set]
    · have heq : fixChild L M cs i =
          (((cs.set i ((keyAtI cs i), .leaf (ckvs ++ rkvs))).eraseIdx (i + 1)), true) := by
        simp only [fixChild, hgetDi, hck, hgetDr, hckr]
        simp [hiz, hrthr, hi, hirt]
      rw [heq]
      dsimp only
      refine ⟨?_, ?_, ?_⟩
      · refine goodIdx_set_erase
          (fun p => sizeOkB L M false p.2 ∧ heightB p.2 = 0) cs i (i + 1) _
          (fun j hj h1 h3 => hgood j hj h1) ⟨?_, rfl⟩ hirt
        simp only [sizeOkB, List.length_append]
        exact ⟨by omega, by intro _; omega⟩
      · intro _
        rw [List.length_eraseIdx_of_lt (by simpa using hirt), List.length_set]
      · intro h
        cases h

theorem sizeOk_node_build (L M : Nat) (hc : Nat) (cs2 : List (Int × BTree))
    (hlen1 : cs2.length ≤ M) (hlen2 : (M + 1) / 2 ≤ cs2.length)
    (hlen3 : 2 ≤ cs2.length)
    (huni : ∀ p ∈ cs2, heightB p.2 = hc)
    (hsz : ∀ p ∈ cs2, sizeOkB L M false p.2) :
    sizeOkB L M false (.node cs2) ∧ heightB (.node cs2) = hc + 1 := by
  have hne : cs2 ≠ [] := by
    intro h
    subst h
    simp at hlen3
  have hnh := heightB_node_uniform hc cs2 huni hne
  refine ⟨?_, hnh⟩
  simp only [sizeOkB]
  exact ⟨hlen1, fun _ => hlen2, hlen3, by intro p hp; rw [hnh, huni p hp], hsz⟩

theorem fixChild_ok_node (L M : Nat) (hM : 3 ≤ M) (cs : List (Int × BTree)) (i : Nat)
    (ccs : List (Int × BTree)) (hc : Nat)
    (hi : i < cs.length) (h2 : 2 ≤ cs.length)
    (hck : (cs[i]).2 = .node ccs)
    (hgood : ∀ j : Nat, (hj : j < cs.length) → j ≠ i →
      sizeOkB L M false (cs[j]).2 ∧ heightB (cs[j]).2 = hc + 1)
    (hclen : ccs.length = (M + 1) / 2 - 1)
    (hcuni : ∀ p ∈ ccs, heightB p.2 = hc)
    (hcsz : ∀ p ∈ ccs, sizeOkB L M false p.2) :
    (∀ j : Nat, (hj : j < (fixChild L M cs i).1.length) →
      sizeOkB L M false ((fixChild L M cs i).1[j]).2 ∧
      heightB ((fixChild L M cs i).1[j]).2 = hc + 1) ∧
    ((fixChild L M cs i).2 = true → (fixChild L M cs i).1.length = cs.length - 1) ∧
    ((fixChild L M cs i).2 = false → (fixChild L M cs i).1.length = cs.length) := by
  have hgetDi : cs.getD i (0, .leaf []) = cs[i] := List.getD_eq_getElem cs _ hi
  obtain ⟨⟨d0, c0⟩, crest, hccs⟩ : ∃ p rest2, ccs = p :: rest2 := by
    cases ccs with
    | nil =>
        exfalso
        simp only [List.length_nil] at hclen
        omega
    | cons a b => exact ⟨a, b, rfl⟩
  have hck2 : (cs[i]).2 = .node ((d0, c0) :: crest) := by rw [hck, hccs]
  have hcrest : crest.length = (M + 1) / 2 - 2 := by
    have := congrArg List.length hccs
    simp only [List.length_cons] at this
    omega
  have hc0sz : sizeOkB L M false c0 := hcsz (d0, c0) (by rw [hccs]; simp)
  have hc0h : heightB c0 = hc := hcuni (d0, c0) (by rw [hccs]; simp)
  have hcrestsz : ∀ p ∈ crest, sizeOkB L M false p.2 := by
    intro p hp
    exact hcsz p (by rw [hccs]; exact List.mem_cons_of_mem _ hp)
  have hcresth : ∀ p ∈ crest, heightB p.2 = hc := by
    intro p hp
    exact hcuni p (by rw [hccs]; exact List.mem_cons_of_mem _ hp)
  by_cases hiz : 0 < i
  · have hil : i - 1 < cs.length := by omega
    obtain ⟨hlsz, hlh⟩ := hgood (i - 1) hil (by omega)
    obtain ⟨lcs, hckl, hlhL⟩ := heightB_succ_node _ _ hlh
    rw [hckl] at hlsz
    simp only [sizeOkB] at hlsz
    obtain ⟨hlle, hlminf, hl2, hluniF, hlszF⟩ := hlsz
    have hlmin : (M + 1) / 2 ≤ lcs.length := hlminf trivial
    have hluni : ∀ p ∈ lcs, heightB p.2 = hc := by
      intro p hp
      have h1 := hluniF p hp
      have h3 : heightB (.node lcs) = 1 + heightL lcs := rfl
      rw [h3, hlhL] at h1
      omega
    have hgetDl : cs.getD (i - 1) (0, .leaf []) = cs[i - 1] :=
      List.getD_eq_getElem cs _ hil
    have hbsubmem : lcs.getD (lcs.length - 1) (0, .leaf []) ∈ lcs := by
      rw [List.getD_eq_getElem lcs _ (by omega)]
      exact List.getElem_mem _
    by_cases hlthr : (M + 1) / 2 < lcs.length
    · have hsep1 : 1 < lcs.dropLast.length := by
        rw [List.length_dropLast]
        omega
      have hsep2 : 1 < lcs.length - 1 := by omega
      have heq : fixChild L M cs i =
          (((cs.set (i - 1) ((keyAtI cs (i - 1)), .node lcs.dropLast)).set i
            (keyAtI lcs (lcs.length - 1),
              .node ((d0, (lcs.getD (lcs.length - 1) (0, .leaf [])).2) ::
                (keyAtI cs i, c0) :: crest))), false) := by
        simp only [fixChild, hgetDi, hck2, hgetDl, hckl, insertAtHeadI]
        simp [hiz, hlthr, hi, hsep1, hsep2]
      rw [heq]
      dsimp only
      refine ⟨?_, ?_, ?_⟩
      · refine goodIdx_set2
          (fun p => sizeOkB L M false p.2 ∧ heightB p.2 = hc + 1) cs (i - 1) i _ _
          (fun j hj h1 h3 => hgood j hj h3) ?_ ?_
        · refine sizeOk_node_build L M hc _ ?_ ?_ ?_ ?_ ?_
          · rw [List.length_dropLast]
            omega
          · rw [List.length_dropLast]
            omega
          · rw [List.length_dropLast]
            omega
          · intro p hp
            exact hluni p ((List.dropLast_sublist lcs).subset hp)
          · intro p hp
            exact hlszF p ((List.dropLast_sublist lcs).subset hp)
        · refine sizeOk_node_build L M hc _ ?_ ?_ ?_ ?_ ?_
          · simp only [List.length_cons]
            omega
          · simp only [List.length_cons]
            omega
          · simp only [List.length_cons]
            omega
          · intro p hp
            rcases List.mem_cons.mp hp with h1 | hp2
            · rw [h1]
              exact hluni (lcs.getD (lcs.length - 1) (0, BTree.leaf [])) hbsubmem
            · rcases List.mem_cons.mp hp2 with h1 | hp3
              · rw [h1]
                exact hc0h
              · exact hcresth p hp3
          · intro p hp
            rcases List.mem_cons.mp hp with h1 | hp2
            · rw [h1]
              exact hlszF (lcs.getD (lcs.length - 1) (0, BTree.leaf [])) hbsubmem
            · rcases List.mem_cons.mp hp2 with h1 | hp3
              · rw [h1]
                exact hc0sz
              · exact hcrestsz p hp3
      · intro h
        cases h
      · intro _
        simp [List.length_set]
    · by_cases hirt : i + 1 < cs.length
      · obtain ⟨hrsz, hrh⟩ := hgood (i + 1) hirt (by omega)
        obtain ⟨rcs, hckr, hrhL⟩ := heightB_succ_node _ _ hrh
        rw [hckr] at hrsz
        simp only [sizeOkB] at hrsz
        obtain ⟨hrle, hrminf, hr2, hruniF, hrszF⟩ := hrsz
        have hrmin : (M + 1) / 2 ≤ rcs.length := hrminf trivial
        have hruni : ∀ p ∈ rcs, heightB p.2 = hc := by
          intro p hp
          have h1 := hruniF p hp
          have h3 : heightB (.node rcs) = 1 + heightL rcs := rfl
          rw [h3, hrhL] at h1
          omega
        have hgetDr : cs.getD (i + 1) (0, .leaf []) = cs[i + 1] :=
          List.getD_eq_getElem cs _ hirt
        by_cases hrthr : (M + 1) / 2 < rcs.length
        · obtain ⟨⟨e0, f0⟩, ⟨e1, f1⟩, rrest2, hrcs⟩ :
              ∃ p q rest2, rcs = p :: q :: rest2 := by
            cases rcs with
            | nil =>
                exfalso
                simp at hr2
            | cons a b =>
                cases b with
                | nil =>
                    exfalso
                    simp at hr2
                | cons a2 b2 => exact ⟨a, a2, b2, rfl⟩
          have hrr2 : rrest2.length = rcs.length - 2 := by
            have := congrArg List.length hrcs
            simp only [List.length_cons] at this
            omega
          have heq : fixChild L M cs i =
              (((cs.set i ((keyAtI cs i),
                .node ((d0, c0) :: crest ++ [(keyAtI cs (i + 1), f0)]))).set (i + 1)
                (keyAtI ((e0, f0) :: (e1, f1) :: rrest2) 1,
                  .node ((e0, f1) :: rrest2))), false) := by
            simp only [fixChild, hgetDi, hck2, hgetDl, hckl, hgetDr, hckr, hrcs,
              removeAtHeadI]
            simp [hiz, hlthr, hrthr, hi, hirt,
              show 0 < rrest2.length by omega]
            omega
          rw [heq]
          dsimp only
          refine ⟨?_, ?_, ?_⟩
          · refine goodIdx_set2
              (fun p => sizeOkB L M false p.2 ∧ heightB p.2 = hc + 1) cs i (i + 1) _ _
              (fun j hj h1 h3 => hgood j hj h1) ?_ ?_
            · refine sizeOk_node_build L M hc _ ?_ ?_ ?_ ?_ ?_
              · simp only [List.length_append, List.length_cons, List.length_nil]
                omega
              · simp only [List.length_append, List.length_cons, List.length_nil]
                omega
              · simp only [List.length_append, List.length_cons, List.length_nil]
                omega
              · intro p hp
                rcases List.mem_append.mp hp with hp2 | hp2
                · rcases List.mem_cons.mp hp2 with h1 | hp3
                  · rw [h1]
                    exact hc0h
                  · exact hcresth p hp3
                · rcases List.mem_cons.mp hp2 with h1 | hp3
                  · rw [h1]
                    exact hruni (e0, f0) (by rw [hrcs]; simp)
                  · cases hp3
              · intro p hp
                rcases List.mem_append.mp hp with hp2 | hp2
                · rcases List.mem_cons.mp hp2 with h1 | hp3
                  · rw [h1]
                    exact hc0sz
                  · exact hcrestsz p hp3
                · rcases List.mem_cons.mp hp2 with h1 | hp3
                  · rw [h1]
                    exact hrszF (e0, f0) (by rw [hrcs]; simp)
                  · cases hp3
            · refine sizeOk_node_build L M hc _ ?_ ?_ ?_ ?_ ?_
              · simp only [List.length_cons]
                omega
              · simp only [List.length_cons]
                omega
              · simp only [List.length_cons]
                omega
              · intro p hp
                rcases List.mem_cons.mp hp with h1 | hp2
                · rw [h1]
                  exact hruni (e1, f1) (by rw [hrcs]; simp)
                · exact hruni p
                    (by rw [hrcs]; exact List.mem_cons_of_mem _ (List.mem_cons_of_mem _ hp2))
              · intro p hp
                rcases List.mem_cons.mp hp with h1 | hp2
                · rw [h1]
                  exact hrszF (e1, f1) (by rw [hrcs]; simp)
                · exact hrszF p
                    (by rw [hrcs]; exact List.mem_cons_of_mem _ (List.mem_cons_of_mem _ hp2))
          · intro h
            cases h
          · intro _
            simp [List.length_set]
        · have heq : fixChild L M cs i =
              (((cs.set (i - 1) ((keyAtI cs (i - 1)),
                .node (lcs ++ (keyAtI cs i, c0) :: crest))).eraseIdx i), true) := by
            simp only [fixChild, hgetDi, hck2, hgetDl, hckl, hgetDr, hckr]
            simp [hiz, hlthr, hrthr, hi, hirt]
          rw [heq]
          dsimp only
          refine ⟨?_, ?_, ?_⟩
          · refine goodIdx_set_erase
              (fun p => sizeOkB L M false p.2 ∧ heightB p.2 = hc + 1) cs (i - 1) i _
              (fun j hj h1 h3 => hgood j hj h3) ?_ hi
            refine sizeOk_node_build L M hc _ ?_ ?_ ?_ ?_ ?_
            · simp only [List.length_append, List.length_cons]
              omega
            · simp only [List.length_append, List.length_cons]
              omega
            · simp only [List.length_append, List.length_cons]
              omega
            · intro p hp
              rcases List.mem_append.mp hp with hp2 | hp2
              · exact hluni p hp2
              · rcases List.mem_cons.mp hp2 with h1 | hp3
                · rw [h1]
                  exact hc0h
                · exact hcresth p hp3
            · intro p hp
              rcases List.mem_append.mp hp with hp2 | hp2
              · exact hlszF p hp2
              · rcases List.mem_cons.mp hp2 with h1 | hp3
                · rw [h1]
                  exact hc0sz
                · exact hcrestsz p hp3
          · intro _
            rw [List.length_eraseIdx_of_lt (by simpa using hi), List.length_set]
          · intro h
            cases h
      · have heq : fixChild L M cs i =
            (((cs.set (i - 1) ((keyAtI cs (i - 1)),
              .node (lcs ++ (keyAtI cs i, c0) :: crest))).eraseIdx i), true) := by
          simp only [fixChild, hgetDi, hck2, hgetDl, hckl]
          simp [hiz, hlthr, hi, hirt]
        rw [heq]
        dsimp only
        refine ⟨?_, ?_, ?_⟩
        · refine goodIdx_set_erase
            (fun p => sizeOkB L M false p.2 ∧ heightB p.2 = hc + 1) cs (i - 1) i _
            (fun j hj h1 h3 => hgood j hj h3) ?_ hi
          refine sizeOk_node_build L M hc _ ?_ ?_ ?_ ?_ ?_
          · simp only [List.length_append, List.length_cons]
            omega
          · simp only [List.length_append, List.length_cons]
            omega
          · simp only [List.length_append, List.length_cons]
            omega
          · intro p hp
            rcases List.mem_append.mp hp with hp2 | hp2
            · exact hluni p hp2
            · rcases List.mem_cons.mp hp2 with h1 | hp3
              · rw [h1]
                exact hc0h
              · exact hcresth p hp3
          · intro p hp
            rcases List.mem_append.mp hp with hp2 | hp2
            · exact hlszF p hp2
            · rcases List.mem_cons.mp hp2 with h1 | hp3
              · rw [h1]
                exact hc0sz
              · exact hcrestsz p hp3
        · intro _
          rw [List.length_eraseIdx_of_lt (by simpa using hi), List.length_set]
        · intro h
          cases h
  · have hirt : i + 1 < cs.length := by omega
    obtain ⟨hrsz, hrh⟩ := hgood (i + 1) hirt (by omega)
    obtain ⟨rcs, hckr, hrhL⟩ := heightB_succ_node _ _ hrh
    rw [hckr] at hrsz
    simp only [sizeOkB] at hrsz
    obtain ⟨hrle, hrminf, hr2, hruniF, hrszF⟩ := hrsz
    have hrmin : (M + 1) / 2 ≤ rcs.length := hrminf trivial
    have hruni : ∀ p ∈ rcs, heightB p.2 = hc := by
      intro p hp
      have h1 := hruniF p hp
      have h3 : heightB (.node rcs) = 1 + heightL rcs := rfl
      rw [h3, hrhL] at h1
      omega
    have hgetDr : cs.getD (i + 1) (0, .leaf []) = cs[i + 1] :=
      List.getD_eq_getElem cs _ hirt
    by_cases hrthr : (M + 1) / 2 < rcs.length
    · obtain ⟨⟨e0, f0⟩, ⟨e1, f1⟩, rrest2, hrcs⟩ :
          ∃ p q rest2, rcs = p :: q :: rest2 := by
        cases rcs with
        | nil =>
            exfalso
            simp at hr2
        | cons a b =>
            cases b with
            | nil =>
                exfalso
                simp at hr2
            | cons a2 b2 => exact ⟨a, a2, b2, rfl⟩
      have hrr2 : rrest2.length = rcs.length - 2 := by
        have := congrArg List.length hrcs
        simp only [List.length_cons] at this
        omega
      have heq : fixChild L M cs i =
          (((cs.set i ((keyAtI cs i),
            .node ((d0, c0) :: crest ++ [(keyAtI cs (i + 1), f0)]))).set (i + 1)
            (keyAtI ((e0, f0) :: (e1, f1) :: rrest2) 1,
              .node ((e0, f1) :: rrest2))), false) := by
        simp only [fixChild, hgetDi, hck2, hgetDr, hckr, hrcs, removeAtHeadI]
        simp [hiz, hrthr, hi, hirt, show 0 < rrest2.length by omega]
        omega
      rw [heq]
      dsimp only
      refine ⟨?_, ?_, ?_⟩
      · refine goodIdx_set2
          (fun p => sizeOkB L M false p.2 ∧ heightB p.2 = hc + 1) cs i (i + 1) _ _
          (fun j hj h1 h3 => hgood j hj h1) ?_ ?_
        · refine sizeOk_node_build L M hc _ ?_ ?_ ?_ ?_ ?_
          · simp only [List.length_append, List.length_cons, List.length_nil]
            omega
          · simp only [List.length_append, List.length_cons, List.length_nil]
            omega
          · simp only [List.length_append, List.length_cons, List.length_nil]
            omega
          · intro p hp
            rcases List.mem_append.mp hp with hp2 | hp2
            · rcases List.mem_cons.mp hp2 with h1 | hp3
              · rw [h1]
                exact hc0h
              · exact hcresth p hp3
            · rcases List.mem_cons.mp hp2 with h1 | hp3
              · rw [h1]
                exact hruni (e0, f0) (by rw [hrcs]; simp)
              · cases hp3
          · intro p hp
            rcases List.mem_append.mp hp with hp2 | hp2
            · rcases List.mem_cons.mp hp2 with h1 | hp3
              · rw [h1]
                exact hc0sz
              · exact hcrestsz p hp3
            · rcases List.mem_cons.mp hp2 with h1 | hp3
              · rw [h1]
                exact hrszF (e0, f0) (by rw [hrcs]; simp)
              · cases hp3
        · refine sizeOk_node_build L M hc _ ?_ ?_ ?_ ?_ ?_
          · simp only [List.length_cons]
            omega
          · simp only [List.length_cons]
            omega
          · simp only [List.length_cons]
            omega
          · intro p hp
            rcases List.mem_cons.mp hp with h1 | hp2
            · rw [h1]
              exact hruni (e1, f1) (by rw [hrcs]; simp)
            · exact hruni p
                (by rw [hrcs]; exact List.mem_cons_of_mem _ (List.mem_cons_of_mem _ hp2))
          · intro p hp
            rcases List.mem_cons.mp hp with h1 | hp2
            · rw [h1]
              exact hrszF (e1, f1) (by rw [hrcs]; simp)
            · exact hrszF p
                (by rw [hrcs]; exact List.mem_cons_of_mem _ (List.mem_cons_of_mem _ hp2))
      · intro h
        cases h
      · intro _
        simp [List.length_set]
    · obtain ⟨⟨e0, f0⟩, rrest, hrcs⟩ : ∃ p rest2, rcs = p :: rest2 := by
        cases rcs with
        | nil =>
            exfalso
            simp at hr2
        | cons a b => exact ⟨a, b, rfl⟩
      have hrr : rrest.length = rcs.length - 1 := by
        have := congrArg List.length hrcs
        simp only [List.length_cons] at this
        omega
      have heq : fixChild L M cs i =
          (((cs.set i ((keyAtI cs i),
            .node ((d0, c0) :: crest ++ (keyAtI cs (i + 1), f0) :: rrest))).eraseIdx
            (i + 1)), true) := by
        simp only [fixChild, hgetDi, hck2, hgetDr, hckr, hrcs]
        simp [hiz, hrthr, hi, hirt]
        omega
      rw [heq]
      dsimp only
      refine ⟨?_, ?_, ?_⟩
      · refine goodIdx_set_erase
          (fun p => sizeOkB L M false p.2 ∧ heightB p.2 = hc + 1) cs i (i + 1) _
          (fun j hj h1 h3 => hgood j hj h1) ?_ hirt
        refine sizeOk_node_build L M hc _ ?_ ?_ ?_ ?_ ?_
        · simp only [List.length_append, List.length_cons]
          omega
        · simp only [List.length_append, List.length_cons]
          omega
        · simp only [List.length_append, List.length_cons]
          omega
        · intro p hp
          rcases List.mem_append.mp hp with hp2 | hp2
          · rcases List.mem_cons.mp hp2 with h1 | hp3
            · rw [h1]
              exact hc0h
            · exact hcresth p hp3
          · rcases List.mem_cons.mp hp2 with h1 | hp3
            · rw [h1]
              exact hruni (e0, f0) (by rw [hrcs]; simp)
            · exact hruni p (by rw [hrcs]; exact List.mem_cons_of_mem _ hp3)
        · intro p hp
          rcases List.mem_append.mp hp with hp2 | hp2
          · rcases List.mem_cons.mp hp2 with h1 | hp3
            · rw [h1]
              exact hc0sz
            · exact hcrestsz p hp3
          · rcases List.mem_cons.mp hp2 with h1 | hp3
            · rw [h1]
              exact hrszF (e0, f0) (by rw [hrcs]; simp)
            · exact hrszF p (by rw [hrcs]; exact List.mem_cons_of_mem _ hp3)
      · intro _
        rw [List.length_eraseIdx_of_lt (by simpa using hirt), List.length_set]
      · intro h
        cases h

theorem removeB_node_core (L M : Nat) (hL : 1 ≤ L) (hM : 3 ≤ M) (k : Int)
    (cs : List (Int × BTree)) (hc : Nat)
    (hlen2 : 2 ≤ cs.length)
    (hgood : ∀ p ∈ cs, sizeOkB L M false p.2)
    (hhei : ∀ p ∈ cs, heightB p.2 = hc)
    (hIH : ∀ p ∈ cs,
      heightB (removeB L M p.2 k).2.1 = heightB p.2 ∧
      ((removeB L M p.2 k).1 = false → (removeB L M p.2 k).2.1 = p.2) ∧
      sizeOkRel L M (removeB L M p.2 k).2.1 ∧
      (pageUnderflow L M (removeB L M p.2 k).2.1 = false →
        sizeOkB L M false (removeB L M p.2 k).2.1)) :
    ((removeB L M (.node cs) k).1 = false →
       (removeB L M (.node cs) k).2.1 = .node cs ∧
       (removeB L M (.node cs) k).2.2 = false) ∧
    ∃ cs2, (removeB L M (.node cs) k).2.1 = .node cs2 ∧
      (∀ j : Nat, (hj : j < cs2.length) → sizeOkB L M false (cs2[j]).2 ∧
        heightB (cs2[j]).2 = hc) ∧
      ((removeB L M (.node cs) k).2.2 = true → cs2.length = cs.length - 1) ∧
      ((removeB L M (.node cs) k).2.2 = false → cs2.length = cs.length) := by
  by_cases hi : findPageIdx cs k < cs.length
  · obtain ⟨hIH1, hIH2, hIH3, hIH4⟩ := hIH cs[findPageIdx cs k] (List.getElem_mem hi)
    by_cases hfound : (removeB L M (cs[findPageIdx cs k]).2 k).1 = false
    · have heq : removeB L M (.node cs) k = (false, .node cs, false) := by
        simp only [removeB]
        rw [dif_pos hi]
        simp [hfound]
      rw [heq]
      refine ⟨fun _ => ⟨rfl, rfl⟩, cs, rfl, ?_, ?_, ?_⟩
      · intro j hj
        exact ⟨hgood _ (List.getElem_mem hj), hhei _ (List.getElem_mem hj)⟩
      · intro h
        cases h
      · intro _
        rfl
    · have hfound2 : (removeB L M (cs[findPageIdx cs k]).2 k).1 = true := by
        cases hb : (removeB L M (cs[findPageIdx cs k]).2 k).1 with
        | false => exact absurd hb hfound
        | true => rfl
      have hchh : heightB (removeB L M (cs[findPageIdx cs k]).2 k).2.1 = hc := by
        rw [hIH1]
        exact hhei _ (List.getElem_mem hi)
      have hi1 : findPageIdx cs k <
          (cs.set (findPageIdx cs k)
            ((cs[findPageIdx cs k]).1,
              (removeB L M (cs[findPageIdx cs k]).2 k).2.1)).length := by
        rw [List.length_set]
        exact hi
      have hlen1 : (cs.set (findPageIdx cs k)
          ((cs[findPageIdx cs k]).1,
            (removeB L M (cs[findPageIdx cs k]).2 k).2.1)).length = cs.length :=
        List.length_set cs _ _
      have hckcs1 : ((cs.set (findPageIdx cs k)
          ((cs[findPageIdx cs k]).1,
            (removeB L M (cs[findPageIdx cs k]).2 k).2.1))[findPageIdx cs k]).2 =
          (removeB L M (cs[findPageIdx cs k]).2 k).2.1 := by
        rw [List.getElem_set_self]
      have hgood1 : ∀ j : Nat, (hj : j < (cs.set (findPageIdx cs k)
          ((cs[findPageIdx cs k]).1,
            (removeB L M (cs[findPageIdx cs k]).2 k).2.1)).length) →
          j ≠ findPageIdx cs k →
          sizeOkB L M false (((cs.set (findPageIdx cs k)
            ((cs[findPageIdx cs k]).1,
              (removeB L M (cs[findPageIdx cs k]).2 k).2.1))[j]).2) ∧
          heightB (((cs.set (findPageIdx cs k)
            ((cs[findPageIdx cs k]).1,
              (removeB L M (cs[findPageIdx cs k]).2 k).2.1))[j]).2) = hc := by
        intro j hj hne
        rw [List.getElem_set_ne (fun h => hne h.symm)]
        have hj2 : j < cs.length := by
          rw [hlen1] at hj
          exact hj
        exact ⟨hgood _ (List.getElem_mem hj2), hhei _ (List.getElem_mem hj2)⟩
      by_cases hund : pageUnderflow L M
          (removeB L M (cs[findPageIdx cs k]).2 k).2.1 = true
      · have heq : removeB L M (.node cs) k =
            (true,
             .node (fixChild L M (cs.set (findPageIdx cs k)
               ((cs[findPageIdx cs k]).1,
                 (removeB L M (cs[findPageIdx cs k]).2 k).2.1)) (findPageIdx cs k)).1,
             (fixChild L M (cs.set (findPageIdx cs k)
               ((cs[findPageIdx cs k]).1,
                 (removeB L M (cs[findPageIdx cs k]).2 k).2.1)) (findPageIdx cs k)).2) := by
          simp only [removeB]
          rw [dif_pos hi]
          simp [hfound2, hund]
        have hfix :
            (∀ j : Nat, (hj : j < (fixChild L M (cs.set (findPageIdx cs k)
              ((cs[findPageIdx cs k]).1,
                (removeB L M (cs[findPageIdx cs k]).2 k).2.1)) (findPageIdx cs k)).1.length) →
              sizeOkB L M false (((fixChild L M (cs.set (findPageIdx cs k)
                ((cs[findPageIdx cs k]).1,
                  (removeB L M (cs[findPageIdx cs k]).2 k).2.1)) (findPageIdx cs k)).1[j]).2) ∧
              heightB (((fixChild L M (cs.set (findPageIdx cs k)
                ((cs[findPageIdx cs k]).1,
                  (removeB L M (cs[findPageIdx cs k]).2 k).2.1)) (findPageIdx cs k)).1[j]).2) = hc) ∧
            ((fixChild L M (cs.set (findPageIdx cs k)
              ((cs[findPageIdx cs k]).1,
                (removeB L M (cs[findPageIdx cs k]).2 k).2.1)) (findPageIdx cs k)).2 = true →
              (fixChild L M (cs.set (findPageIdx cs k)
                ((cs[findPageIdx cs k]).1,
                  (removeB L M (cs[findPageIdx cs k]).2 k).2.1)) (findPageIdx cs k)).1.length =
              (cs.set (findPageIdx cs k) ((cs[findPageIdx cs k]).1,
                (removeB L M (cs[findPageIdx cs k]).2 k).2.1)).length - 1) ∧
            ((fixChild L M (cs.set (findPageIdx cs k)
              ((cs[findPageIdx cs k]).1,
                (removeB L M (cs[findPageIdx cs k]).2 k).2.1)) (findPageIdx cs k)).2 = false →
              (fixChild L M (cs.set (findPageIdx cs k)
                ((cs[findPageIdx cs k]).1,
                  (removeB L M (cs[findPageIdx cs k]).2 k).2.1)) (findPageIdx cs k)).1.length =
              (cs.set (findPageIdx cs k) ((cs[findPageIdx cs k]).1,
                (removeB L M (cs[findPageIdx cs k]).2 k).2.1)).length) := by
          cases hcz : hc with
          | zero =>
              rw [hcz] at hchh hgood1
              obtain ⟨ckvs, hckvs⟩ := heightB_zero_leaf _ hchh
              have hrel := hIH3
              rw [hckvs] at hrel
              simp only [sizeOkRel] at hrel
              have hundl := hund
              rw [hckvs] at hundl
              simp only [pageUnderflow, isLeafUnderflow, decide_eq_true_eq] at hundl
              have := fixChild_ok_leaf L M hL _ (findPageIdx cs k) ckvs hi1
                (by omega) (by rw [hckcs1]; exact hckvs) hgood1 (by omega)
              exact this
          | succ hcm =>
              rw [hcz] at hchh hgood1
              obtain ⟨ccs, hccseq, hccsh⟩ := heightB_succ_node _ _ hchh
              have hrel := hIH3
              rw [hccseq] at hrel
              simp only [sizeOkRel] at hrel
              obtain ⟨hr1, hr2b, hr3, hr4, hr5⟩ := hrel
              have hundl := hund
              rw [hccseq] at hundl
              simp only [pageUnderflow, isInternalUnderflow, decide_eq_true_eq] at hundl
              have hccsuni : ∀ p ∈ ccs, heightB p.2 = hcm := by
                intro p hp
                have h1 := hr4 p hp
                have h3 : heightB (.node ccs) = 1 + heightL ccs := rfl
                rw [h3, hccsh] at h1
                omega
              have := fixChild_ok_node L M hM _ (findPageIdx cs k) ccs hcm hi1
                (by omega) (by rw [hckcs1]; exact hccseq) hgood1 (by omega)
                hccsuni hr5
              exact this
        rw [heq]
        refine ⟨?_, (fixChild L M (cs.set (findPageIdx cs k)
          ((cs[findPageIdx cs k]).1,
            (removeB L M (cs[findPageIdx cs k]).2 k).2.1)) (findPageIdx cs k)).1,
          rfl, hfix.1, ?_, ?_⟩
        · intro h
          cases h
        · intro h
          rw [hfix.2.1 h, hlen1]
        · intro h
          rw [hfix.2.2 h, hlen1]
      · have hundf : pageUnderflow L M
            (removeB L M (cs[findPageIdx cs k]).2 k).2.1 = false := by
          cases hb : pageUnderflow L M (removeB L M (cs[findPageIdx cs k]).2 k).2.1 with
          | false => rfl
          | true => exact absurd hb hund
        have heq : removeB L M (.node cs) k =
            (true,
             .node (cs.set (findPageIdx cs k)
               ((cs[findPageIdx cs k]).1,
                 (removeB L M (cs[findPageIdx cs k]).2 k).2.1)),
             false) := by
          simp only [removeB]
          rw [dif_pos hi]
          simp [hfound2, hund]
        rw [heq]
        refine ⟨?_, cs.set (findPageIdx cs k)
          ((cs[findPageIdx cs k]).1,
            (removeB L M (cs[findPageIdx cs k]).2 k).2.1), rfl, ?_, ?_, ?_⟩
        · intro h
          cases h
        · intro j hj
          by_cases hji : j = findPageIdx cs k
          · subst hji
            rw [List.getElem_set_self]
            exact ⟨hIH4 hundf, hchh⟩
          · exact hgood1 j hj hji
        · intro h
          cases h
        · intro _
          exact hlen1
  · have heq : removeB L M (.node cs) k = (false, .node cs, false) := by
      simp only [removeB]
      rw [dif_neg hi]
    rw [heq]
    refine ⟨fun _ => ⟨rfl, rfl⟩, cs, rfl, ?_, ?_, ?_⟩
    · intro j hj
      exact ⟨hgood _ (List.getElem_mem hj), hhei _ (List.getElem_mem hj)⟩
    · intro h
      cases h
    · intro _
      rfl

theorem removeB_sizeOk (L M : Nat) (hL : 1 ≤ L) (hM : 3 ≤ M) (k : Int) :
    ∀ (t : BTree), sizeOkB L M false t →
      heightB (removeB L M t k).2.1 = heightB t ∧
      ((removeB L M t k).1 = false → (removeB L M t k).2.1 = t) ∧
      sizeOkRel L M (removeB L M t k).2.1 ∧
      (pageUnderflow L M (removeB L M t k).2.1 = false →
        sizeOkB L M false (removeB L M t k).2.1) := by
  intro t
  induction t using BTree.inductionOn with
  | hleaf kvs =>
      intro hsz
      simp only [sizeOkB] at hsz
      have hmin : (L + 1) / 2 ≤ kvs.length := hsz.2 trivial
      by_cases hdup : (findFirstGE kvs k).toNat < kvs.length ∧
          (kvs.getD (findFirstGE kvs k).toNat (0, 0)).1 = k
      · have heq : removeB L M (.leaf kvs) k =
            (true, .leaf (kvs.eraseIdx (findFirstGE kvs k).toNat), false) := by
          simp only [removeB]
          rw [if_pos hdup]
        rw [heq]
        have helen : (kvs.eraseIdx (findFirstGE kvs k).toNat).length =
            kvs.length - 1 := List.length_eraseIdx_of_lt hdup.1
        refine ⟨rfl, ?_, ?_, ?_⟩
        · intro h
          cases h
        · simp only [sizeOkRel]
          rw [helen]
          exact ⟨by omega, by omega⟩
        · intro hU
          simp only [pageUnderflow, isLeafUnderflow, decide_eq_false_iff_not] at hU
          simp only [sizeOkB]
          rw [helen]
          rw [helen] at hU
          exact ⟨by omega, fun _ => by omega⟩
      · have heq : removeB L M (.leaf kvs) k = (false, .leaf kvs, false) := by
          simp only [removeB]
          rw [if_neg hdup]
        rw [heq]
        refine ⟨rfl, fun _ => rfl, ?_, fun _ => ?_⟩
        · simp only [sizeOkRel]
          exact ⟨hsz.1, by omega⟩
        · simp only [sizeOkB]
          exact ⟨hsz.1, fun _ => hmin⟩
  | hnode cs IH =>
      intro hsz
      simp only [sizeOkB] at hsz
      obtain ⟨hMle, hminf, h2le, huniF, hch⟩ := hsz
      have hmin : (M + 1) / 2 ≤ cs.length := hminf trivial
      have hnodecs : heightB (.node cs) = 1 + heightL cs := rfl
      have huni : ∀ p ∈ cs, heightB p.2 = heightL cs := by
        intro p hp
        have := huniF p hp
        omega
      obtain ⟨hc1, cs2, hcs2eq, hcs2good, hflag1, hflag2⟩ :=
        removeB_node_core L M hL hM k cs (heightL cs) h2le hch huni
          (fun p hp => IH p hp (hch p hp))
      have hlenb : cs.length - 1 ≤ cs2.length ∧ cs2.length ≤ cs.length := by
        cases hb : (removeB L M (.node cs) k).2.2 with
        | true =>
            rw [hflag1 hb]
            omega
        | false =>
            rw [hflag2 hb]
            omega
      have hcs2len : 1 ≤ cs2.length := by omega
      have hcs2uni : ∀ p ∈ cs2, heightB p.2 = heightL cs := by
        intro p hp
        obtain ⟨j, hj, hpe⟩ := List.mem_iff_getElem.mp hp
        rw [← hpe]
        exact (hcs2good j hj).2
      have hcs2sz : ∀ p ∈ cs2, sizeOkB L M false p.2 := by
        intro p hp
        obtain ⟨j, hj, hpe⟩ := List.mem_iff_getElem.mp hp
        rw [← hpe]
        exact (hcs2good j hj).1
      have hcs2ne : cs2 ≠ [] := by
        intro h
        rw [h] at hcs2len
        simp at hcs2len
      have hcs2h := heightB_node_uniform (heightL cs) cs2 hcs2uni hcs2ne
      refine ⟨?_, ?_, ?_, ?_⟩
      · rw [hcs2eq, hcs2h, hnodecs]
        omega
      · intro h
        exact (hc1 h).1
      · rw [hcs2eq]
        simp only [sizeOkRel]
        refine ⟨by omega, by omega, by omega, ?_, hcs2sz⟩
        intro p hp
        rw [hcs2h, hcs2uni p hp]
      · intro hU
        rw [hcs2eq] at hU ⊢
        simp only [pageUnderflow, isInternalUnderflow, decide_eq_false_iff_not] at hU
        simp only [sizeOkB]
        refine ⟨by omega, fun _ => by omega, by omega, ?_, hcs2sz⟩
        intro p hp
        rw [hcs2h, hcs2uni p hp]

theorem sizeOkB_weaken (L M : Nat) (t : BTree) (h : sizeOkB L M false t) :
    sizeOkB L M true t := by
  cases t with
  | leaf kvs =>
      simp only [sizeOkB] at h ⊢
      exact ⟨h.1, fun hh => by cases hh⟩
  | node cs =>
      simp only [sizeOkB] at h ⊢
      refine ⟨h.1, ?_, h.2.2.1, h.2.2.2.1, h.2.2.2.2⟩
      intro hh
      cases hh

theorem treeRemove_sizeOk (L M : Nat) (hL : 1 ≤ L) (hM : 3 ≤ M) (t : Option BTree)
    (hsz : sizeOkRoot L M t) (k : Int) :
    sizeOkRoot L M (treeRemove L M t k) := by
  cases t with
  | none => trivial
  | some t0 =>
      have hs0 : sizeOkB L M true t0 := hsz
      cases t0 with
      | leaf kvs =>
          simp only [sizeOkB] at hs0
          by_cases hdup : (findFirstGE kvs k).toNat < kvs.length ∧
              (kvs.getD (findFirstGE kvs k).toNat (0, 0)).1 = k
          · have heq : removeB L M (.leaf kvs) k =
                (true, .leaf (kvs.eraseIdx (findFirstGE kvs k).toNat), false) := by
              simp only [removeB]
              rw [if_pos hdup]
            have helen : (kvs.eraseIdx (findFirstGE kvs k).toNat).length =
                kvs.length - 1 := List.length_eraseIdx_of_lt hdup.1
            simp only [treeRemove, heq]
            split
            · trivial
            · split
              · trivial
              · show sizeOkB L M true (.leaf (kvs.eraseIdx (findFirstGE kvs k).toNat))
                simp only [sizeOkB]
                rw [helen]
                exact ⟨by omega, fun hh => by cases hh⟩
          · have heq : removeB L M (.leaf kvs) k = (false, .leaf kvs, false) := by
              simp only [removeB]
              rw [if_neg hdup]
            simp only [treeRemove, heq]
            exact hsz
      | node cs =>
          simp only [sizeOkB] at hs0
          obtain ⟨hMle, hminf, h2le, huniF, hch⟩ := hs0
          have huni : ∀ p ∈ cs, heightB p.2 = heightL cs := by
            intro p hp
            have := huniF p hp
            have h3 : heightB (.node cs) = 1 + heightL cs := rfl
            rw [h3] at this
            omega
          obtain ⟨hc1, cs2, hcs2eq, hcs2good, hflag1, hflag2⟩ :=
            removeB_node_core L M hL hM k cs (heightL cs) h2le hch huni
              (fun p hp => removeB_sizeOk L M hL hM k p.2 (hch p hp))
          have hlenb : cs.length - 1 ≤ cs2.length ∧ cs2.length ≤ cs.length := by
            cases hb : (removeB L M (.node cs) k).2.2 with
            | true =>
                rw [hflag1 hb]
                omega
            | false =>
                rw [hflag2 hb]
                omega
          have hcs2uni : ∀ p ∈ cs2, heightB p.2 = heightL cs := by
            intro p hp
            obtain ⟨j, hj, hpe⟩ := List.mem_iff_getElem.mp hp
            rw [← hpe]
            exact (hcs2good j hj).2
          have hcs2sz : ∀ p ∈ cs2, sizeOkB L M false p.2 := by
            intro p hp
            obtain ⟨j, hj, hpe⟩ := List.mem_iff_getElem.mp hp
            rw [← hpe]
            exact (hcs2good j hj).1
          have hcs2ne : cs2 ≠ [] := by
            intro h
            have := congrArg List.length h
            simp only [List.length_nil] at this
            omega
          have hcs2h := heightB_node_uniform (heightL cs) cs2 hcs2uni hcs2ne
          simp only [treeRemove]
          by_cases hfound : (removeB L M (.node cs) k).1 = false
          · rw [if_pos hfound]
            exact hsz
          · rw [if_neg hfound]
            rw [hcs2eq]
            dsimp only
            by_cases hdem : (removeB L M (.node cs) k).2.2 = true ∧ cs2.length = 1
            · rw [if_pos hdem]
              cases cs2 with
              | nil => exact absurd rfl hcs2ne
              | cons hd tl =>
                  obtain ⟨a, c⟩ := hd
                  exact sizeOkB_weaken L M c
                    (hcs2sz (a, c) (by simp))
            · rw [if_neg hdem]
              show sizeOkB L M true (.node cs2)
              have h2cs2 : 2 ≤ cs2.length := by
                cases hb : (removeB L M (.node cs) k).2.2 with
                | true =>
                    have := hflag1 hb
                    rcases Nat.lt_or_ge cs2.length 2 with hlt | hge
                    · exfalso
                      exact hdem ⟨hb, by omega⟩
                    · exact hge
                | false =>
                    rw [hflag2 hb]
                    omega
              simp only [sizeOkB]
              refine ⟨by omega, ?_, h2cs2, ?_, hcs2sz⟩
              · intro hh
                cases hh
              · intro p hp
                rw [hcs2h, hcs2uni p hp]

/-- C3 (amended): with the thresholds the code actually uses, every
successful insert and every remove preserves the size invariant that each
page holds at most its capacity and each non-root page at least
(cap + 1) / 2 entries in C++ integer division, i.e. ceil(cap / 2); and the
remove path treats a non-root page as underflowing exactly when its size
is below (cap + 1) / 2 in that division. -/
theorem C3_size_bounds_preserved (L M : Nat) (hL : 1 ≤ L) (hM : 3 ≤ M)
    (t : Option BTree) (hsz : sizeOkRoot L M t) (k v : Int) :
    (∀ (b : Bool) (t2 : Option BTree), treeInsert L M t k v = some (b, t2) →
      sizeOkRoot L M t2) ∧
    sizeOkRoot L M (treeRemove L M t k) ∧
    (∀ kvs : List (Int × Int), pageUnderflow L M (.leaf kvs) = true ↔
      kvs.length < (L + 1) / 2) ∧
    (∀ cs : List (Int × BTree), pageUnderflow L M (.node cs) = true ↔
      cs.length < (M + 1) / 2) :=
  ⟨treeInsert_sizeOk L M hL hM t hsz k v, treeRemove_sizeOk L M hL hM t hsz k,
   fun kvs => by simp [pageUnderflow, isLeafUnderflow],
   fun cs => by simp [pageUnderflow, isInternalUnderflow]⟩

/-- Witness for C3 at the concrete two-leaf tree with leaf capacity 4 and
internal capacity 3. -/
theorem C3_size_bounds_preserved_witness :
    (∀ (b : Bool) (t2 : Option BTree), treeInsert 4 3 c4tree 7 7 = some (b, t2) →
      sizeOkRoot 4 3 t2) ∧
    sizeOkRoot 4 3 (treeRemove 4 3 c4tree 7) ∧
    (∀ kvs : List (Int × Int), pageUnderflow 4 3 (.leaf kvs) = true ↔
      kvs.length < (4 + 1) / 2) ∧
    (∀ cs : List (Int × BTree), pageUnderflow 4 3 (.node cs) = true ↔
      cs.length < (3 + 1) / 2) := by
  have hsz : sizeOkRoot 4 3 c4tree := by
    show sizeOkB 4 3 true
      (.node [(0, .leaf [(1, 1), (2, 2), (3, 3)]), (4, .leaf [(4, 4), (5, 5)])])
    simp [sizeOkB, List.forall_mem_cons, heightB, heightL]
  exact C3_size_bounds_preserved 4 3 (by decide) (by decide) c4tree hsz 7 7
